import Mathlib

/-!
Verification development for the game-id extraction and reconciliation core of
garden_sync.py.

The embedding models the pure core of the script:

* per-line record processing of extract_from_file_v2 (date/hour parsing and
  normalization, the activity-relevance cutoff, user-stat accumulation,
  first-candidate game-key binding, reward-trigger detection);
* the per-file cache logic and per-directory merging of process_directory;
* the run-level merging and the reconciliation pipeline of run_extraction
  (identifier resolution, count folding, trigger folding, pruning,
  deduplication).

Python dicts (3.7+ insertion-ordered) are modelled as association lists with
unique keys; dict assignment updates a present key in place and appends an
absent one at the end, exactly as a dict does.  Strings are Lean strings, but
all comparisons and parsing are implemented on the underlying character lists
(code-point order, as in CPython) so that every definition evaluates inside
the kernel.  Regex matching itself is not re-implemented: a parsed line is
modelled by the results the individual regexes of extract_from_file_v2 produce
on it (the date token, the hour token, the ID token, the list of 8-hex-digit
candidates in author field then body, and the amount extracted by the
configured trigger pattern).  The md5 content hash is modelled as an abstract
hash function parameter: every property proved here holds for any function of
the hashed content.
-/

namespace GardenSync

/-! ### Association lists modelling Python dicts -/

/-- Dict lookup: the value at the first (for a dict: only) occurrence of a key. -/
def getA {κ α : Type} [DecidableEq κ] : List (κ × α) → κ → Option α
  | [], _ => none
  | (k, v) :: r, q => if k = q then some v else getA r q

/-- Dict assignment `m[q] = v`: update a present key in place, append an
absent one at the end (Python 3.7+ insertion order). -/
def setA {κ α : Type} [DecidableEq κ] : List (κ × α) → κ → α → List (κ × α)
  | [], q, v => [(q, v)]
  | (k, w) :: r, q, v => if k = q then (k, v) :: r else (k, w) :: setA r q v

/-- Dict deletion `del m[q]`. -/
def delA {κ α : Type} [DecidableEq κ] (m : List (κ × α)) (q : κ) : List (κ × α) :=
  m.filter (fun p => decide (p.1 ≠ q))

/-- The key list of a dict, in insertion order. -/
def keysA {κ α : Type} (m : List (κ × α)) : List κ := m.map Prod.fst

/-! ### String order and decimal parsing and formatting

CPython compares strings lexicographically by code point; int() and str()
convert between decimal digit strings and integers.  These are implemented on
the character lists underlying Lean strings so that they reduce in the kernel.
-/

/-- Lexicographic code-point order on character lists: the model of
CPython string comparison `a < b`. -/
def listLtB : List Char → List Char → Bool
  | [], [] => false
  | [], _ :: _ => true
  | _ :: _, [] => false
  | c :: cs, d :: ds =>
    if c.toNat < d.toNat then true
    else if d.toNat < c.toNat then false
    else listLtB cs ds

/-- Python string comparison `a < b`. -/
def strLtB (a b : String) : Bool := listLtB a.data b.data

/-- Value of a decimal digit character. -/
def digitVal (c : Char) : Nat := c.toNat - 48

/-- Whether a character is a decimal digit (the model of the regex class
matching a digit and of str.isdigit on ASCII). -/
def isDigitB (c : Char) : Bool := decide (48 ≤ c.toNat ∧ c.toNat ≤ 57)

/-- Value of a decimal digit string, as computed by int() on an all-digit
string. -/
def digitsVal (cs : List Char) : Nat := cs.foldl (fun a c => a * 10 + digitVal c) 0

/-- Decimal digit character of a value below ten. -/
def digitChar (n : Nat) : Char := Char.ofNat (48 + n)

/-- Fuel-driven decimal rendering of a natural number (most significant digit
first); fuel at least 1 plus the number suffices. -/
def natDigitsAux : Nat → Nat → List Char
  | 0, _ => []
  | fuel + 1, n => if n < 10 then [digitChar n] else natDigitsAux fuel (n / 10) ++ [digitChar (n % 10)]

/-- The model of Python str() on a non-negative int. -/
def natToStr (n : Nat) : String := String.mk (natDigitsAux (n + 1) n)

/-- Two-character zero-padded decimal rendering (strftime's %m and %d). -/
def natDigits2 (n : Nat) : List Char := [digitChar (n / 10 % 10), digitChar (n % 10)]

/-- Four-character zero-padded decimal rendering (strftime's %Y for the
in-range years 1..9999). -/
def natDigits4 (n : Nat) : List Char :=
  [digitChar (n / 1000 % 10), digitChar (n / 100 % 10), digitChar (n / 10 % 10), digitChar (n % 10)]

/-! ### Calendar dates and datetimes -/

/-- A calendar date as held by a Python datetime (year, month, day). -/
structure Date where
  y : Nat
  m : Nat
  d : Nat
deriving DecidableEq

/-- A Python datetime: a date plus hour, minute, second. -/
structure DateTime where
  date : Date
  hour : Nat
  minute : Nat
  second : Nat
deriving DecidableEq

/-- Gregorian leap-year rule, as implemented by Python's datetime. -/
def isLeap (y : Nat) : Bool := decide ((y % 4 = 0 ∧ ¬ y % 100 = 0) ∨ y % 400 = 0)

/-- Days in a month of a year, as implemented by Python's datetime. -/
def daysInMonth (y m : Nat) : Nat :=
  if m = 2 then (if isLeap y then 29 else 28)
  else if m = 4 ∨ m = 6 ∨ m = 9 ∨ m = 11 then 30
  else 31

/-- The dates representable by a Python datetime (year 1..9999, valid month
and day). -/
def isValidDate (dt : Date) : Bool :=
  decide (1 ≤ dt.y ∧ dt.y ≤ 9999 ∧ 1 ≤ dt.m ∧ dt.m ≤ 12 ∧ 1 ≤ dt.d ∧ dt.d ≤ daysInMonth dt.y dt.m)

/-- The next calendar day; none on overflow past datetime.max (9999/12/31),
where Python raises OverflowError. -/
def nextDay (dt : Date) : Option Date :=
  if dt.d < daysInMonth dt.y dt.m then some ⟨dt.y, dt.m, dt.d + 1⟩
  else if dt.m < 12 then some ⟨dt.y, dt.m + 1, 1⟩
  else if dt.y < 9999 then some ⟨dt.y + 1, 1, 1⟩
  else none

/-- Adding a timedelta of n days to a date; none on overflow, where Python
raises OverflowError. -/
def addDays : Nat → Date → Option Date
  | 0, dt => some dt
  | n + 1, dt =>
    match nextDay dt with
    | some dt' => addDays n dt'
    | none => none

/-- Split a character list at slashes (the shape check of strptime with
format %Y/%m/%d). -/
def splitSlash : List Char → List Char → List (List Char)
  | [], acc => [acc.reverse]
  | c :: cs, acc =>
    if c = '/' then acc.reverse :: splitSlash cs []
    else splitSlash cs (c :: acc)

/-- The model of datetime.strptime(s, "%Y/%m/%d"): exactly three slash-separated
all-digit fields (four digits for the year, one or two for month and day),
with the ranges a datetime accepts; none where strptime raises. -/
def parseDate (s : String) : Option Date :=
  match splitSlash s.data [] with
  | [ys, ms, ds] =>
    if ys.length = 4 ∧ ys.all isDigitB ∧
       1 ≤ ms.length ∧ ms.length ≤ 2 ∧ ms.all isDigitB ∧
       1 ≤ ds.length ∧ ds.length ≤ 2 ∧ ds.all isDigitB then
      let y := digitsVal ys
      let m := digitsVal ms
      let d := digitsVal ds
      if 1 ≤ y ∧ y ≤ 9999 ∧ 1 ≤ m ∧ m ≤ 12 ∧ 1 ≤ d ∧ d ≤ daysInMonth y m then
        some ⟨y, m, d⟩
      else none
    else none
  | _ => none

/-- The model of strftime("%Y/%m/%d") on a valid date. -/
def formatDate (dt : Date) : String :=
  String.mk (natDigits4 dt.y ++ '/' :: natDigits2 dt.m ++ '/' :: natDigits2 dt.d)

/-- Python datetime comparison: lexicographic on
(year, month, day, hour, minute, second). -/
def dateLtB (a b : Date) : Bool :=
  if a.y < b.y then true
  else if b.y < a.y then false
  else if a.m < b.m then true
  else if b.m < a.m then false
  else decide (a.d < b.d)

/-- Python datetime comparison `a < b`. -/
def dtLtB (a b : DateTime) : Bool :=
  if dateLtB a.date b.date then true
  else if dateLtB b.date a.date then false
  else if a.hour < b.hour then true
  else if b.hour < a.hour then false
  else if a.minute < b.minute then true
  else if b.minute < a.minute then false
  else decide (a.second < b.second)

/-! ### Per-line extraction (extract_from_file_v2, lines 167-252)

A physical log line is modelled by what the function's regexes extract from
it: the field count after splitting on the delimiter, the first date token and
the hour token found in the third field, the ID token, the 8-hex-digit
candidates found in the author field followed by those in the body, the amount
matched by the configured trigger pattern against the body (meaningful only
when an admin id is configured), and the raw third field and body that feed
the content hash. -/

structure Line where
  fieldCount : Nat
  dateMatch : Option String
  hourMatch : Option Nat
  idMatch : Option String
  keyCandidates : List String
  triggerAmount : Option Nat
  dateAndId : String
  body : String
deriving DecidableEq

/-- Configuration of one extraction run: the activity-relevance cutoff
(now minus two days, computed once at lines 172-173), whether a truthy admin
id is configured (so that a trigger pattern is compiled at lines 183-184), the
refill-cost threshold, and the content-hash function (modelling md5
hexdigest). -/
structure ExtractCfg where
  cutoffDt : DateTime
  adminConfigured : Bool
  refill_cost : Nat
  hash : String → String

/-- Per-file user stats: user id, then date string, then integer hour, to a
count (the nested defaultdict of line 169). -/
abbrev FileStats := List (String × List (String × List (Nat × Nat)))

/-- The triple returned by extract_from_file_v2. -/
structure FileResult where
  game_to_user : List (String × String)
  user_stats : FileStats
  secret_triggers : List (String × List String)
deriving DecidableEq

/-- Counter bump `m[k] += c` on a defaultdict(int). -/
def bumpK {κ : Type} [DecidableEq κ] (m : List (κ × Nat)) (k : κ) (c : Nat) : List (κ × Nat) :=
  setA m k ((getA m k).getD 0 + c)

/-- The increment user_stats[uid][ds][hour] += 1 of line 221. -/
def bumpStats (st : FileStats) (uid ds : String) (hour : Nat) : FileStats :=
  let dm := (getA st uid).getD []
  let hm := (getA dm ds).getD []
  setA st uid (setA dm ds (bumpK hm hour 1))

/-- Hour-overflow normalization, lines 204-210: for an hour of 24 or more,
parse the date, add hour div 24 days, reduce the hour modulo 24, and format
the date back; none where strptime or the timedelta addition raises (the
record is then discarded). -/
def normalizeDateHour (ds : String) (hour : Nat) : Option (String × Nat) :=
  if 24 ≤ hour then
    match parseDate ds with
    | some d =>
      match addDays (hour / 24) d with
      | some d2 => some (formatDate d2, hour % 24)
      | none => none
    | none => none
  else some (ds, hour)

/-- Date and hour extraction of lines 196-210: both regex tokens must be
present, then the overflow normalization is applied. -/
def lineDateHour (l : Line) : Option (String × Nat) :=
  match l.dateMatch, l.hourMatch with
  | some ds, some hour => normalizeDateHour ds hour
  | _, _ => none

/-- The strptime of lines 212-214 on the combined "date hour:00:00" string;
the %H directive only accepts hours up to 23. -/
def lineDT (ds : String) (hour : Nat) : Option DateTime :=
  if hour ≤ 23 then
    match parseDate ds with
    | some d => some ⟨d, hour, 0, 0⟩
    | none => none
  else none

/-- Processing of one log line inside the loop of lines 187-243: discard on
fewer than three fields, missing or unnormalizable date or hour, a timestamp
before the cutoff, or a missing ID token; otherwise bump the user's stats,
bind the first game-key candidate if the key is not yet bound, and record a
deduplicated trigger event when a configured pattern matched with an amount at
or above the threshold. -/
def extractStep (cfg : ExtractCfg) (st : FileResult) (l : Line) : FileResult :=
  if l.fieldCount < 3 then st
  else
    match lineDateHour l with
    | none => st
    | some (ds, hour) =>
      match lineDT ds hour with
      | none => st
      | some dt =>
        if dtLtB dt cfg.cutoffDt then st
        else
          match l.idMatch with
          | none => st
          | some uid =>
            let st1 : FileResult := { st with user_stats := bumpStats st.user_stats uid ds hour }
            let st2 : FileResult :=
              match l.keyCandidates with
              | [] => st1
              | gk :: _ =>
                if (getA st1.game_to_user gk).isSome then st1
                else { st1 with game_to_user := setA st1.game_to_user gk uid }
            if cfg.adminConfigured then
              match l.triggerAmount with
              | some n =>
                if cfg.refill_cost ≤ n then
                  let msg_hash := cfg.hash (l.dateAndId ++ l.body)
                  let cur := (getA st2.secret_triggers uid).getD []
                  if msg_hash ∈ cur then st2
                  else { st2 with secret_triggers := setA st2.secret_triggers uid (cur ++ [msg_hash]) }
                else st2
              | none => st2
            else st2

/-- extract_from_file_v2 (lines 167-252) on the lines of one file. -/
def extract_from_file_v2 (cfg : ExtractCfg) (lines : List Line) : FileResult :=
  lines.foldl (extractStep cfg) ⟨[], [], []⟩

/-! ### Per-file cache and per-directory processing (process_directory, lines 254-303) -/

/-- The data object of a stored cache entry; the secret_triggers field is
optional, modelling a stored object written before the schema gained trigger
data (the schema gate of line 271). -/
structure CacheData where
  game_to_user : List (String × String)
  user_stats : FileStats
  secret_triggers : Option (List (String × List String))
deriving DecidableEq

/-- A stored cache entry; a missing data field models a corrupt stored
object, whose access at line 271 raises KeyError. -/
structure CacheEntry where
  mtime : Int
  size : Int
  data : Option CacheData
deriving DecidableEq

/-- A file on disk as process_directory sees it: its path, stat results, and
parsed lines. -/
structure FileInfo where
  path : String
  mtime : Int
  size : Int
  lines : List Line
deriving DecidableEq

abbrev Cache := List (String × CacheEntry)

/-- The cache object written on a miss (lines 278-286). -/
def toCacheData (r : FileResult) : CacheData :=
  ⟨r.game_to_user, r.user_stats, some r.secret_triggers⟩

/-- The per-file part of the loop of lines 260-301: use the cached result on
an exact mtime and size match when the stored data holds trigger data;
re-extract (and update the cache) when the entry is missing, stale, or
predates trigger data; drop the file entirely (the except branch of line 299)
when mtime and size match but the stored entry has no data object. -/
def processFile (cfg : ExtractCfg) (cache : Cache) (fi : FileInfo) : Option FileResult × Cache :=
  let fresh : Option FileResult × Cache :=
    let r := extract_from_file_v2 cfg fi.lines
    (some r, setA cache fi.path ⟨fi.mtime, fi.size, some (toCacheData r)⟩)
  match getA cache fi.path with
  | some e =>
    if e.mtime = fi.mtime ∧ e.size = fi.size then
      match e.data with
      | none => (none, cache)
      | some d =>
        match d.secret_triggers with
        | some stx => (some ⟨d.game_to_user, d.user_stats, stx⟩, cache)
        | none => fresh
    else fresh
  | none => fresh

/-- Directory-level user stats: hour keys are strings (str(h) at line 294). -/
abbrev DirStats := List (String × List (String × List (String × Nat)))

/-- The accumulated result of one directory scan (and, at run level, of the
scan over all directories). -/
structure ScanResult where
  game_to_user : List (String × String)
  user_stats : DirStats
  secret_triggers : List (String × List String)
deriving DecidableEq

/-- The bump dir_user_stats[uid][ds][hs] += c of lines 291-294. -/
def bumpDir (st : DirStats) (uid ds hs : String) (c : Nat) : DirStats :=
  let dm := (getA st uid).getD []
  let hm := (getA dm ds).getD []
  setA st uid (setA dm ds (bumpK hm hs c))

/-- First-candidate-wins game-key merge of lines 289-290. -/
def mergeG2UFirstWins (acc : List (String × String)) (r : List (String × String)) :
    List (String × String) :=
  r.foldl (fun a p => if (getA a p.1).isSome then a else setA a p.1 p.2) acc

/-- Stats merge of lines 291-294, converting integer hour keys with str. -/
def mergeStatsFile (acc : DirStats) (stats : FileStats) : DirStats :=
  stats.foldl (fun a up =>
    up.2.foldl (fun b dp =>
      dp.2.foldl (fun c hp => bumpDir c up.1 dp.1 (natToStr hp.1) hp.2) b) a) acc

/-- Trigger merge of lines 295-297 (append each hash not yet present). -/
def mergeTrigsInto (acc : List (String × List String)) (tr : List (String × List String)) :
    List (String × List String) :=
  tr.foldl (fun a p =>
    p.2.foldl (fun b t =>
      let cur := (getA b p.1).getD []
      if t ∈ cur then b else setA b p.1 (cur ++ [t])) a) acc

/-- Merging one file's extraction result into the directory accumulators
(lines 288-297). -/
def mergeFileIntoDir (acc : ScanResult) (r : FileResult) : ScanResult :=
  { game_to_user := mergeG2UFirstWins acc.game_to_user r.game_to_user
    user_stats := mergeStatsFile acc.user_stats r.user_stats
    secret_triggers := mergeTrigsInto acc.secret_triggers r.secret_triggers }

/-- One iteration of the file loop of lines 260-301: process the file against
the current cache, then merge its contribution (none when the file's
processing raised). -/
def processDirStep (cfg : ExtractCfg) (acc : ScanResult × Cache) (fi : FileInfo) :
    ScanResult × Cache :=
  let pr := processFile cfg acc.2 fi
  match pr.1 with
  | none => (acc.1, pr.2)
  | some r => (mergeFileIntoDir acc.1 r, pr.2)

/-- process_directory (lines 254-303): per file, use the cache or re-extract,
then merge; a file whose processing raises contributes nothing. -/
def process_directory (cfg : ExtractCfg) (cache : Cache) (files : List FileInfo) :
    ScanResult × Cache :=
  files.foldl (processDirStep cfg) (⟨[], [], []⟩, cache)

/-- Run-level merge of one directory's results (lines 363-369): the game-key
merge overwrites, stats add (str of an already-string hour key is itself), and
triggers append if new. -/
def mergeDirIntoRun (acc : ScanResult) (d : ScanResult) : ScanResult :=
  { game_to_user := d.game_to_user.foldl (fun a p => setA a p.1 p.2) acc.game_to_user
    user_stats := d.user_stats.foldl (fun a up =>
      up.2.foldl (fun b dp =>
        dp.2.foldl (fun c hp => bumpDir c up.1 dp.1 hp.1 hp.2) b) a) acc.user_stats
    secret_triggers := mergeTrigsInto acc.secret_triggers d.secret_triggers }

/-- The scan phase of run_extraction (lines 354-369): process each configured
directory against the shared cache and merge into the run accumulators. -/
def scanDirs (cfg : ExtractCfg) (cache : Cache) (dirs : List (List FileInfo)) :
    ScanResult × Cache :=
  dirs.foldl (fun acc d =>
    let pr := process_directory cfg acc.2 d
    (mergeDirIntoRun acc.1 pr.1, pr.2)) (⟨[], [], []⟩, cache)

/-! ### Reconciliation (run_extraction, lines 371-445) -/

/-- Persisted per-key counts: date string to hour string to count. -/
abbrev Counts := List (String × List (String × Nat))

/-- One persisted entry of the final data (game_ids.json value). -/
structure FinalEntry where
  id : String
  counts : Counts
  secretTriggers : List String
deriving DecidableEq

abbrev FinalData := List (String × FinalEntry)

/-- Identifier resolution of lines 371-378: start from the persisted
entries (entry id to its key), then overwrite with every binding of the
current scan. -/
def resolve_uid_to_gk (existing : FinalData) (g2u : List (String × String)) :
    List (String × String) :=
  let base := existing.foldl (fun a p => setA a p.2.id p.1) []
  g2u.foldl (fun a p => setA a p.2 p.1) base

/-- The inner accumulation of lines 395-399 for the hours of one date. -/
def addHours (hm : List (String × Nat)) (hours : List (String × Nat)) : List (String × Nat) :=
  hours.foldl (fun a hp => setA a hp.1 ((getA a hp.1).getD 0 + hp.2)) hm

/-- The accumulation of lines 395-399 over the dates of one user's stats. -/
def addDatesC (c : Counts) (dates : List (String × List (String × Nat))) : Counts :=
  dates.foldl (fun a dp => setA a dp.1 (addHours ((getA a dp.1).getD []) dp.2)) c

/-- One step of the count folding of lines 384-399: route the user's stats
through the resolved mapping (dropping them on a missing or falsy key), create
the entry if absent, clear its counts on the first touch of the key this run,
then accumulate. -/
def foldStep (u2g : List (String × String)) (st : FinalData × List String)
    (p : String × List (String × List (String × Nat))) : FinalData × List String :=
  match getA u2g p.1 with
  | none => st
  | some gk =>
    if gk = "" then st
    else
      let e0 : FinalEntry :=
        match getA st.1 gk with
        | some e => e
        | none => ⟨p.1, [], []⟩
      let e1 := if gk ∈ st.2 then e0 else { e0 with counts := [] }
      let upd := if gk ∈ st.2 then st.2 else st.2 ++ [gk]
      let e2 := { e1 with counts := addDatesC e1.counts p.2 }
      (setA st.1 gk e2, upd)

/-- The count folding of lines 380-399 over all scanned user stats. -/
def build_final (existing : FinalData) (u2g : List (String × String)) (stats : DirStats) :
    FinalData :=
  (stats.foldl (foldStep u2g) (existing, [])).1

/-- Append the triggers not yet present, in order (lines 406-408). -/
def appendNewTriggers (l : List String) (ts : List String) : List String :=
  ts.foldl (fun a t => if t ∈ a then a else a ++ [t]) l

/-- The trigger folding of lines 401-408: for every discovered (user, hashes)
pair, append the new hashes to every entry whose id is that user. -/
def merge_triggers (fd : FinalData) (trigs : List (String × List String)) : FinalData :=
  trigs.foldl (fun a p =>
    a.map (fun q =>
      if q.2.id = p.1 then
        (q.1, { q.2 with secretTriggers := appendNewTriggers q.2.secretTriggers p.2 })
      else q)) fd

/-- Date pruning of one entry's counts (lines 416-418): delete every date
below the cutoff string. -/
def pruneCounts (cutoff : String) (c : Counts) : Counts :=
  c.filter (fun dp => !(strLtB dp.1 cutoff))

/-- The pruning of lines 410-422: prune every entry's counts, then remove the
entries whose counts became empty. -/
def prune_old (cutoff : String) (fd : FinalData) : FinalData :=
  (fd.map (fun p => (p.1, { p.2 with counts := pruneCounts cutoff p.2.counts }))).filter
    (fun p => !(p.2.counts.isEmpty))

/-- The dedup sort key of lines 434-439: (last date, total count on that
date, game key), with the sentinel "0000/00/00" for empty counts. -/
abbrev KeyStat := String × Nat × String

/-- The max over the date keys of nonempty counts (line 437). -/
def lastDateOf (c : Counts) : String :=
  match keysA c with
  | [] => "0000/00/00"
  | k :: ks => ks.foldl (fun a b => if strLtB a b then b else a) k

/-- The sum of the hour counts on the last date (line 438). -/
def totalOnLast (c : Counts) : Nat :=
  if c.isEmpty then 0
  else ((getA c (lastDateOf c)).getD []).foldl (fun a hp => a + hp.2) 0

/-- The key_stats record of lines 436-439 for one key. -/
def keyStat (fd : FinalData) (gk : String) : KeyStat :=
  let c := match getA fd gk with | some e => e.counts | none => []
  (lastDateOf c, totalOnLast c, gk)

/-- Python tuple comparison (a string, an int, a string), lexicographically:
the order the sort of line 441 uses. -/
def keyStatLeB (a b : KeyStat) : Bool :=
  if strLtB a.1 b.1 then true
  else if strLtB b.1 a.1 then false
  else if a.2.1 < b.2.1 then true
  else if b.2.1 < a.2.1 then false
  else if strLtB a.2.2 b.2.2 then true
  else if strLtB b.2.2 a.2.2 then false
  else true

/-- The descending sort order of line 441 (reverse=True): a precedes b when a
is at least b. -/
def dedupOrd (a b : KeyStat) : Prop := keyStatLeB b a = true

instance : DecidableRel dedupOrd := fun a b => inferInstanceAs (Decidable (_ = true))

/-- The uid_to_keys grouping of lines 427-430: append every key to the list
of its entry's id, skipping falsy (empty) ids. -/
def dedupGroups (fd : FinalData) : List (String × List String) :=
  fd.foldl (fun a p =>
    if p.2.id = "" then a
    else setA a p.2.id ((getA a p.2.id).getD [] ++ [p.1])) []

/-- The per-user action of lines 432-445: for a user with more than one key,
sort the key stats descending and delete every key except the first. -/
def dedupStep (acc : FinalData) (p : String × List String) : FinalData :=
  if p.2.length ≤ 1 then acc
  else
    match List.insertionSort dedupOrd (p.2.map (fun gk => keyStat acc gk)) with
    | [] => acc
    | _ :: losers => losers.foldl (fun f l => delA f l.2.2) acc

/-- The deduplication of lines 426-445: group surviving keys by truthy entry
id, then keep only the best key of each user (Python's stable sort is
modelled by a stable insertion sort, extensionally equal on these lists). -/
def dedup (fd : FinalData) : FinalData :=
  (dedupGroups fd).foldl dedupStep fd

/-- Specification helper: the keys of the entries of a map whose id is u, in
map order (what the grouping of lines 427-430 collects for a truthy u). -/
def groupKeys (fd : FinalData) (u : String) : List String :=
  (fd.filter (fun p => decide (p.2.id = u))).map Prod.fst

/-- Specification helper: the key the sort of lines 436-442 keeps for a group
of keys (the head of the descending sort of their stats). -/
def dedupWinner (fd : FinalData) (l : List String) : String :=
  match List.insertionSort dedupOrd (l.map (fun gk => keyStat fd gk)) with
  | [] => ""
  | w :: _ => w.2.2

/-- The reconciliation pipeline of run_extraction (lines 371-445) on the
accumulated scan results: resolve the mapping, fold counts, fold triggers,
prune, deduplicate. -/
def run_reconcile (existing : FinalData) (scan : ScanResult) (cutoff : String) : FinalData :=
  let u2g := resolve_uid_to_gk existing scan.game_to_user
  let fd1 := build_final existing u2g scan.user_stats
  let fd2 := merge_triggers fd1 scan.secret_triggers
  let fd3 := prune_old cutoff fd2
  dedup fd3

/-- run_extraction's in-memory computation (lines 347-445): scan all
directories through the shared cache, then reconcile against the previously
persisted data, with cutoff the formatted date of now minus one day
(line 411). -/
def run_extraction (cfg : ExtractCfg) (cache : Cache) (existing : FinalData)
    (dirs : List (List FileInfo)) (cutoff : String) : FinalData :=
  run_reconcile existing (scanDirs cfg cache dirs).1 cutoff

/-! ### Claim C1: binding precedence of the game-key mapping

Within one file (line 231) and within one directory (line 290) a key already
bound is never rebound, but the run-level merge (line 363) overwrites
unconditionally, so across directories the last directory that observed a key
provides its binding.  The claim, which asserts first-candidate-wins across
directory order as well, is therefore false. -/

def c1cfg : ExtractCfg := ⟨⟨⟨2024, 5, 1⟩, 0, 0, 0⟩, false, 30, fun s => s⟩

def c1line1 : Line := ⟨4, some "2024/05/02", some 1, some "u1", ["aaaaaaaa"], none, "t1", "b1"⟩

def c1line2 : Line := ⟨4, some "2024/05/02", some 1, some "u2", ["aaaaaaaa"], none, "t2", "b2"⟩

def c1file1 : FileInfo := ⟨"d1/f1.dat", 1, 10, [c1line1]⟩

def c1file2 : FileInfo := ⟨"d2/f2.dat", 1, 10, [c1line2]⟩

def c2cfg : ExtractCfg := ⟨⟨⟨2024, 5, 1⟩, 0, 0, 0⟩, false, 30, fun s => s⟩

def c2line : Line := ⟨4, some "2024/05/02", some 1, some "u1", [], none, "t", "b"⟩

def c2file : FileInfo := ⟨"d/f.dat", 5, 99, [c2line]⟩

/-- A corrupt stored entry: mtime and size match the file, but the data
object is absent. -/
def c2cache : Cache := [("d/f.dat", ⟨5, 99, none⟩)]

/-! ### Claim C4: deduplication keeps exactly the best key per user

The grouping of line 430 skips falsy ids, so two entries whose id is the
empty string both survive deduplication; the claim's "at most one FinalEntry
per userId" therefore fails on such persisted data.  For entries with truthy
(nonempty) ids the claim holds, with the kept key the maximum under the
descending lexicographic comparison of (lastDate, totalCountOnLastDate,
gameKey). -/

def c4ex : FinalData :=
  [("aaaaaaaa", ⟨"", [("2024/05/02", [("1", 1)])], []⟩),
   ("bbbbbbbb", ⟨"", [("2024/05/02", [("1", 1)])], []⟩)]

def c4fdW : FinalData :=
  [("aaaaaaaa", ⟨"u", [("2024/05/10", [("1", 5)])], []⟩),
   ("bbbbbbbb", ⟨"u", [("2024/05/10", [("1", 1)])], []⟩)]

/-- The per-entry trigger accumulation over all scanned (user, hashes) pairs
(the view of lines 401-408 from one entry). -/
def mergeTrigsFor (u : String) (l : List String) (trigs : List (String × List String)) :
    List String :=
  trigs.foldl (fun acc p => if u = p.1 then appendNewTriggers acc p.2 else acc) l

/-- The stats entries of one scan that the resolved mapping routes to a given
game key (the view of the loop of lines 384-399 from that key). -/
def routedTo (u2g : List (String × String)) (gk : String) (stats : DirStats) : DirStats :=
  stats.filter (fun p => decide (getA u2g p.1 = some gk))

/-- The action of foldStep on one key's entry: what lines 386-399 do to the
entry bound to the routed key (create if absent, clear counts on the first
touch of the run, then accumulate the user's dates). -/
def buildStep1 (uid : String) (dates : List (String × List (String × Nat)))
    (s : Option FinalEntry × Bool) : Option FinalEntry × Bool :=
  let e0 : FinalEntry := match s.1 with | some e => e | none => ⟨uid, [], []⟩
  let e1 : FinalEntry := if s.2 then e0 else { e0 with counts := [] }
  (some { e1 with counts := addDatesC e1.counts dates }, true)

/-- The entry a key holds after the whole count fold, as a function of its
initial entry and the stats routed to it. -/
def buildOutcome (x : Option FinalEntry) (R : DirStats) : Option FinalEntry :=
  (R.foldl (fun s p => buildStep1 p.1 p.2 s) (x, false)).1

/-- The per-key effect of the trigger merge (lines 401-408) followed by the
pruning (lines 410-422) on one entry. -/
def pipeAt (cutoff : String) (trigs : List (String × List String))
    (x : Option FinalEntry) : Option FinalEntry :=
  match x with
  | none => none
  | some e =>
      if (pruneCounts cutoff e.counts).isEmpty then none
      else some ⟨e.id, pruneCounts cutoff e.counts,
        mergeTrigsFor e.id e.secretTriggers trigs⟩

/-- One run's state before deduplication: resolve, fold counts, merge
triggers, prune (lines 371-422). -/
def preDedup (scan : ScanResult) (cutoff : String) (X : FinalData) : FinalData :=
  prune_old cutoff (merge_triggers
    (build_final X (resolve_uid_to_gk X scan.game_to_user) scan.user_stats)
    scan.secret_triggers)

/-! ### Claim C9: re-running the reconciliation over the same scan

The claim fails on persisted states that hold two entries for the same user:
the first run folds the user's stats into the later entry but keeps the
earlier one through deduplication, so the second run, seeing only the kept
entry, folds the stats into it and replaces its counts.  Under the amended
hypotheses (unique keys and unique user ids in the persisted state, scan
bindings consistent with the persisted entries, and scanned stats nonempty
and within the retention window) the run is idempotent pointwise. -/

def c9ex : FinalData :=
  [("aaaaaaaa", ⟨"u", [("2024/05/10", [("2", 5)])], []⟩),
   ("bbbbbbbb", ⟨"u", [("2024/05/10", [("3", 1)])], []⟩)]

def c9sc : ScanResult := ⟨[], [("u", [("2024/05/10", [("1", 1)])])], []⟩

def c9wE : FinalData := [("aaaaaaaa", ⟨"u", [("2024/05/10", [("1", 2)])], ["h0"]⟩)]

def c9wScan : ScanResult := ⟨[], [("u", [("2024/05/10", [("1", 1)])])], []⟩

theorem getA_setA_self {κ α : Type} [DecidableEq κ] (m : List (κ × α)) (k : κ) (v : α) :
    getA (setA m k v) k = some v := by
  induction m with
  | nil => simp [getA, setA]
  | cons p r ih =>
    obtain ⟨k', w⟩ := p
    by_cases h : k' = k <;> simp [getA, setA, h, ih]

theorem getA_setA_ne {κ α : Type} [DecidableEq κ] (m : List (κ × α)) (k q : κ) (v : α)
    (h : k ≠ q) : getA (setA m k v) q = getA m q := by
  induction m with
  | nil => simp [getA, setA, h]
  | cons p r ih =>
    obtain ⟨k', w⟩ := p
    by_cases h' : k' = k
    · subst h'; simp [getA, setA, h]
    · simp [getA, setA, h', ih]

theorem keysA_setA_of_mem {κ α : Type} [DecidableEq κ] (m : List (κ × α)) (k : κ) (v : α)
    (h : k ∈ keysA m) : keysA (setA m k v) = keysA m := by
  induction m with
  | nil => simp [keysA] at h
  | cons p r ih =>
    obtain ⟨k', w⟩ := p
    by_cases h' : k' = k
    · simp [setA, keysA, h']
    · have hmem : k ∈ keysA r := by
        rcases List.mem_cons.1 h with h | h
        · exact absurd h.symm h'
        · exact h
      simp only [setA, if_neg h', keysA, List.map_cons]
      exact congrArg (fun l => k' :: l) (ih hmem)

theorem keysA_setA_of_not_mem {κ α : Type} [DecidableEq κ] (m : List (κ × α)) (k : κ) (v : α)
    (h : k ∉ keysA m) : keysA (setA m k v) = keysA m ++ [k] := by
  induction m with
  | nil => simp [keysA, setA]
  | cons p r ih =>
    obtain ⟨k', w⟩ := p
    have hk' : k' ≠ k := by
      intro e; exact h (by simp [keysA, e])
    have hr : k ∉ keysA r := by
      intro e; exact h (List.mem_cons_of_mem _ e)
    simp only [setA, if_neg hk', keysA, List.map_cons]
    exact congrArg (fun l => k' :: l) (ih hr)

theorem nodup_keysA_setA {κ α : Type} [DecidableEq κ] (m : List (κ × α)) (k : κ) (v : α)
    (h : (keysA m).Nodup) : (keysA (setA m k v)).Nodup := by
  by_cases hm : k ∈ keysA m
  · rw [keysA_setA_of_mem m k v hm]; exact h
  · rw [keysA_setA_of_not_mem m k v hm]
    simp [List.nodup_append, h, hm]

theorem getA_none_iff_not_mem {κ α : Type} [DecidableEq κ] (m : List (κ × α)) (q : κ) :
    getA m q = none ↔ q ∉ keysA m := by
  induction m with
  | nil => simp [getA, keysA]
  | cons p r ih =>
    obtain ⟨k, v⟩ := p
    by_cases h : k = q
    · subst h
      simp [getA, keysA]
    · simp only [getA, if_neg h, keysA, List.map_cons, List.mem_cons]
      rw [ih]
      constructor
      · intro hq hor
        rcases hor with hor | hor
        · exact h hor.symm
        · exact hq hor
      · intro hq hr
        exact hq (Or.inr hr)

theorem getA_isSome_iff_mem {κ α : Type} [DecidableEq κ] (m : List (κ × α)) (q : κ) :
    (getA m q).isSome = true ↔ q ∈ keysA m := by
  rcases h : getA m q with _ | v
  · simp [Option.isSome]
    exact (getA_none_iff_not_mem m q).1 h
  · simp [Option.isSome]
    by_contra hq
    rw [← getA_none_iff_not_mem] at hq
    rw [h] at hq; cases hq

theorem getA_some_mem {κ α : Type} [DecidableEq κ] {m : List (κ × α)} {q : κ} {v : α}
    (h : getA m q = some v) : (q, v) ∈ m := by
  induction m with
  | nil => simp [getA] at h
  | cons p r ih =>
    obtain ⟨k, w⟩ := p
    by_cases hk : k = q
    · subst hk; simp [getA] at h; simp [h]
    · simp [getA, hk] at h
      exact List.mem_cons_of_mem _ (ih h)

theorem getA_of_mem_nodup {κ α : Type} [DecidableEq κ] {m : List (κ × α)} {q : κ} {v : α}
    (hn : (keysA m).Nodup) (h : (q, v) ∈ m) : getA m q = some v := by
  induction m with
  | nil => simp at h
  | cons p r ih =>
    obtain ⟨k, w⟩ := p
    have hn' : k ∉ keysA r ∧ (keysA r).Nodup :=
      List.nodup_cons.1 (show (k :: keysA r).Nodup from hn)
    rcases List.mem_cons.1 h with h' | h'
    · rw [show k = q from congrArg Prod.fst h'.symm]
      simp [getA]
      exact (congrArg Prod.snd h').symm
    · have hk : k ≠ q := by
        intro e; subst e
        exact hn'.1 (by simpa [keysA] using List.mem_map_of_mem Prod.fst h')
      simp only [getA, if_neg hk]
      exact ih hn'.2 h'

theorem delA_cons {κ α : Type} [DecidableEq κ] (p : κ × α) (r : List (κ × α)) (k : κ) :
    delA (p :: r) k = if p.1 = k then delA r k else p :: delA r k := by
  by_cases h : p.1 = k <;> simp [delA, List.filter, h]

theorem getA_delA {κ α : Type} [DecidableEq κ] (m : List (κ × α)) (k q : κ) :
    getA (delA m k) q = if k = q then none else getA m q := by
  induction m with
  | nil => simp [delA, getA]
  | cons p r ih =>
    obtain ⟨k', w⟩ := p
    rw [delA_cons]
    by_cases h' : k' = k
    · simp only [if_pos h']
      rw [ih]
      by_cases hq : k = q
      · simp [hq]
      · subst h'
        have : k' ≠ q := fun e => hq e
        simp [getA, this, hq]
    · simp only [if_neg h']
      by_cases h'' : k' = q
      · subst h''
        have : ¬ k = k' := fun e => h' e.symm
        simp [getA, this]
      · simp only [getA, if_neg h'']
        exact ih

theorem keysA_delA_sub {κ α : Type} [DecidableEq κ] (m : List (κ × α)) (k : κ) :
    keysA (delA m k) ⊆ keysA m := by
  intro q hq
  rcases List.mem_map.1 hq with ⟨p, hp, he⟩
  exact he ▸ List.mem_map_of_mem Prod.fst (List.mem_of_mem_filter hp)

theorem listLtB_irrefl : ∀ l : List Char, listLtB l l = false := by
  intro l
  induction l with
  | nil => rfl
  | cons c cs ih => simp [listLtB, ih]

theorem listLtB_asymm : ∀ {a b : List Char}, listLtB a b = true → listLtB b a = false := by
  intro a
  induction a with
  | nil =>
    intro b h
    cases b with
    | nil => simpa [listLtB] using h
    | cons d ds => simp [listLtB]
  | cons c cs ih =>
    intro b h
    cases b with
    | nil => simpa [listLtB] using h
    | cons d ds =>
      by_cases h1 : c.toNat < d.toNat
      · have h2 : ¬ d.toNat < c.toNat := Nat.lt_asymm h1
        simp [listLtB, h1, h2]
      · by_cases h2 : d.toNat < c.toNat
        · simp [listLtB, h1, h2] at h
        · simp [listLtB, h1, h2] at h ⊢
          exact ih h

theorem listLtB_trans : ∀ {a b c : List Char},
    listLtB a b = true → listLtB b c = true → listLtB a c = true := by
  intro a
  induction a with
  | nil =>
    intro b c hab hbc
    cases b with
    | nil => simpa [listLtB] using hab
    | cons d ds =>
      cases c with
      | nil => simpa [listLtB] using hbc
      | cons e es => simp [listLtB]
  | cons x xs ih =>
    intro b c hab hbc
    cases b with
    | nil => simpa [listLtB] using hab
    | cons d ds =>
      cases c with
      | nil => simpa [listLtB] using hbc
      | cons e es =>
        by_cases h1 : x.toNat < d.toNat
        · by_cases h2 : d.toNat < e.toNat
          · simp [listLtB, Nat.lt_trans h1 h2]
          · by_cases h3 : e.toNat < d.toNat
            · simp [listLtB, h2, h3] at hbc
            · have : d.toNat = e.toNat := Nat.le_antisymm (Nat.le_of_not_lt h3) (Nat.le_of_not_lt h2)
              simp [listLtB, this ▸ h1]
        · by_cases h1' : d.toNat < x.toNat
          · simp [listLtB, h1, h1'] at hab
          · have hxd : x.toNat = d.toNat := Nat.le_antisymm (Nat.le_of_not_lt h1') (Nat.le_of_not_lt h1)
            simp [listLtB, h1, h1'] at hab
            by_cases h2 : d.toNat < e.toNat
            · simp [listLtB, hxd ▸ h2]
            · by_cases h3 : e.toNat < d.toNat
              · simp [listLtB, h2, h3] at hbc
              · simp [listLtB, h2, h3] at hbc
                simp [listLtB, hxd ▸ h2, hxd ▸ h3]
                exact ih hab hbc

theorem listLtB_eq_of_both_false : ∀ {a b : List Char},
    listLtB a b = false → listLtB b a = false → a = b := by
  intro a
  induction a with
  | nil =>
    intro b hab _
    cases b with
    | nil => rfl
    | cons d ds => simp [listLtB] at hab
  | cons c cs ih =>
    intro b hab hba
    cases b with
    | nil => simp [listLtB] at hba
    | cons d ds =>
      by_cases h1 : c.toNat < d.toNat
      · simp [listLtB, h1] at hab
      · by_cases h2 : d.toNat < c.toNat
        · simp [listLtB, h1, h2] at hba
        · have hval : c.toNat = d.toNat := Nat.le_antisymm (Nat.le_of_not_lt h2) (Nat.le_of_not_lt h1)
          have hc : c = d := Char.eq_of_val_eq (by
            have hvv : c.val.toNat = d.val.toNat := hval
            exact UInt32.ext hvv)
          simp [listLtB, h1, h2] at hab hba
          exact hc ▸ congrArg (List.cons c) (ih hab hba)

theorem strLtB_irrefl (a : String) : strLtB a a = false := listLtB_irrefl a.data

theorem strLtB_asymm {a b : String} (h : strLtB a b = true) : strLtB b a = false :=
  listLtB_asymm h

theorem strLtB_trans {a b c : String} (hab : strLtB a b = true) (hbc : strLtB b c = true) :
    strLtB a c = true := listLtB_trans hab hbc

theorem strLtB_eq_of_both_false {a b : String} (hab : strLtB a b = false)
    (hba : strLtB b a = false) : a = b := by
  cases a; cases b
  exact congrArg String.mk (listLtB_eq_of_both_false hab hba)

theorem daysInMonth_pos (y m : Nat) : 1 ≤ daysInMonth y m := by
  unfold daysInMonth
  by_cases h2 : m = 2
  · simp [h2]
    by_cases hl : isLeap y = true <;> simp [hl] <;> omega
  · by_cases h30 : m = 4 ∨ m = 6 ∨ m = 9 ∨ m = 11 <;> simp [h2, h30]

theorem nextDay_valid {dt dt' : Date} (hv : isValidDate dt = true)
    (h : nextDay dt = some dt') : isValidDate dt' = true := by
  have hv' := of_decide_eq_true hv
  obtain ⟨v1, v2, v3, v4, v5, v6⟩ := hv'
  unfold nextDay at h
  by_cases h1 : dt.d < daysInMonth dt.y dt.m
  · rw [if_pos h1] at h
    cases h
    exact decide_eq_true ⟨v1, v2, v3, v4, Nat.succ_le_succ (Nat.zero_le _), Nat.succ_le_of_lt h1⟩
  · rw [if_neg h1] at h
    by_cases h2 : dt.m < 12
    · rw [if_pos h2] at h
      cases h
      exact decide_eq_true ⟨v1, v2, Nat.succ_le_succ (Nat.zero_le _), Nat.succ_le_of_lt h2,
        Nat.le_refl 1, daysInMonth_pos _ _⟩
    · rw [if_neg h2] at h
      by_cases h3 : dt.y < 9999
      · rw [if_pos h3] at h
        cases h
        exact decide_eq_true ⟨Nat.succ_le_succ (Nat.zero_le _), Nat.succ_le_of_lt h3,
          Nat.le_refl 1, show (1 : Nat) ≤ 12 by decide, Nat.le_refl 1, daysInMonth_pos _ _⟩
      · rw [if_neg h3] at h
        cases h

theorem addDays_valid : ∀ (n : Nat) {dt dt' : Date}, isValidDate dt = true →
    addDays n dt = some dt' → isValidDate dt' = true := by
  intro n
  induction n with
  | zero =>
    intro dt dt' hv h
    cases h
    exact hv
  | succ k ih =>
    intro dt dt' hv h
    unfold addDays at h
    rcases he : nextDay dt with _ | dmid
    · rw [he] at h; cases h
    · rw [he] at h
      exact ih (nextDay_valid hv he) h

theorem parseDate_valid {s : String} {dt : Date} (h : parseDate s = some dt) :
    isValidDate dt = true := by
  unfold parseDate at h
  rcases hs : splitSlash s.data [] with _ | ⟨ys, tl⟩
  · rw [hs] at h; cases h
  · rcases tl with _ | ⟨ms, tl2⟩
    · rw [hs] at h; cases h
    · rcases tl2 with _ | ⟨ds, tl3⟩
      · rw [hs] at h; cases h
      · rcases tl3 with _ | _
        · rw [hs] at h
          simp only at h
          by_cases hc : ys.length = 4 ∧ ys.all isDigitB ∧
              1 ≤ ms.length ∧ ms.length ≤ 2 ∧ ms.all isDigitB ∧
              1 ≤ ds.length ∧ ds.length ≤ 2 ∧ ds.all isDigitB
          · rw [if_pos hc] at h
            by_cases hr : 1 ≤ digitsVal ys ∧ digitsVal ys ≤ 9999 ∧ 1 ≤ digitsVal ms ∧
                digitsVal ms ≤ 12 ∧ 1 ≤ digitsVal ds ∧
                digitsVal ds ≤ daysInMonth (digitsVal ys) (digitsVal ms)
            · rw [if_pos hr] at h
              cases h
              exact decide_eq_true hr
            · rw [if_neg hr] at h; cases h
          · rw [if_neg hc] at h; cases h
        · rw [hs] at h; cases h

theorem keyStatLeB_refl (a : KeyStat) : keyStatLeB a a = true := by
  simp [keyStatLeB, strLtB_irrefl]

theorem keyStatLeB_iff (a b : KeyStat) : keyStatLeB a b = true ↔
    (strLtB a.1 b.1 = true ∨ (a.1 = b.1 ∧ (a.2.1 < b.2.1 ∨ (a.2.1 = b.2.1 ∧
      (strLtB a.2.2 b.2.2 = true ∨ a.2.2 = b.2.2))))) := by
  constructor
  · intro h
    by_cases h1 : strLtB a.1 b.1 = true
    · exact Or.inl h1
    · have h1' : strLtB a.1 b.1 = false := by simpa using h1
      by_cases h2 : strLtB b.1 a.1 = true
      · simp [keyStatLeB, h1', h2] at h
      · have h2' : strLtB b.1 a.1 = false := by simpa using h2
        have he1 : a.1 = b.1 := strLtB_eq_of_both_false h1' h2'
        refine Or.inr ⟨he1, ?_⟩
        by_cases h3 : a.2.1 < b.2.1
        · exact Or.inl h3
        · by_cases h4 : b.2.1 < a.2.1
          · simp [keyStatLeB, h1', h2', h3, h4] at h
          · have he2 : a.2.1 = b.2.1 := Nat.le_antisymm (Nat.le_of_not_lt h4) (Nat.le_of_not_lt h3)
            refine Or.inr ⟨he2, ?_⟩
            by_cases h5 : strLtB a.2.2 b.2.2 = true
            · exact Or.inl h5
            · have h5' : strLtB a.2.2 b.2.2 = false := by simpa using h5
              by_cases h6 : strLtB b.2.2 a.2.2 = true
              · simp [keyStatLeB, h1', h2', h3, h4, h5', h6] at h
              · exact Or.inr (strLtB_eq_of_both_false h5' (by simpa using h6))
  · intro h
    rcases h with h1 | ⟨he1, h⟩
    · simp [keyStatLeB, h1]
    · have h1' : strLtB a.1 b.1 = false := by rw [he1]; exact strLtB_irrefl _
      have h2' : strLtB b.1 a.1 = false := by rw [he1]; exact strLtB_irrefl _
      rcases h with h3 | ⟨he2, h⟩
      · simp [keyStatLeB, h1', h2', h3]
      · have h3' : ¬ a.2.1 < b.2.1 := by omega
        have h4' : ¬ b.2.1 < a.2.1 := by omega
        rcases h with h5 | he3
        · simp [keyStatLeB, h1', h2', h3', h4', h5]
        · have h5' : strLtB a.2.2 b.2.2 = false := by rw [he3]; exact strLtB_irrefl _
          have h6' : strLtB b.2.2 a.2.2 = false := by rw [he3]; exact strLtB_irrefl _
          simp [keyStatLeB, h1', h2', h3', h4', h5', h6']

theorem keyStatLeB_total (a b : KeyStat) : keyStatLeB a b = true ∨ keyStatLeB b a = true := by
  by_cases h1 : strLtB a.1 b.1 = true
  · exact Or.inl ((keyStatLeB_iff a b).2 (Or.inl h1))
  · have h1' : strLtB a.1 b.1 = false := by simpa using h1
    by_cases h2 : strLtB b.1 a.1 = true
    · exact Or.inr ((keyStatLeB_iff b a).2 (Or.inl h2))
    · have h2' : strLtB b.1 a.1 = false := by simpa using h2
      have he1 : a.1 = b.1 := strLtB_eq_of_both_false h1' h2'
      by_cases h3 : a.2.1 < b.2.1
      · exact Or.inl ((keyStatLeB_iff a b).2 (Or.inr ⟨he1, Or.inl h3⟩))
      · by_cases h4 : b.2.1 < a.2.1
        · exact Or.inr ((keyStatLeB_iff b a).2 (Or.inr ⟨he1.symm, Or.inl h4⟩))
        · have he2 : a.2.1 = b.2.1 := Nat.le_antisymm (Nat.le_of_not_lt h4) (Nat.le_of_not_lt h3)
          by_cases h5 : strLtB a.2.2 b.2.2 = true
          · exact Or.inl ((keyStatLeB_iff a b).2 (Or.inr ⟨he1, Or.inr ⟨he2, Or.inl h5⟩⟩))
          · have h5' : strLtB a.2.2 b.2.2 = false := by simpa using h5
            by_cases h6 : strLtB b.2.2 a.2.2 = true
            · exact Or.inr ((keyStatLeB_iff b a).2
                (Or.inr ⟨he1.symm, Or.inr ⟨he2.symm, Or.inl h6⟩⟩))
            · have he3 : a.2.2 = b.2.2 :=
                strLtB_eq_of_both_false h5' (by simpa using h6)
              exact Or.inl ((keyStatLeB_iff a b).2
                (Or.inr ⟨he1, Or.inr ⟨he2, Or.inr he3⟩⟩))

theorem keyStatLeB_trans {a b c : KeyStat} (hab : keyStatLeB a b = true)
    (hbc : keyStatLeB b c = true) : keyStatLeB a c = true := by
  rw [keyStatLeB_iff] at hab hbc ⊢
  rcases hab with h1 | ⟨e1, hab⟩
  · rcases hbc with h2 | ⟨e2, hbc⟩
    · exact Or.inl (strLtB_trans h1 h2)
    · exact Or.inl (e2 ▸ h1)
  · rcases hbc with h2 | ⟨e2, hbc⟩
    · exact Or.inl (e1 ▸ h2)
    · refine Or.inr ⟨e1.trans e2, ?_⟩
      rcases hab with h3 | ⟨f1, hab⟩
      · rcases hbc with h4 | ⟨f2, hbc⟩
        · exact Or.inl (Nat.lt_trans h3 h4)
        · exact Or.inl (f2 ▸ h3)
      · rcases hbc with h4 | ⟨f2, hbc⟩
        · exact Or.inl (f1 ▸ h4)
        · refine Or.inr ⟨f1.trans f2, ?_⟩
          rcases hab with h5 | g1
          · rcases hbc with h6 | g2
            · exact Or.inl (strLtB_trans h5 h6)
            · exact Or.inl (g2 ▸ h5)
          · rcases hbc with h6 | g2
            · exact Or.inl (g1 ▸ h6)
            · exact Or.inr (g1.trans g2)

instance : IsTotal KeyStat dedupOrd :=
  ⟨fun a b => keyStatLeB_total b a⟩

instance : IsTrans KeyStat dedupOrd :=
  ⟨fun _ _ _ hab hbc => keyStatLeB_trans hbc hab⟩

instance : IsRefl KeyStat dedupOrd :=
  ⟨fun a => keyStatLeB_refl a⟩

/-! ### Support lemmas for the game-key merges -/

theorem extractStep_g2u_cases (cfg : ExtractCfg) (st : FileResult) (l : Line) :
    (extractStep cfg st l).game_to_user = st.game_to_user ∨
    ∃ gk uid, (getA st.game_to_user gk).isSome = false ∧
      (extractStep cfg st l).game_to_user = setA st.game_to_user gk uid := by
  by_cases h3 : l.fieldCount < 3
  · left; simp [extractStep, h3]
  · rcases hdh : lineDateHour l with _ | ⟨ds, hour⟩
    · left; simp [extractStep, h3, hdh]
    · rcases hdt : lineDT ds hour with _ | dt
      · left; simp [extractStep, h3, hdh, hdt]
      · by_cases hlt : dtLtB dt cfg.cutoffDt = true
        · left; simp [extractStep, h3, hdh, hdt, hlt]
        · rcases hid : l.idMatch with _ | uid
          · left; simp [extractStep, h3, hdh, hdt, hlt, hid]
          · rcases hk : l.keyCandidates with _ | ⟨gk0, rest⟩
            · left
              simp only [extractStep, if_neg h3, hdh, hdt, hid, hk,
                Bool.not_eq_true] at hlt ⊢
              rw [hlt]
              simp only [Bool.false_eq_true, if_false]
              (repeat' split) <;> rfl
            · by_cases hg : (getA st.game_to_user gk0).isSome
              · left
                simp only [extractStep, if_neg h3, hdh, hdt, hid, hk,
                  Bool.not_eq_true] at hlt ⊢
                rw [hlt]
                simp only [Bool.false_eq_true, if_false, hg, if_true]
                (repeat' split) <;> rfl
              · right
                refine ⟨gk0, uid, by simpa using hg, ?_⟩
                simp only [extractStep, if_neg h3, hdh, hdt, hid, hk,
                  Bool.not_eq_true] at hlt ⊢
                rw [hlt]
                simp only [Bool.false_eq_true, if_false]
                rw [show (getA st.game_to_user gk0).isSome = false by simpa using hg]
                simp only [Bool.false_eq_true, if_false]
                (repeat' split) <;> rfl

theorem getA_mergeG2UFirstWins_pres (r acc : List (String × String)) (gk u : String)
    (h : getA acc gk = some u) : getA (mergeG2UFirstWins acc r) gk = some u := by
  induction r generalizing acc with
  | nil => exact h
  | cons p rest ih =>
    obtain ⟨k, v⟩ := p
    have hstep : getA (if (getA acc k).isSome then acc else setA acc k v) gk = some u := by
      by_cases hp : (getA acc k).isSome
      · rw [if_pos hp]; exact h
      · rw [if_neg hp]
        by_cases he : k = gk
        · subst he; rw [h] at hp; simp at hp
        · rw [getA_setA_ne _ _ _ _ he]; exact h
    exact ih _ hstep

theorem getA_overwrite_foldl_not_mem (ps : List (String × String))
    (acc : List (String × String)) (gk : String) (h : gk ∉ keysA ps) :
    getA (ps.foldl (fun a p => setA a p.1 p.2) acc) gk = getA acc gk := by
  induction ps generalizing acc with
  | nil => rfl
  | cons p rest ih =>
    obtain ⟨k, v⟩ := p
    have h1 : k ≠ gk := fun e => h (by simp [keysA, e])
    have h2 : gk ∉ keysA rest := fun e => h (List.mem_cons_of_mem _ e)
    rw [List.foldl_cons, ih _ h2]
    exact getA_setA_ne _ _ _ _ h1

theorem getA_overwrite_foldl_getA (ps : List (String × String))
    (acc : List (String × String)) (gk u : String)
    (hn : (keysA ps).Nodup) (h : getA ps gk = some u) :
    getA (ps.foldl (fun a p => setA a p.1 p.2) acc) gk = some u := by
  induction ps generalizing acc with
  | nil => simp [getA] at h
  | cons p rest ih =>
    obtain ⟨k, v⟩ := p
    have hn' : k ∉ keysA rest ∧ (keysA rest).Nodup :=
      List.nodup_cons.1 (show (k :: keysA rest).Nodup from hn)
    by_cases he : k = gk
    · subst he
      have hu : v = u := by simpa [getA] using h
      rw [List.foldl_cons, getA_overwrite_foldl_not_mem rest _ _ hn'.1]
      rw [getA_setA_self, hu]
    · have h' : getA rest gk = some u := by simpa [getA, he] using h
      rw [List.foldl_cons]
      exact ih _ hn'.2 h' 

/-- Counterexample to C1: the first record of the whole scan (first file of
the first directory) binds key "aaaaaaaa" to "u1", but the accumulated
run-level mapping binds it to "u2", contributed by the second directory. -/
theorem c1_counterexample :
    getA (extract_from_file_v2 c1cfg [c1line1]).game_to_user "aaaaaaaa" = some "u1" ∧
    getA (scanDirs c1cfg [] [[c1file1], [c1file2]]).1.game_to_user "aaaaaaaa" = some "u2" := by
  decide

/-- C1 as amended: a key already bound is never rebound by a later record of
the same file, nor by a later file of the same directory; but the run-level
merge takes each directory's binding over the accumulated one, so across
directories the binding of the last observing directory wins. -/
theorem c1_amended_binding_precedence :
    (∀ (cfg : ExtractCfg) (st : FileResult) (l : Line) (gk u : String),
      getA st.game_to_user gk = some u →
      getA (extractStep cfg st l).game_to_user gk = some u) ∧
    (∀ (acc : ScanResult) (r : FileResult) (gk u : String),
      getA acc.game_to_user gk = some u →
      getA (mergeFileIntoDir acc r).game_to_user gk = some u) ∧
    (∀ (acc d : ScanResult) (gk u : String), (keysA d.game_to_user).Nodup →
      getA d.game_to_user gk = some u →
      getA (mergeDirIntoRun acc d).game_to_user gk = some u) := by
  refine ⟨?_, ?_, ?_⟩
  · intro cfg st l gk u h
    rcases extractStep_g2u_cases cfg st l with hc | ⟨gk0, uid0, hns, hc⟩
    · rw [hc]; exact h
    · rw [hc]
      by_cases he : gk0 = gk
      · subst he
        rw [h] at hns
        cases hns
      · rw [getA_setA_ne _ _ _ _ he]
        exact h
  · intro acc r gk u h
    exact getA_mergeG2UFirstWins_pres r.game_to_user acc.game_to_user gk u h
  · intro acc d gk u hn h
    exact getA_overwrite_foldl_getA d.game_to_user acc.game_to_user gk u hn h

/-- Witness for C1 as amended, applying all three conjuncts at concrete
states. -/
theorem c1_amended_binding_precedence_witness :
    getA (extractStep c1cfg ⟨[("aaaaaaaa", "u1")], [], []⟩ c1line2).game_to_user "aaaaaaaa" =
      some "u1" ∧
    getA (mergeFileIntoDir ⟨[("aaaaaaaa", "u1")], [], []⟩
      ⟨[("aaaaaaaa", "u2")], [], []⟩).game_to_user "aaaaaaaa" = some "u1" ∧
    getA (mergeDirIntoRun ⟨[("aaaaaaaa", "u1")], [], []⟩
      ⟨[("aaaaaaaa", "u2")], [], []⟩).game_to_user "aaaaaaaa" = some "u2" :=
  ⟨c1_amended_binding_precedence.1 c1cfg ⟨[("aaaaaaaa", "u1")], [], []⟩ c1line2 "aaaaaaaa" "u1"
      (by decide),
   c1_amended_binding_precedence.2.1 ⟨[("aaaaaaaa", "u1")], [], []⟩ ⟨[("aaaaaaaa", "u2")], [], []⟩
      "aaaaaaaa" "u1" (by decide),
   c1_amended_binding_precedence.2.2 ⟨[("aaaaaaaa", "u1")], [], []⟩ ⟨[("aaaaaaaa", "u2")], [], []⟩
      "aaaaaaaa" "u2" (by decide) (by decide)⟩

/-! ### Claim C2: the file-cache contract

A hit requires exact mtime and size equality plus stored trigger data, and a
missing, stale, or schema-outdated entry only forces re-parsing.  But a stored
entry whose mtime and size match while its data object is absent raises
KeyError inside the cache check, and the surrounding per-file handler then
drops the file's whole contribution (line 299-301) instead of re-parsing it,
so the claim as stated is false. -/

theorem processFile_miss (cfg : ExtractCfg) (cache : Cache) (fi : FileInfo)
    (hm : ∀ e, getA cache fi.path = some e →
      e.mtime ≠ fi.mtime ∨ e.size ≠ fi.size ∨
      ∃ d, e.data = some d ∧ d.secret_triggers = none) :
    processFile cfg cache fi =
      (some (extract_from_file_v2 cfg fi.lines),
       setA cache fi.path
         ⟨fi.mtime, fi.size, some (toCacheData (extract_from_file_v2 cfg fi.lines))⟩) := by
  rcases hc : getA cache fi.path with _ | e
  · simp only [processFile, hc]
  · obtain ⟨em, es, edata⟩ := e
    rcases hm _ hc with h | h | ⟨d, hd, hst⟩
    · have h' : em ≠ fi.mtime := h
      simp [processFile, hc, h']
    · have h' : es ≠ fi.size := h
      simp [processFile, hc, h']
    · obtain ⟨dg, du, dst⟩ := d
      have hd' : edata = some ⟨dg, du, dst⟩ := hd
      have hst' : dst = none := hst
      subst hd'
      subst hst'
      by_cases hms : em = fi.mtime ∧ es = fi.size
      · obtain ⟨h1, h2⟩ := hms
        subst h1
        subst h2
        simp [processFile, hc]
      · simp only [processFile, hc]
        rw [if_neg (fun hand => hms ⟨hand.1, hand.2⟩)]

theorem processFile_cache_other (cfg : ExtractCfg) (cache : Cache) (fi : FileInfo)
    (q : String) (hq : fi.path ≠ q) :
    getA (processFile cfg cache fi).2 q = getA cache q := by
  rcases hc : getA cache fi.path with _ | e
  · simp only [processFile, hc]
    exact getA_setA_ne _ _ _ _ hq
  · obtain ⟨em, es, edata⟩ := e
    by_cases hms : em = fi.mtime ∧ es = fi.size
    · obtain ⟨h1, h2⟩ := hms
      subst h1
      subst h2
      rcases edata with _ | d
      · simp [processFile, hc]
      · obtain ⟨dg, du, dst⟩ := d
        rcases dst with _ | stx
        · simp only [processFile, hc]
          simp
          exact getA_setA_ne _ _ _ _ hq
        · simp [processFile, hc]
    · simp only [processFile, hc]
      rw [if_neg (fun hand => hms ⟨hand.1, hand.2⟩)]
      exact getA_setA_ne _ _ _ _ hq

theorem process_directory_fold_cache_irrelevant (cfg : ExtractCfg) :
    ∀ (files : List FileInfo) (c1 c2 : Cache) (acc : ScanResult),
      (files.map FileInfo.path).Nodup →
      (∀ fi ∈ files, ∀ e, getA c1 fi.path = some e →
        e.mtime ≠ fi.mtime ∨ e.size ≠ fi.size ∨
        ∃ d, e.data = some d ∧ d.secret_triggers = none) →
      (∀ fi ∈ files, ∀ e, getA c2 fi.path = some e →
        e.mtime ≠ fi.mtime ∨ e.size ≠ fi.size ∨
        ∃ d, e.data = some d ∧ d.secret_triggers = none) →
      (files.foldl (processDirStep cfg) (acc, c1)).1 =
        (files.foldl (processDirStep cfg) (acc, c2)).1 := by
  intro files
  induction files with
  | nil => intro c1 c2 acc _ _ _; rfl
  | cons fi rest ih =>
    intro c1 c2 acc hnd hm1 hm2
    have hnd' : (rest.map FileInfo.path).Nodup ∧ fi.path ∉ rest.map FileInfo.path := by
      have := List.nodup_cons.1 (show (fi.path :: rest.map FileInfo.path).Nodup from hnd)
      exact ⟨this.2, this.1⟩
    have hs1 : processDirStep cfg (acc, c1) fi =
        (mergeFileIntoDir acc (extract_from_file_v2 cfg fi.lines),
         setA c1 fi.path
           ⟨fi.mtime, fi.size, some (toCacheData (extract_from_file_v2 cfg fi.lines))⟩) := by
      unfold processDirStep
      rw [processFile_miss cfg c1 fi (hm1 fi (List.mem_cons_self fi rest))]
    have hs2 : processDirStep cfg (acc, c2) fi =
        (mergeFileIntoDir acc (extract_from_file_v2 cfg fi.lines),
         setA c2 fi.path
           ⟨fi.mtime, fi.size, some (toCacheData (extract_from_file_v2 cfg fi.lines))⟩) := by
      unfold processDirStep
      rw [processFile_miss cfg c2 fi (hm2 fi (List.mem_cons_self fi rest))]
    rw [List.foldl_cons, List.foldl_cons, hs1, hs2]
    apply ih
    · exact hnd'.1
    · intro f hf e he
      have hne : fi.path ≠ f.path := by
        intro hcontra
        exact hnd'.2 (hcontra ▸ List.mem_map_of_mem FileInfo.path hf)
      rw [getA_setA_ne _ _ _ _ hne] at he
      exact hm1 f (List.mem_cons_of_mem _ hf) e he
    · intro f hf e he
      have hne : fi.path ≠ f.path := by
        intro hcontra
        exact hnd'.2 (hcontra ▸ List.mem_map_of_mem FileInfo.path hf)
      rw [getA_setA_ne _ _ _ _ hne] at he
      exact hm2 f (List.mem_cons_of_mem _ hf) e he

/-- Counterexample to C2: with a corrupt cache entry whose mtime and size
match the file, the directory scan yields no user stats at all, while the
uncached scan of the same file yields the file's stats — the corrupt entry
changed the run's extraction results instead of merely forcing a re-parse. -/
theorem c2_counterexample :
    (process_directory c2cfg c2cache [c2file]).1.user_stats = [] ∧
    (process_directory c2cfg [] [c2file]).1.user_stats =
      [("u1", [("2024/05/02", [("1", 1)])])] :=
  ⟨by decide, by decide⟩

/-- C2 as amended: the cached result is re-used exactly under mtime and size
equality with stored trigger data; and whenever every stored entry for a
scanned file is stale in mtime or size, or carries a data object without
trigger data, the scan of the directory equals the scan with an empty cache
(missing entries included, since their files re-parse identically).  The
exception the counterexample exhibits — an entry matching mtime and size
whose data object is absent — drops the file instead. -/
theorem c2_amended_cache_contract :
    (∀ (cfg : ExtractCfg) (cache : Cache) (fi : FileInfo) (e : CacheEntry) (d : CacheData)
       (stx : List (String × List String)),
      getA cache fi.path = some e → e.mtime = fi.mtime → e.size = fi.size →
      e.data = some d → d.secret_triggers = some stx →
      processFile cfg cache fi = (some ⟨d.game_to_user, d.user_stats, stx⟩, cache)) ∧
    (∀ (cfg : ExtractCfg) (files : List FileInfo) (cache : Cache),
      (files.map FileInfo.path).Nodup →
      (∀ fi ∈ files, ∀ e, getA cache fi.path = some e →
        e.mtime ≠ fi.mtime ∨ e.size ≠ fi.size ∨
        ∃ d, e.data = some d ∧ d.secret_triggers = none) →
      (process_directory cfg cache files).1 = (process_directory cfg [] files).1) := by
  constructor
  · intro cfg cache fi e d stx hc hm hs hd hst
    obtain ⟨em, es, edata⟩ := e
    obtain ⟨dg, du, dst⟩ := d
    have hd' : edata = some ⟨dg, du, dst⟩ := hd
    have hst' : dst = some stx := hst
    subst hd'
    subst hst'
    have hm' : em = fi.mtime := hm
    have hs' : es = fi.size := hs
    subst hm'
    subst hs'
    simp [processFile, hc]
  · intro cfg files cache hnd hm
    unfold process_directory
    exact process_directory_fold_cache_irrelevant cfg files cache [] ⟨[], [], []⟩ hnd hm
      (fun fi _ e he => by simp [getA] at he)

/-- Witness for C2 as amended: a genuine hit returns the stored data
unchanged, and a directory scan against a stale entry (size differs) equals
the uncached scan. -/
theorem c2_amended_cache_contract_witness :
    processFile c2cfg [("d/f.dat", ⟨5, 99, some ⟨[("aaaaaaaa", "u9")], [], some []⟩⟩)] c2file =
      (some ⟨[("aaaaaaaa", "u9")], [], []⟩,
       [("d/f.dat", ⟨5, 99, some ⟨[("aaaaaaaa", "u9")], [], some []⟩⟩)]) ∧
    (process_directory c2cfg [("d/f.dat", ⟨5, 98, none⟩)] [c2file]).1 =
      (process_directory c2cfg [] [c2file]).1 :=
  ⟨c2_amended_cache_contract.1 c2cfg
      [("d/f.dat", ⟨5, 99, some ⟨[("aaaaaaaa", "u9")], [], some []⟩⟩)] c2file
      ⟨5, 99, some ⟨[("aaaaaaaa", "u9")], [], some []⟩⟩ ⟨[("aaaaaaaa", "u9")], [], some []⟩ []
      (by decide) (by decide) (by decide) (by decide) (by decide),
   c2_amended_cache_contract.2 c2cfg [c2file] [("d/f.dat", ⟨5, 98, none⟩)]
      (by decide)
      (fun fi hfi e he => by
        have hfi' : fi = c2file := by simpa using hfi
        subst hfi'
        have hx : getA [("d/f.dat", (⟨5, 98, none⟩ : CacheEntry))] c2file.path =
            some (⟨5, 98, none⟩ : CacheEntry) := by decide
        rw [hx] at he
        obtain rfl : (⟨5, 98, none⟩ : CacheEntry) = e := Option.some.inj he
        exact Or.inr (Or.inl (by decide)))⟩

/-! ### Support lemmas: membership through prune and dedup, key-nodup
preservation through the pipeline -/

theorem mem_delA_foldl {β : Type} (f : β → String) :
    ∀ (ls : List β) (acc : FinalData) (q : String × FinalEntry),
      q ∈ ls.foldl (fun m l => delA m (f l)) acc → q ∈ acc := by
  intro ls
  induction ls with
  | nil => intro acc q h; exact h
  | cons l rest ih =>
    intro acc q h
    have := ih (delA acc (f l)) q h
    exact List.mem_of_mem_filter this

theorem mem_dedupStep_sub (acc : FinalData) (g : String × List String)
    (q : String × FinalEntry) (hq : q ∈ dedupStep acc g) : q ∈ acc := by
  unfold dedupStep at hq
  by_cases hl : g.2.length ≤ 1
  · rw [if_pos hl] at hq; exact hq
  · rw [if_neg hl] at hq
    rcases hs : List.insertionSort dedupOrd (g.2.map (fun gk => keyStat acc gk)) with _ | ⟨w, losers⟩
    · rw [hs] at hq; exact hq
    · rw [hs] at hq
      exact mem_delA_foldl (fun l => l.2.2) losers acc q hq

theorem mem_dedup_fold_sub :
    ∀ (groups : List (String × List String)) (acc : FinalData) (q : String × FinalEntry),
      q ∈ groups.foldl dedupStep acc → q ∈ acc := by
  intro groups
  induction groups with
  | nil => intro acc q h; exact h
  | cons g rest ih =>
    intro acc q h
    exact mem_dedupStep_sub acc g q (ih _ q h)

theorem mem_dedup_sub {fd : FinalData} {q : String × FinalEntry} (h : q ∈ dedup fd) : q ∈ fd :=
  mem_dedup_fold_sub _ fd q h

theorem mem_pruneCounts {cutoff : String} {c : Counts} {dp : String × List (String × Nat)}
    (h : dp ∈ pruneCounts cutoff c) : strLtB dp.1 cutoff = false := by
  have := List.of_mem_filter h
  simpa using this

theorem mem_prune_old {cutoff : String} {fd : FinalData} {p : String × FinalEntry}
    (h : p ∈ prune_old cutoff fd) :
    ∃ e0 : FinalEntry, (p.1, e0) ∈ fd ∧
      p.2 = ⟨e0.id, pruneCounts cutoff e0.counts, e0.secretTriggers⟩ ∧
      (pruneCounts cutoff e0.counts).isEmpty = false := by
  have h1 := List.mem_of_mem_filter h
  have h2 := List.of_mem_filter h
  rcases List.mem_map.1 h1 with ⟨q, hq, he⟩
  refine ⟨q.2, ?_, ?_, ?_⟩
  · have : p.1 = q.1 := by rw [← he]
    rw [this]
    exact hq
  · rw [← he]
  · have hc : p.2.counts = pruneCounts cutoff q.2.counts := by rw [← he]
    simpa [hc] using h2

theorem prune_old_cons (cutoff : String) (p : String × FinalEntry) (fd : FinalData) :
    prune_old cutoff (p :: fd) =
      if (pruneCounts cutoff p.2.counts).isEmpty then prune_old cutoff fd
      else (p.1, ⟨p.2.id, pruneCounts cutoff p.2.counts, p.2.secretTriggers⟩) ::
        prune_old cutoff fd := by
  by_cases h : (pruneCounts cutoff p.2.counts).isEmpty <;>
    simp [prune_old, List.filter, h]

theorem keysA_prune_sub (cutoff : String) (fd : FinalData) :
    keysA (prune_old cutoff fd) ⊆ keysA fd := by
  intro q hq
  rcases List.mem_map.1 hq with ⟨p, hp, he⟩
  rcases mem_prune_old hp with ⟨e0, hm, _, _⟩
  rw [← he]
  exact List.mem_map.2 ⟨(p.1, e0), hm, rfl⟩

theorem getA_prune_old {cutoff : String} {fd : FinalData} {gk : String} {e : FinalEntry}
    (hn : (keysA fd).Nodup) (h : getA fd gk = some e) :
    getA (prune_old cutoff fd) gk =
      if (pruneCounts cutoff e.counts).isEmpty then none
      else some ⟨e.id, pruneCounts cutoff e.counts, e.secretTriggers⟩ := by
  induction fd with
  | nil => simp [getA] at h
  | cons p r ih =>
    obtain ⟨k, w⟩ := p
    have hn' : k ∉ keysA r ∧ (keysA r).Nodup :=
      List.nodup_cons.1 (show (k :: keysA r).Nodup from hn)
    rw [prune_old_cons]
    by_cases hk : k = gk
    · subst hk
      have hw : w = e := by simpa [getA] using h
      subst hw
      by_cases hemp : (pruneCounts cutoff w.counts).isEmpty
      · rw [if_pos hemp, if_pos (by simpa using hemp)]
        rw [getA_none_iff_not_mem]
        intro hmem
        exact hn'.1 (keysA_prune_sub cutoff r hmem)
      · rw [if_neg hemp, if_neg (by simpa using hemp)]
        simp [getA]
    · have h' : getA r gk = some e := by simpa [getA, hk] using h
      by_cases hemp : (pruneCounts cutoff w.counts).isEmpty
      · rw [if_pos hemp]
        exact ih hn'.2 h'
      · rw [if_neg hemp]
        simp only [getA, if_neg hk]
        exact ih hn'.2 h'

theorem keysA_map_fst_eq (fd : FinalData) (f : String × FinalEntry → String × FinalEntry)
    (hf : ∀ q, (f q).1 = q.1) : keysA (fd.map f) = keysA fd := by
  induction fd with
  | nil => rfl
  | cons p r ih =>
    simp only [List.map_cons, keysA, List.map] at ih ⊢
    rw [hf p, ih]

theorem keysA_merge_triggers (fd : FinalData) (trigs : List (String × List String)) :
    keysA (merge_triggers fd trigs) = keysA fd := by
  unfold merge_triggers
  induction trigs generalizing fd with
  | nil => rfl
  | cons t rest ih =>
    simp only [List.foldl_cons]
    rw [ih]
    apply keysA_map_fst_eq
    intro q
    by_cases hq : q.2.id = t.1 <;> simp [hq]

theorem nodup_keysA_foldStep (u2g : List (String × String)) (st : FinalData × List String)
    (p : String × List (String × List (String × Nat)))
    (h : (keysA st.1).Nodup) : (keysA (foldStep u2g st p).1).Nodup := by
  rcases hg : getA u2g p.1 with _ | gk
  · simpa [foldStep, hg] using h
  · by_cases hgk : gk = ""
    · simpa [foldStep, hg, hgk] using h
    · simp only [foldStep, hg, if_neg hgk]
      exact nodup_keysA_setA _ _ _ h

theorem nodup_keysA_build_final (existing : FinalData) (u2g : List (String × String))
    (stats : DirStats) (h : (keysA existing).Nodup) :
    (keysA (build_final existing u2g stats)).Nodup := by
  unfold build_final
  have haux : ∀ (l : DirStats) (st : FinalData × List String), (keysA st.1).Nodup →
      (keysA (l.foldl (foldStep u2g) st).1).Nodup := by
    intro l
    induction l with
    | nil => intro st hst; exact hst
    | cons q rest ih =>
      intro st hst
      exact ih (foldStep u2g st q) (nodup_keysA_foldStep u2g st q hst)
  exact haux stats (existing, []) h

theorem nodup_keysA_merge_triggers (fd : FinalData) (trigs : List (String × List String))
    (h : (keysA fd).Nodup) : (keysA (merge_triggers fd trigs)).Nodup := by
  rw [keysA_merge_triggers]; exact h

/-! ### Claim C3: pruning and the retention window -/

/-- C3: after reconciliation every surviving entry retains only dates at or
above the cutoff string (today minus one day), and any entry whose counts
become empty after deleting the dates below the cutoff is absent from the
final state. -/
theorem c3_prune_retention (existing : FinalData) (scan : ScanResult) (cutoff : String) :
    (∀ gk e, getA (run_reconcile existing scan cutoff) gk = some e →
      ∀ d ∈ keysA e.counts, strLtB d cutoff = false) ∧
    ((keysA existing).Nodup →
      ∀ gk e,
        getA (merge_triggers
          (build_final existing (resolve_uid_to_gk existing scan.game_to_user) scan.user_stats)
          scan.secret_triggers) gk = some e →
        (pruneCounts cutoff e.counts).isEmpty →
        getA (run_reconcile existing scan cutoff) gk = none) := by
  constructor
  · intro gk e h d hd
    have hmem : (gk, e) ∈ run_reconcile existing scan cutoff := getA_some_mem h
    have hmem2 : (gk, e) ∈ prune_old cutoff (merge_triggers
        (build_final existing (resolve_uid_to_gk existing scan.game_to_user) scan.user_stats)
        scan.secret_triggers) := mem_dedup_sub hmem
    rcases mem_prune_old hmem2 with ⟨e0, _, hee, _⟩
    have he2 : e = ⟨e0.id, pruneCounts cutoff e0.counts, e0.secretTriggers⟩ := hee
    have hc : e.counts = pruneCounts cutoff e0.counts := by rw [he2]
    rw [hc] at hd
    rcases List.mem_map.1 hd with ⟨dp, hdp, he⟩
    rw [← he]
    exact mem_pruneCounts hdp
  · intro hn gk e h hemp
    have hn2 : (keysA (merge_triggers
        (build_final existing (resolve_uid_to_gk existing scan.game_to_user) scan.user_stats)
        scan.secret_triggers)).Nodup :=
      nodup_keysA_merge_triggers _ _ (nodup_keysA_build_final _ _ _ hn)
    have hpr : getA (prune_old cutoff (merge_triggers
        (build_final existing (resolve_uid_to_gk existing scan.game_to_user) scan.user_stats)
        scan.secret_triggers)) gk = none := by
      rw [getA_prune_old hn2 h, if_pos hemp]
    rw [getA_none_iff_not_mem] at hpr ⊢
    intro hmem
    rcases List.mem_map.1 hmem with ⟨p, hp, he⟩
    exact hpr (by
      rw [← he]
      exact List.mem_map_of_mem Prod.fst (mem_dedup_sub hp))

/-- Witness for C3: an entry dated below the cutoff vanishes, and a surviving
entry's remaining date compares at or above the cutoff. -/
theorem c3_prune_retention_witness :
    strLtB "2024/05/11" "2024/05/10" = false ∧
    getA (run_reconcile
      [("aaaaaaaa", ⟨"u", [("2024/05/08", [("1", 1)])], []⟩),
       ("bbbbbbbb", ⟨"v", [("2024/05/11", [("1", 1)])], []⟩)]
      ⟨[], [], []⟩ "2024/05/10") "aaaaaaaa" = none :=
  ⟨(c3_prune_retention
      [("aaaaaaaa", ⟨"u", [("2024/05/08", [("1", 1)])], []⟩),
       ("bbbbbbbb", ⟨"v", [("2024/05/11", [("1", 1)])], []⟩)]
      ⟨[], [], []⟩ "2024/05/10").1 "bbbbbbbb" ⟨"v", [("2024/05/11", [("1", 1)])], []⟩
      (by decide) "2024/05/11" (by decide),
   (c3_prune_retention
      [("aaaaaaaa", ⟨"u", [("2024/05/08", [("1", 1)])], []⟩),
       ("bbbbbbbb", ⟨"v", [("2024/05/11", [("1", 1)])], []⟩)]
      ⟨[], [], []⟩ "2024/05/10").2 (by decide) "aaaaaaaa" ⟨"u", [("2024/05/08", [("1", 1)])], []⟩
      (by decide) (by decide)⟩

/-! ### Claim C5: routing and clear-once-then-accumulate of count folding -/

/-- C5: during count folding, a user's newly scanned stats are dropped
entirely when the resolved mapping gives that user no key; on the first fold
into a key this run the entry's counts are cleared before adding (and the key
is marked updated), and every subsequent fold into the same key accumulates
into the existing counts without clearing. -/
theorem c5_fold_clear_once (u2g : List (String × String)) (fd : FinalData)
    (upd : List String) (uid : String) (dates : List (String × List (String × Nat))) :
    (getA u2g uid = none → foldStep u2g (fd, upd) (uid, dates) = (fd, upd)) ∧
    (∀ gk, getA u2g uid = some gk → gk ≠ "" → gk ∉ upd →
      foldStep u2g (fd, upd) (uid, dates) =
        (setA fd gk ⟨(match getA fd gk with | some e => e.id | none => uid),
                     addDatesC [] dates,
                     (match getA fd gk with | some e => e.secretTriggers | none => [])⟩,
         upd ++ [gk])) ∧
    (∀ gk e, getA u2g uid = some gk → gk ≠ "" → gk ∈ upd → getA fd gk = some e →
      foldStep u2g (fd, upd) (uid, dates) =
        (setA fd gk ⟨e.id, addDatesC e.counts dates, e.secretTriggers⟩, upd)) := by
  refine ⟨?_, ?_, ?_⟩
  · intro h
    simp [foldStep, h]
  · intro gk hg hne hnu
    rcases he : getA fd gk with _ | e <;>
      simp [foldStep, hg, hne, hnu, he]
  · intro gk e hg hne hu he
    simp [foldStep, hg, hne, hu, he]

/-- Witness for C5, exercising all three conjuncts on concrete states: a user
absent from the mapping, a first fold into a key, and a second fold into an
already-updated key. -/
theorem c5_fold_clear_once_witness :
    (getA [("v", "k1")] "u" = none →
      foldStep [("v", "k1")] ([], []) ("u", [("2024/05/10", [("1", 2)])]) = ([], [])) ∧
    (∀ gk, getA [("v", "k1")] "u" = some gk → gk ≠ "" → gk ∉ ([] : List String) →
      foldStep [("v", "k1")] ([], []) ("u", [("2024/05/10", [("1", 2)])]) =
        (setA [] gk ⟨(match getA ([] : FinalData) gk with | some e => e.id | none => "u"),
                     addDatesC [] [("2024/05/10", [("1", 2)])],
                     (match getA ([] : FinalData) gk with | some e => e.secretTriggers | none => [])⟩,
         [] ++ [gk])) ∧
    (∀ gk e, getA [("v", "k1")] "u" = some gk → gk ≠ "" → gk ∈ ([] : List String) →
      getA ([] : FinalData) gk = some e →
      foldStep [("v", "k1")] ([], []) ("u", [("2024/05/10", [("1", 2)])]) =
        (setA [] gk ⟨e.id, addDatesC e.counts [("2024/05/10", [("1", 2)])], e.secretTriggers⟩, [])) :=
  c5_fold_clear_once [("v", "k1")] [] [] "u" [("2024/05/10", [("1", 2)])]

/-! ### Claim C8: trigger threshold and per-user hash deduplication -/

/-- C8: with an admin identifier configured, a matched trigger amount below
the threshold records no event; one at or above the threshold records the
content hash for the record's user exactly once (appended only when absent);
a hash already present is never re-appended, and the per-user trigger lists
never acquire a duplicate hash. -/
theorem extractStep_secret_triggers (cfg : ExtractCfg) (st : FileResult) (l : Line)
    (ds : String) (hour : Nat) (dt : DateTime) (uid : String) (n : Nat)
    (h3 : ¬ l.fieldCount < 3)
    (hdh : lineDateHour l = some (ds, hour))
    (hdt : lineDT ds hour = some dt)
    (hcut : dtLtB dt cfg.cutoffDt = false)
    (hid : l.idMatch = some uid)
    (hadm : cfg.adminConfigured = true)
    (hamt : l.triggerAmount = some n) :
    (extractStep cfg st l).secret_triggers =
      if cfg.refill_cost ≤ n then
        (if cfg.hash (l.dateAndId ++ l.body) ∈ (getA st.secret_triggers uid).getD []
         then st.secret_triggers
         else setA st.secret_triggers uid
           ((getA st.secret_triggers uid).getD [] ++ [cfg.hash (l.dateAndId ++ l.body)]))
      else st.secret_triggers := by
  rcases hk : l.keyCandidates with _ | ⟨gk, rest⟩ <;>
    by_cases hrc : cfg.refill_cost ≤ n <;>
    by_cases hmem : cfg.hash (l.dateAndId ++ l.body) ∈ (getA st.secret_triggers uid).getD [] <;>
    [skip; skip; skip; skip; by_cases hg : (getA st.game_to_user gk).isSome;
     by_cases hg : (getA st.game_to_user gk).isSome;
     by_cases hg : (getA st.game_to_user gk).isSome;
     by_cases hg : (getA st.game_to_user gk).isSome] <;>
    simp [extractStep, h3, hdh, hdt, hcut, hid, hadm, hamt, hrc, hmem, hk, *]

/-- C8: with an admin identifier configured, a matched trigger amount below
the threshold records no event; one at or above the threshold records the
content hash for the record's user, appended only when absent so that
identical content yields a single entry; a hash already present leaves the
trigger map unchanged, and per-user trigger lists never acquire a duplicate
hash. -/
theorem c8_trigger_threshold_dedup (cfg : ExtractCfg) (st : FileResult) (l : Line)
    (ds : String) (hour : Nat) (dt : DateTime) (uid : String) (n : Nat)
    (h3 : ¬ l.fieldCount < 3)
    (hdh : lineDateHour l = some (ds, hour))
    (hdt : lineDT ds hour = some dt)
    (hcut : dtLtB dt cfg.cutoffDt = false)
    (hid : l.idMatch = some uid)
    (hadm : cfg.adminConfigured = true)
    (hamt : l.triggerAmount = some n) :
    (n < cfg.refill_cost → (extractStep cfg st l).secret_triggers = st.secret_triggers) ∧
    (cfg.refill_cost ≤ n →
      getA (extractStep cfg st l).secret_triggers uid =
        some (if cfg.hash (l.dateAndId ++ l.body) ∈ (getA st.secret_triggers uid).getD []
              then (getA st.secret_triggers uid).getD []
              else (getA st.secret_triggers uid).getD [] ++ [cfg.hash (l.dateAndId ++ l.body)])) ∧
    (cfg.hash (l.dateAndId ++ l.body) ∈ (getA st.secret_triggers uid).getD [] →
      (extractStep cfg st l).secret_triggers = st.secret_triggers) ∧
    (∀ u, ((getA st.secret_triggers u).getD []).Nodup →
      ((getA (extractStep cfg st l).secret_triggers u).getD []).Nodup) := by
  have hstep := extractStep_secret_triggers cfg st l ds hour dt uid n h3 hdh hdt hcut hid hadm hamt
  refine ⟨?_, ?_, ?_, ?_⟩
  · intro hlt
    rw [hstep, if_neg (Nat.not_le_of_lt hlt)]
  · intro hrc
    rw [hstep, if_pos hrc]
    by_cases hmem : cfg.hash (l.dateAndId ++ l.body) ∈ (getA st.secret_triggers uid).getD []
    · rw [if_pos hmem, if_pos hmem]
      rcases hg : getA st.secret_triggers uid with _ | cur
      · rw [hg] at hmem; simp at hmem
      · simp [hg]
    · rw [if_neg hmem, if_neg hmem, getA_setA_self]
  · intro hmem
    rw [hstep]
    by_cases hrc : cfg.refill_cost ≤ n
    · rw [if_pos hrc, if_pos hmem]
    · rw [if_neg hrc]
  · intro u hnd
    rw [hstep]
    by_cases hrc : cfg.refill_cost ≤ n
    · by_cases hmem : cfg.hash (l.dateAndId ++ l.body) ∈ (getA st.secret_triggers uid).getD []
      · rw [if_pos hrc, if_pos hmem]; exact hnd
      · rw [if_pos hrc, if_neg hmem]
        by_cases hu : uid = u
        · subst hu
          rw [getA_setA_self]
          simp [List.nodup_append, hnd, hmem]
        · rw [getA_setA_ne _ _ _ _ hu]
          exact hnd
    · rw [if_neg hrc]; exact hnd

/-- Witness for C8 at a concrete configured run: empty state, a trigger
amount of 31 against a threshold of 30. -/
theorem c8_trigger_threshold_dedup_witness :
    (31 < (30 : Nat) →
      (extractStep ⟨⟨⟨2024, 5, 1⟩, 0, 0, 0⟩, true, 30, fun s => s⟩ ⟨[], [], []⟩
        ⟨4, some "2024/05/10", some 1, some "u1", [], some 31, "t", "b"⟩).secret_triggers = []) ∧
    ((30 : Nat) ≤ 31 →
      getA (extractStep ⟨⟨⟨2024, 5, 1⟩, 0, 0, 0⟩, true, 30, fun s => s⟩ ⟨[], [], []⟩
        ⟨4, some "2024/05/10", some 1, some "u1", [], some 31, "t", "b"⟩).secret_triggers "u1" =
        some (if (fun s => s) ("t" ++ "b") ∈ (getA ([] : List (String × List String)) "u1").getD []
              then (getA ([] : List (String × List String)) "u1").getD []
              else (getA ([] : List (String × List String)) "u1").getD [] ++
                [(fun s => s) ("t" ++ "b")])) ∧
    ((fun s => s) ("t" ++ "b") ∈ (getA ([] : List (String × List String)) "u1").getD [] →
      (extractStep ⟨⟨⟨2024, 5, 1⟩, 0, 0, 0⟩, true, 30, fun s => s⟩ ⟨[], [], []⟩
        ⟨4, some "2024/05/10", some 1, some "u1", [], some 31, "t", "b"⟩).secret_triggers = []) ∧
    (∀ u, ((getA ([] : List (String × List String)) u).getD []).Nodup →
      ((getA (extractStep ⟨⟨⟨2024, 5, 1⟩, 0, 0, 0⟩, true, 30, fun s => s⟩ ⟨[], [], []⟩
        ⟨4, some "2024/05/10", some 1, some "u1", [], some 31, "t", "b"⟩).secret_triggers u).getD
          []).Nodup) :=
  c8_trigger_threshold_dedup ⟨⟨⟨2024, 5, 1⟩, 0, 0, 0⟩, true, 30, fun s => s⟩ ⟨[], [], []⟩
    ⟨4, some "2024/05/10", some 1, some "u1", [], some 31, "t", "b"⟩
    "2024/05/10" 1 ⟨⟨2024, 5, 10⟩, 1, 0, 0⟩ "u1" 31
    (by decide) (by decide) (by decide) (by decide) (by decide) (by decide) (by decide)

/-- C6: for every parsed record whose raw hour h is at least 24, the
normalized record has hour h mod 24 (always in 0..23) and a date advanced by
h div 24 calendar days from the raw date, a valid calendar date; in
particular raw "2024/05/01" with hour 25 normalizes to date "2024/05/02",
hour 1. -/
theorem c6_hour_overflow_normalization (ds : String) (hour : Nat) (d d2 : Date)
    (hge : 24 ≤ hour) (hp : parseDate ds = some d) (ha : addDays (hour / 24) d = some d2) :
    normalizeDateHour ds hour = some (formatDate d2, hour % 24) ∧
    hour % 24 < 24 ∧
    isValidDate d2 = true ∧
    normalizeDateHour "2024/05/01" 25 = some ("2024/05/02", 1) := by
  refine ⟨?_, ?_, ?_, by decide⟩
  · simp [normalizeDateHour, hge, hp, ha]
  · exact Nat.mod_lt _ (by omega)
  · exact addDays_valid _ (parseDate_valid hp) ha

/-- Witness for C6 at the concrete example of the claim. -/
theorem c6_hour_overflow_normalization_witness :
    normalizeDateHour "2024/05/01" 25 = some (formatDate ⟨2024, 5, 2⟩, 25 % 24) ∧
    25 % 24 < 24 ∧
    isValidDate ⟨2024, 5, 2⟩ = true ∧
    normalizeDateHour "2024/05/01" 25 = some ("2024/05/02", 1) :=
  c6_hour_overflow_normalization "2024/05/01" 25 ⟨2024, 5, 1⟩ ⟨2024, 5, 2⟩
    (by decide) (by decide) (by decide)

/-! ### Claim C7: the activity-relevance cutoff discards a record entirely -/

/-- C7: a record whose combined normalized timestamp falls before the cutoff
(now minus two days) is discarded during parsing: the extraction state is
unchanged, so it contributes nothing to the user stats, no game-key binding
and no trigger event. -/
theorem c7_stale_record_discarded (cfg : ExtractCfg) (st : FileResult) (l : Line)
    (ds : String) (hour : Nat) (dt : DateTime)
    (h3 : ¬ l.fieldCount < 3)
    (hdh : lineDateHour l = some (ds, hour))
    (hdt : lineDT ds hour = some dt)
    (hlt : dtLtB dt cfg.cutoffDt = true) :
    extractStep cfg st l = st := by
  simp [extractStep, h3, hdh, hdt, hlt]

/-- Witness for C7: a concrete record dated 2024/05/01 against a cutoff of
2024/05/10 00:00:00 leaves the empty extraction state unchanged. -/
theorem c7_stale_record_discarded_witness :
    extractStep ⟨⟨⟨2024, 5, 10⟩, 0, 0, 0⟩, false, 30, fun s => s⟩ ⟨[], [], []⟩
      ⟨4, some "2024/05/01", some 1, some "u1", [], none, "t", "b"⟩ = ⟨[], [], []⟩ :=
  c7_stale_record_discarded ⟨⟨⟨2024, 5, 10⟩, 0, 0, 0⟩, false, 30, fun s => s⟩ ⟨[], [], []⟩
    ⟨4, some "2024/05/01", some 1, some "u1", [], none, "t", "b"⟩
    "2024/05/01" 1 ⟨⟨2024, 5, 1⟩, 1, 0, 0⟩
    (by decide) (by decide) (by decide) (by decide)

theorem nodup_keysA_delA {κ α : Type} [DecidableEq κ] (m : List (κ × α)) (k : κ)
    (h : (keysA m).Nodup) : (keysA (delA m k)).Nodup := by
  induction m with
  | nil => simp [delA, keysA]
  | cons p r ih =>
    obtain ⟨k', w⟩ := p
    have h' : k' ∉ keysA r ∧ (keysA r).Nodup :=
      List.nodup_cons.1 (show (k' :: keysA r).Nodup from h)
    rw [delA_cons]
    by_cases hk : k' = k
    · simp only [if_pos hk]
      exact ih h'.2
    · simp only [if_neg hk]
      have : keysA ((k', w) :: delA r k) = k' :: keysA (delA r k) := rfl
      rw [this, List.nodup_cons]
      exact ⟨fun hm => h'.1 (keysA_delA_sub r k hm), ih h'.2⟩

/-! ### The deduplication analysed: groups, winners, and the fold -/

theorem getA_delA_foldl (ls : List KeyStat) (acc : FinalData) (gk : String) :
    getA (ls.foldl (fun f l => delA f l.2.2) acc) gk =
      if gk ∈ ls.map (fun l => l.2.2) then none else getA acc gk := by
  induction ls generalizing acc with
  | nil => simp
  | cons l rest ih =>
    rw [List.foldl_cons, ih]
    by_cases hr : gk ∈ rest.map (fun l => l.2.2)
    · rw [if_pos hr, if_pos (by simp [hr])]
    · rw [if_neg hr, getA_delA]
      by_cases he : l.2.2 = gk
      · rw [if_pos he, if_pos (by simp [he])]
      · rw [if_neg he, if_neg (by
          simp only [List.map_cons, List.mem_cons]
          rintro (h | h)
          · exact he h.symm
          · exact hr h)]

theorem mem_setA {κ α : Type} [DecidableEq κ] {m : List (κ × α)} {k : κ} {v : α}
    {q : κ × α} (h : q ∈ setA m k v) : q ∈ m ∨ q = (k, v) := by
  induction m with
  | nil => simpa [setA] using h
  | cons p r ih =>
    obtain ⟨k', w⟩ := p
    by_cases he : k' = k
    · rw [show setA ((k', w) :: r) k v = (k', v) :: r by simp [setA, he]] at h
      rcases List.mem_cons.1 h with h | h
      · right; rw [h, he]
      · left; exact List.mem_cons_of_mem _ h
    · rw [show setA ((k', w) :: r) k v = (k', w) :: setA r k v by simp [setA, he]] at h
      rcases List.mem_cons.1 h with h | h
      · left; exact h ▸ List.mem_cons_self _ _
      · rcases ih h with h' | h'
        · left; exact List.mem_cons_of_mem _ h'
        · right; exact h'

theorem mem_groupKeys_iff {fd : FinalData} {u gk : String} :
    gk ∈ groupKeys fd u ↔ ∃ e, (gk, e) ∈ fd ∧ e.id = u := by
  unfold groupKeys
  constructor
  · intro h
    rcases List.mem_map.1 h with ⟨p, hp, he⟩
    refine ⟨p.2, ?_, ?_⟩
    · rw [← he]; exact List.mem_of_mem_filter hp
    · have := List.of_mem_filter hp
      simpa using this
  · rintro ⟨e, hm, hid⟩
    exact List.mem_map.2 ⟨(gk, e), List.mem_filter.2 ⟨hm, by simpa using hid⟩, rfl⟩

theorem groupKeys_sub {fd : FinalData} {u gk : String} (h : gk ∈ groupKeys fd u) :
    gk ∈ keysA fd := by
  rcases mem_groupKeys_iff.1 h with ⟨e, hm, _⟩
  exact List.mem_map.2 ⟨(gk, e), hm, rfl⟩

theorem groupKeys_id {fd : FinalData} {u gk : String} (hn : (keysA fd).Nodup)
    (h : gk ∈ groupKeys fd u) : ∃ e, getA fd gk = some e ∧ e.id = u := by
  rcases mem_groupKeys_iff.1 h with ⟨e, hm, hid⟩
  exact ⟨e, getA_of_mem_nodup hn hm, hid⟩

theorem groupKeys_disjoint {fd : FinalData} {u u' gk : String} (hn : (keysA fd).Nodup)
    (h : gk ∈ groupKeys fd u) (h' : gk ∈ groupKeys fd u') : u = u' := by
  rcases groupKeys_id hn h with ⟨e, he, hid⟩
  rcases groupKeys_id hn h' with ⟨e', he', hid'⟩
  rw [he] at he'
  cases Option.some.inj he'
  rw [← hid, ← hid']

theorem groupKeys_of_getA {fd : FinalData} {gk : String} {e : FinalEntry}
    (h : getA fd gk = some e) : gk ∈ groupKeys fd e.id :=
  mem_groupKeys_iff.2 ⟨e, getA_some_mem h, rfl⟩

theorem groupKeys_nodup {fd : FinalData} (hn : (keysA fd).Nodup) (u : String) :
    (groupKeys fd u).Nodup := by
  unfold groupKeys
  have hsub : List.Sublist ((fd.filter (fun p => decide (p.2.id = u))).map Prod.fst)
      (fd.map Prod.fst) := List.Sublist.map Prod.fst (List.filter_sublist fd)
  exact List.Nodup.sublist hsub hn

theorem getA_dedupGroups_aux :
    ∀ (fd : FinalData) (acc : List (String × List String)) (u : String), u ≠ "" →
      getA (fd.foldl (fun a p =>
        if p.2.id = "" then a
        else setA a p.2.id ((getA a p.2.id).getD [] ++ [p.1])) acc) u =
        match getA acc u, groupKeys fd u with
        | none, [] => none
        | none, l => some l
        | some c, l => some (c ++ l) := by
  intro fd
  induction fd with
  | nil =>
    intro acc u _
    show getA acc u = _
    rcases h : getA acc u with _ | c <;> simp [groupKeys]
  | cons p r ih =>
    intro acc u hu
    rw [List.foldl_cons]
    by_cases hid : p.2.id = ""
    · rw [if_pos hid]
      have hg : groupKeys (p :: r) u = groupKeys r u := by
        unfold groupKeys
        rw [List.filter_cons]
        have : ¬ p.2.id = u := fun h => hu (h.symm.trans hid)
        simp [this]
      rw [ih acc u hu, hg]
    · rw [if_neg hid]
      by_cases hpu : p.2.id = u
      · have hg : groupKeys (p :: r) u = p.1 :: groupKeys r u := by
          unfold groupKeys
          rw [List.filter_cons]
          simp [hpu]
        rw [ih _ u hu, hg]
        rcases h : getA acc u with _ | c
        · rw [hpu, getA_setA_self]
          simp only [h, Option.getD_none, List.nil_append]
          rcases groupKeys r u with _ | ⟨x, xs⟩ <;> simp
        · rw [hpu, getA_setA_self]
          simp only [h, Option.getD_some]
          rcases groupKeys r u with _ | ⟨x, xs⟩ <;> simp [List.append_assoc]
      · have hg : groupKeys (p :: r) u = groupKeys r u := by
          unfold groupKeys
          rw [List.filter_cons]
          simp [hpu]
        rw [ih _ u hu, hg, getA_setA_ne _ _ _ _ (fun e => hpu e)]

theorem getA_dedupGroups (fd : FinalData) (u : String) (hu : u ≠ "") :
    getA (dedupGroups fd) u =
      match groupKeys fd u with
      | [] => none
      | l => some l := by
  have := getA_dedupGroups_aux fd [] u hu
  unfold dedupGroups
  rw [this]
  rcases groupKeys fd u with _ | ⟨x, xs⟩ <;> simp [getA]

theorem dedupGroups_key_ne :
    ∀ (fd : FinalData) (acc : List (String × List String)),
      (∀ g ∈ acc, g.1 ≠ "") →
      ∀ g ∈ (fd.foldl (fun a p =>
        if p.2.id = "" then a
        else setA a p.2.id ((getA a p.2.id).getD [] ++ [p.1])) acc), g.1 ≠ "" := by
  intro fd
  induction fd with
  | nil => intro acc h; exact h
  | cons p r ih =>
    intro acc hacc
    rw [List.foldl_cons]
    apply ih
    intro g hg
    by_cases hid : p.2.id = ""
    · rw [if_pos hid] at hg; exact hacc g hg
    · rw [if_neg hid] at hg
      rcases mem_setA hg with h | h
      · exact hacc g h
      · rw [h]; exact hid

theorem dedupGroups_nodup_keys :
    ∀ (fd : FinalData) (acc : List (String × List String)),
      (keysA acc).Nodup →
      (keysA (fd.foldl (fun a p =>
        if p.2.id = "" then a
        else setA a p.2.id ((getA a p.2.id).getD [] ++ [p.1])) acc)).Nodup := by
  intro fd
  induction fd with
  | nil => intro acc h; exact h
  | cons p r ih =>
    intro acc hacc
    rw [List.foldl_cons]
    apply ih
    by_cases hid : p.2.id = ""
    · rw [if_pos hid]; exact hacc
    · rw [if_neg hid]; exact nodup_keysA_setA _ _ _ hacc

theorem mem_dedupGroups {fd : FinalData} {g : String × List String}
    (hm : g ∈ dedupGroups fd) : g.1 ≠ "" ∧ g.2 = groupKeys fd g.1 ∧ g.2 ≠ [] := by
  have hne : g.1 ≠ "" :=
    dedupGroups_key_ne fd [] (by intro g' h'; cases h') g hm
  have hnd : (keysA (dedupGroups fd)).Nodup :=
    dedupGroups_nodup_keys fd [] (by simp [keysA])
  have hget : getA (dedupGroups fd) g.1 = some g.2 := by
    obtain ⟨u, l⟩ := g
    exact getA_of_mem_nodup hnd hm
  rw [getA_dedupGroups fd g.1 hne] at hget
  rcases hl : groupKeys fd g.1 with _ | ⟨x, xs⟩
  · rw [hl] at hget
    cases hget
  · rw [hl] at hget
    have h2 : g.2 = x :: xs := (Option.some.inj hget).symm
    exact ⟨hne, h2, by rw [h2]; simp⟩

theorem map_keyStat_thd (fd : FinalData) (l : List String) :
    (l.map (fun gk => keyStat fd gk)).map (fun x : KeyStat => x.2.2) = l := by
  induction l with
  | nil => rfl
  | cons x xs ih =>
    simp only [List.map_cons, keyStat] at ih ⊢
    rw [ih]

theorem keyStat_eq_of_getA_eq {acc fd : FinalData} {gk : String}
    (h : getA acc gk = getA fd gk) : keyStat acc gk = keyStat fd gk := by
  unfold keyStat
  rw [h]

theorem dedupWinner_facts (fd : FinalData) (l : List String) (hl : l ≠ []) :
    dedupWinner fd l ∈ l ∧
    (∀ gk ∈ l, keyStatLeB (keyStat fd gk) (keyStat fd (dedupWinner fd l)) = true) := by
  rcases hs : List.insertionSort dedupOrd (l.map (fun gk => keyStat fd gk)) with _ | ⟨w, rest⟩
  · exfalso
    have hp := List.perm_insertionSort dedupOrd (l.map (fun gk => keyStat fd gk))
    rw [hs] at hp
    have hlen := hp.length_eq
    simp at hlen
    exact hl (List.length_eq_zero.1 hlen.symm)
  · have hp := List.perm_insertionSort dedupOrd (l.map (fun gk => keyStat fd gk))
    rw [hs] at hp
    have hw : w ∈ l.map (fun gk => keyStat fd gk) := hp.subset (List.mem_cons_self w rest)
    rcases List.mem_map.1 hw with ⟨gk0, hgk0, hwe⟩
    have hthd : w.2.2 = gk0 := by rw [← hwe]; exact rfl
    have hwin : dedupWinner fd l = gk0 := by
      unfold dedupWinner
      rw [hs]
      exact hthd
    have hkw : keyStat fd (dedupWinner fd l) = w := by rw [hwin, hwe]
    have hsorted := List.sorted_insertionSort dedupOrd (l.map (fun gk => keyStat fd gk))
    rw [hs] at hsorted
    have hhead := (List.sorted_cons.1 hsorted).1
    constructor
    · rw [hwin]; exact hgk0
    · intro gk hgk
      have hmem : keyStat fd gk ∈ w :: rest := hp.symm.subset (List.mem_map_of_mem _ hgk)
      rw [hkw]
      rcases List.mem_cons.1 hmem with he | hm
      · rw [he]; exact keyStatLeB_refl w
      · exact hhead _ hm

theorem getA_dedupStep (fd acc : FinalData) (g : String × List String)
    (hstat : ∀ gk ∈ g.2, getA acc gk = getA fd gk)
    (hnd : g.2.Nodup) (gk : String) :
    getA (dedupStep acc g) gk =
      if 2 ≤ g.2.length ∧ gk ∈ g.2 ∧ gk ≠ dedupWinner fd g.2 then none
      else getA acc gk := by
  unfold dedupStep
  by_cases hl : g.2.length ≤ 1
  · rw [if_pos hl, if_neg (by rintro ⟨h2, _⟩; omega)]
  · rw [if_neg hl]
    have hmap : g.2.map (fun k => keyStat acc k) = g.2.map (fun k => keyStat fd k) :=
      List.map_congr_left (fun k hk => keyStat_eq_of_getA_eq (hstat k hk))
    rw [hmap]
    rcases hs : List.insertionSort dedupOrd (g.2.map (fun k => keyStat fd k)) with _ | ⟨w, losers⟩
    · exfalso
      have hp := List.perm_insertionSort dedupOrd (g.2.map (fun k => keyStat fd k))
      rw [hs] at hp
      have hlen := hp.length_eq
      simp at hlen
      omega
    · rw [getA_delA_foldl]
      have hwin : dedupWinner fd g.2 = w.2.2 := by
        unfold dedupWinner
        rw [hs]
      have hperm : ((w :: losers).map (fun x : KeyStat => x.2.2)).Perm g.2 := by
        have hp := (List.perm_insertionSort dedupOrd
          (g.2.map (fun k => keyStat fd k))).map (fun x : KeyStat => x.2.2)
        rw [hs, map_keyStat_thd] at hp
        exact hp
      have hnd2 : ((w :: losers).map (fun x : KeyStat => x.2.2)).Nodup :=
        hperm.nodup_iff.2 hnd
      have hnd3 : w.2.2 ∉ losers.map (fun x : KeyStat => x.2.2) := by
        have h' : (w.2.2 :: losers.map (fun x : KeyStat => x.2.2)).Nodup := hnd2
        exact (List.nodup_cons.1 h').1
      by_cases hcase : gk ∈ losers.map (fun x : KeyStat => x.2.2)
      · rw [if_pos hcase]
        rw [if_pos ?_]
        refine ⟨by omega, ?_, ?_⟩
        · exact hperm.subset (by simp [hcase])
        · rw [hwin]
          intro he
          exact hnd3 (he ▸ hcase)
      · rw [if_neg hcase]
        rw [if_neg ?_]
        rintro ⟨h2, hin, hne⟩
        have hgm : gk ∈ (w :: losers).map (fun x : KeyStat => x.2.2) := hperm.mem_iff.2 hin
        have hgm2 : gk ∈ w.2.2 :: losers.map (fun x : KeyStat => x.2.2) := hgm
        rcases List.mem_cons.1 hgm2 with he | hm
        · exact hne (hwin ▸ he)
        · exact hcase hm

theorem dedup_fold_char (fd : FinalData) :
    ∀ (gs : List (String × List String)) (acc : FinalData),
      (∀ g ∈ gs, g.2.Nodup) →
      (∀ g ∈ gs, ∀ gk ∈ g.2, getA acc gk = getA fd gk) →
      List.Pairwise (fun g g' => ∀ gk, gk ∈ g.2 → gk ∉ g'.2) gs →
      (∀ g ∈ gs, ∀ gk ∈ g.2,
        getA (gs.foldl dedupStep acc) gk =
          if 2 ≤ g.2.length ∧ gk ≠ dedupWinner fd g.2 then none else getA acc gk) ∧
      (∀ gk, (∀ g ∈ gs, gk ∉ g.2) → getA (gs.foldl dedupStep acc) gk = getA acc gk) := by
  intro gs
  induction gs with
  | nil =>
    intro acc _ _ _
    exact ⟨fun g hg => absurd hg (List.not_mem_nil g), fun gk _ => rfl⟩
  | cons g rest ih =>
    intro acc hnd hstat hpair
    have hpair' := List.pairwise_cons.1 hpair
    have hstep : ∀ gk, getA (dedupStep acc g) gk =
        if 2 ≤ g.2.length ∧ gk ∈ g.2 ∧ gk ≠ dedupWinner fd g.2 then none
        else getA acc gk :=
      fun gk => getA_dedupStep fd acc g (hstat g (List.mem_cons_self g rest))
        (hnd g (List.mem_cons_self g rest)) gk
    have hstat' : ∀ g' ∈ rest, ∀ gk ∈ g'.2, getA (dedupStep acc g) gk = getA fd gk := by
      intro g' hg' gk hgk
      rw [hstep gk, if_neg (by
        rintro ⟨_, hin, _⟩
        exact hpair'.1 g' hg' gk hin hgk)]
      exact hstat g' (List.mem_cons_of_mem g hg') gk hgk
    obtain ⟨ih1, ih2⟩ := ih (dedupStep acc g)
      (fun g' h => hnd g' (List.mem_cons_of_mem g h)) hstat' hpair'.2
    constructor
    · intro g'' hg'' gk hgk
      rw [List.foldl_cons]
      rcases List.mem_cons.1 hg'' with he | hm
      · subst he
        have hfr : ∀ g' ∈ rest, gk ∉ g'.2 := fun g' h' => hpair'.1 g' h' gk hgk
        rw [ih2 gk hfr, hstep gk]
        by_cases hc : 2 ≤ g''.2.length ∧ gk ≠ dedupWinner fd g''.2
        · rw [if_pos ⟨hc.1, hgk, hc.2⟩, if_pos hc]
        · rw [if_neg (by rintro ⟨a, _, c⟩; exact hc ⟨a, c⟩), if_neg hc]
      · rw [ih1 g'' hm gk hgk]
        by_cases hc : 2 ≤ g''.2.length ∧ gk ≠ dedupWinner fd g''.2
        · rw [if_pos hc, if_pos hc]
        · rw [if_neg hc, if_neg hc, hstep gk, if_neg (by
            rintro ⟨_, hin, _⟩
            exact hpair'.1 g'' hm gk hin hgk)]
    · intro gk hfr
      rw [List.foldl_cons, ih2 gk (fun g' h' => hfr g' (List.mem_cons_of_mem g h')),
        hstep gk, if_neg (by
          rintro ⟨_, hin, _⟩
          exact hfr g (List.mem_cons_self g rest) hin)]

theorem getA_dedup_char (fd : FinalData) (hn : (keysA fd).Nodup) (gk : String) :
    getA (dedup fd) gk =
      match getA fd gk with
      | none => none
      | some e =>
        if e.id ≠ "" ∧ 2 ≤ (groupKeys fd e.id).length ∧
            gk ≠ dedupWinner fd (groupKeys fd e.id) then none
        else some e := by
  have hgs := dedup_fold_char fd (dedupGroups fd) fd
    (by
      intro g hg
      rcases mem_dedupGroups hg with ⟨_, he, _⟩
      rw [he]
      exact groupKeys_nodup hn g.1)
    (fun _ _ _ _ => rfl)
    (by
      have hndk : (keysA (dedupGroups fd)).Nodup :=
        dedupGroups_nodup_keys fd [] (by simp [keysA])
      rw [List.pairwise_iff_forall_sublist]
      intro g g' hsub
      intro gk0 hin hin'
      have hgm : g ∈ dedupGroups fd := hsub.subset (by simp)
      have hgm' : g' ∈ dedupGroups fd := hsub.subset (by simp)
      rcases mem_dedupGroups hgm with ⟨_, he, _⟩
      rcases mem_dedupGroups hgm' with ⟨_, he', _⟩
      have hkeys : List.Sublist [g.1, g'.1] (keysA (dedupGroups fd)) := by
        have := hsub.map Prod.fst
        exact this
      have hnedup : g.1 ≠ g'.1 := by
        have hd := List.Nodup.sublist hkeys hndk
        simpa using hd
      rw [he] at hin
      rw [he'] at hin'
      exact hnedup (groupKeys_disjoint hn hin hin'))
  have hunf : dedup fd = (dedupGroups fd).foldl dedupStep fd := rfl
  rcases hfd : getA fd gk with _ | e
  · have hfr : ∀ g ∈ dedupGroups fd, gk ∉ g.2 := by
      intro g hg hin
      rcases mem_dedupGroups hg with ⟨_, he, _⟩
      rw [he] at hin
      have hmem := groupKeys_sub hin
      rw [getA_none_iff_not_mem] at hfd
      exact hfd hmem
    rw [hunf, hgs.2 gk hfr, hfd]
  · have hmem : gk ∈ groupKeys fd e.id := groupKeys_of_getA hfd
    have hred : (match some e with
        | none => none
        | some e =>
          if e.id ≠ "" ∧ 2 ≤ (groupKeys fd e.id).length ∧
              gk ≠ dedupWinner fd (groupKeys fd e.id) then none
          else some e) =
        (if e.id ≠ "" ∧ 2 ≤ (groupKeys fd e.id).length ∧
            gk ≠ dedupWinner fd (groupKeys fd e.id) then none else some e) := rfl
    by_cases hid : e.id = ""
    · have hfr : ∀ g ∈ dedupGroups fd, gk ∉ g.2 := by
        intro g hg hin
        rcases mem_dedupGroups hg with ⟨hne, he, _⟩
        rw [he] at hin
        exact hne ((groupKeys_disjoint hn hin hmem).trans hid)
      rw [hunf, hgs.2 gk hfr, hfd, hred,
        if_neg (by rintro ⟨hne', _⟩; exact hne' hid)]
    · have hnel : groupKeys fd e.id ≠ [] := by
        intro h0
        rw [h0] at hmem
        cases hmem
      have hget : getA (dedupGroups fd) e.id = some (groupKeys fd e.id) := by
        rw [getA_dedupGroups fd e.id hid]
        rcases hl : groupKeys fd e.id with _ | ⟨x, xs⟩
        · exact absurd hl hnel
        · rfl
      have hgmem : (e.id, groupKeys fd e.id) ∈ dedupGroups fd := getA_some_mem hget
      rw [hunf, hgs.1 (e.id, groupKeys fd e.id) hgmem gk hmem, hfd, hred]
      by_cases hc : 2 ≤ (groupKeys fd e.id).length ∧ gk ≠ dedupWinner fd (groupKeys fd e.id)
      · rw [if_pos hc, if_pos ⟨hid, hc.1, hc.2⟩]
      · rw [if_neg hc, if_neg (by rintro ⟨_, a, b⟩; exact hc ⟨a, b⟩)]

theorem length_le_one_mem_eq {α : Type} {l : List α} (h : l.length ≤ 1) {a b : α}
    (ha : a ∈ l) (hb : b ∈ l) : a = b := by
  rcases l with _ | ⟨x, _ | ⟨y, t⟩⟩
  · cases ha
  · rw [List.mem_singleton.1 ha, List.mem_singleton.1 hb]
  · simp at h

theorem getA_dedup_some {fd : FinalData} {gk : String} {e : FinalEntry}
    (hn : (keysA fd).Nodup) (h : getA (dedup fd) gk = some e) :
    getA fd gk = some e ∧
      (e.id = "" ∨ (groupKeys fd e.id).length ≤ 1 ∨
        gk = dedupWinner fd (groupKeys fd e.id)) := by
  have hc := getA_dedup_char fd hn gk
  rw [h] at hc
  rcases hfd : getA fd gk with _ | e'
  · rw [hfd] at hc
    cases hc
  · rw [hfd] at hc
    have hred : (match some e' with
        | none => none
        | some e =>
          if e.id ≠ "" ∧ 2 ≤ (groupKeys fd e.id).length ∧
              gk ≠ dedupWinner fd (groupKeys fd e.id) then none
          else some e) =
        (if e'.id ≠ "" ∧ 2 ≤ (groupKeys fd e'.id).length ∧
            gk ≠ dedupWinner fd (groupKeys fd e'.id) then none else some e') := rfl
    rw [hred] at hc
    by_cases hcond : e'.id ≠ "" ∧ 2 ≤ (groupKeys fd e'.id).length ∧
        gk ≠ dedupWinner fd (groupKeys fd e'.id)
    · rw [if_pos hcond] at hc
      cases hc
    · rw [if_neg hcond] at hc
      obtain rfl : e = e' := Option.some.inj hc
      refine ⟨rfl, ?_⟩
      by_cases h1 : e.id = ""
      · exact Or.inl h1
      · by_cases h2 : (groupKeys fd e.id).length ≤ 1
        · exact Or.inr (Or.inl h2)
        · by_cases h3 : gk = dedupWinner fd (groupKeys fd e.id)
          · exact Or.inr (Or.inr h3)
          · exact absurd ⟨h1, by omega, h3⟩ hcond

theorem getA_dedup_keep {fd : FinalData} {gk : String} {e : FinalEntry}
    (hn : (keysA fd).Nodup) (hfd : getA fd gk = some e)
    (hkeep : e.id = "" ∨ (groupKeys fd e.id).length ≤ 1 ∨
      gk = dedupWinner fd (groupKeys fd e.id)) :
    getA (dedup fd) gk = some e := by
  have hc := getA_dedup_char fd hn gk
  rw [hfd] at hc
  have hred : (match some e with
      | none => none
      | some e =>
        if e.id ≠ "" ∧ 2 ≤ (groupKeys fd e.id).length ∧
            gk ≠ dedupWinner fd (groupKeys fd e.id) then none
        else some e) =
      (if e.id ≠ "" ∧ 2 ≤ (groupKeys fd e.id).length ∧
          gk ≠ dedupWinner fd (groupKeys fd e.id) then none else some e) := rfl
  rw [hred] at hc
  rw [hc, if_neg ?_]
  rintro ⟨h1, h2, h3⟩
  rcases hkeep with hk | hk | hk
  · exact h1 hk
  · omega
  · exact h3 hk

/-- Counterexample to C4: two entries share the userId "" (an empty id, as a
hand-edited or legacy persisted file can contain), and both survive the whole
reconciliation including deduplication. -/
theorem c4_counterexample :
    dedup c4ex = c4ex ∧ run_reconcile c4ex ⟨[], [], []⟩ "2024/05/01" = c4ex := by
  constructor
  · decide
  · decide

/-- C4 as amended: over a persisted state with unique keys whose entry ids
are all nonempty, deduplication leaves at most one entry per userId; every
user keeps exactly one of its entries, unchanged; and the kept key's
(lastDate, totalCountOnLastDate, gameKey) stat is maximal under the Python
tuple order among all of that user's keys.  (Entries with an empty id are
exempt from grouping and all survive.) -/
theorem c4_amended_dedup_unique_max (fd : FinalData) (hn : (keysA fd).Nodup)
    (hid : ∀ gk e, getA fd gk = some e → e.id ≠ "") :
    (∀ gk1 gk2 e1 e2, getA (dedup fd) gk1 = some e1 → getA (dedup fd) gk2 = some e2 →
      e1.id = e2.id → gk1 = gk2) ∧
    (∀ gk e, getA fd gk = some e →
      ∃ gk' e', getA (dedup fd) gk' = some e' ∧ e'.id = e.id) ∧
    (∀ gk e, getA (dedup fd) gk = some e → getA fd gk = some e) ∧
    (∀ gk e gk' e', getA (dedup fd) gk = some e → getA fd gk' = some e' → e'.id = e.id →
      keyStatLeB (keyStat fd gk') (keyStat fd gk) = true) := by
  refine ⟨?_, ?_, ?_, ?_⟩
  · intro gk1 gk2 e1 e2 h1 h2 h12
    obtain ⟨hf1, hk1⟩ := getA_dedup_some hn h1
    obtain ⟨hf2, hk2⟩ := getA_dedup_some hn h2
    have hm1 : gk1 ∈ groupKeys fd e1.id := groupKeys_of_getA hf1
    have hm2 : gk2 ∈ groupKeys fd e1.id := h12 ▸ groupKeys_of_getA hf2
    rcases hk1 with hk1 | hk1 | hk1
    · exact absurd hk1 (hid gk1 e1 hf1)
    · exact length_le_one_mem_eq hk1 hm1 hm2
    · rcases hk2 with hk2 | hk2 | hk2
      · exact absurd hk2 (hid gk2 e2 hf2)
      · exact length_le_one_mem_eq (h12 ▸ hk2) hm1 hm2
      · rw [← h12] at hk2
        rw [hk1, hk2]
  · intro gk e hfd
    have hm : gk ∈ groupKeys fd e.id := groupKeys_of_getA hfd
    by_cases hlen : (groupKeys fd e.id).length ≤ 1
    · exact ⟨gk, e, getA_dedup_keep hn hfd (Or.inr (Or.inl hlen)), rfl⟩
    · have hnel : groupKeys fd e.id ≠ [] := by
        intro h0
        rw [h0] at hm
        cases hm
      obtain ⟨hwm, _⟩ := dedupWinner_facts fd (groupKeys fd e.id) hnel
      obtain ⟨ew, hew, hewid⟩ := groupKeys_id hn hwm
      refine ⟨dedupWinner fd (groupKeys fd e.id), ew,
        getA_dedup_keep hn hew (Or.inr (Or.inr ?_)), hewid⟩
      rw [hewid]
  · intro gk e h
    exact (getA_dedup_some hn h).1
  · intro gk e gk' e' h hfd' h'
    obtain ⟨hfd, hk⟩ := getA_dedup_some hn h
    have hm' : gk' ∈ groupKeys fd e.id := h' ▸ groupKeys_of_getA hfd'
    have hm : gk ∈ groupKeys fd e.id := groupKeys_of_getA hfd
    rcases hk with hk | hk | hk
    · exact absurd hk (hid gk e hfd)
    · have heq : gk' = gk := length_le_one_mem_eq hk hm' hm
      rw [heq]
      exact keyStatLeB_refl _
    · have hnel : groupKeys fd e.id ≠ [] := by
        intro h0
        rw [h0] at hm
        cases hm
      obtain ⟨_, hmax⟩ := dedupWinner_facts fd (groupKeys fd e.id) hnel
      rw [hk]
      exact hmax gk' hm'

/-- Witness for C4 as amended: on a concrete state with two keys for user
"u", deduplication keeps exactly the higher-count key, unchanged, and its
stat dominates the discarded key's. -/
theorem c4_amended_dedup_unique_max_witness :
    "aaaaaaaa" = "aaaaaaaa" ∧
    (∃ gk' e', getA (dedup c4fdW) gk' = some e' ∧
      e'.id = (⟨"u", [("2024/05/10", [("1", 1)])], []⟩ : FinalEntry).id) ∧
    getA c4fdW "aaaaaaaa" = some ⟨"u", [("2024/05/10", [("1", 5)])], []⟩ ∧
    keyStatLeB (keyStat c4fdW "bbbbbbbb") (keyStat c4fdW "aaaaaaaa") = true := by
  have hn : (keysA c4fdW).Nodup := by decide
  have hid : ∀ gk e, getA c4fdW gk = some e → e.id ≠ "" := by
    intro gk e hg
    have hmem := getA_some_mem hg
    rcases List.mem_cons.1 hmem with h | h
    · rw [show e = (⟨"u", [("2024/05/10", [("1", 5)])], []⟩ : FinalEntry) from
        congrArg Prod.snd h]
      decide
    · rw [show e = (⟨"u", [("2024/05/10", [("1", 1)])], []⟩ : FinalEntry) from
        congrArg Prod.snd (List.mem_singleton.1 h)]
      decide
  have H := c4_amended_dedup_unique_max c4fdW hn hid
  exact ⟨H.1 "aaaaaaaa" "aaaaaaaa" ⟨"u", [("2024/05/10", [("1", 5)])], []⟩
      ⟨"u", [("2024/05/10", [("1", 5)])], []⟩ (by decide) (by decide) rfl,
    H.2.1 "bbbbbbbb" ⟨"u", [("2024/05/10", [("1", 1)])], []⟩ (by decide),
    H.2.2.1 "aaaaaaaa" ⟨"u", [("2024/05/10", [("1", 5)])], []⟩ (by decide),
    H.2.2.2 "aaaaaaaa" ⟨"u", [("2024/05/10", [("1", 5)])], []⟩ "bbbbbbbb"
      ⟨"u", [("2024/05/10", [("1", 1)])], []⟩ (by decide) (by decide) rfl⟩

/-! ### Characterizations of identifier resolution, trigger folding, and
frame lemmas for the count folding -/

theorem getA_map_keyfix {f : String × FinalEntry → String × FinalEntry}
    (hf : ∀ q, (f q).1 = q.1) (fd : FinalData) (gk : String) :
    getA (fd.map f) gk = (getA fd gk).map (fun e => (f (gk, e)).2) := by
  induction fd with
  | nil => rfl
  | cons p r ih =>
    obtain ⟨k, v⟩ := p
    by_cases hk : k = gk
    · subst hk
      have h1 : (f (k, v)).1 = k := hf (k, v)
      simp [List.map_cons, getA, h1]
    · have h1 : (f (k, v)).1 = k := hf (k, v)
      simp only [List.map_cons, getA, h1, if_neg hk]
      exact ih

theorem getA_merge_triggers :
    ∀ (trigs : List (String × List String)) (fd : FinalData) (gk : String),
      getA (merge_triggers fd trigs) gk =
        (getA fd gk).map (fun e => ⟨e.id, e.counts, mergeTrigsFor e.id e.secretTriggers trigs⟩) := by
  intro trigs
  induction trigs with
  | nil =>
    intro fd gk
    rcases h : getA fd gk with _ | e
    · exact h
    · exact h
  | cons t ts ih =>
    intro fd gk
    have hstep : merge_triggers fd (t :: ts) =
        merge_triggers (fd.map (fun q =>
          if q.2.id = t.1 then
            (q.1, { q.2 with secretTriggers := appendNewTriggers q.2.secretTriggers t.2 })
          else q)) ts := rfl
    rw [hstep, ih]
    rw [getA_map_keyfix (by intro q; by_cases hq : q.2.id = t.1 <;> simp [hq])]
    rcases h : getA fd gk with _ | e
    · rfl
    · simp only [Option.map_some]
      by_cases he : e.id = t.1
    <;> simp [he, mergeTrigsFor]

theorem mergeTrigsFor_frame (u : String) (trigs : List (String × List String))
    (hu : ∀ p ∈ trigs, p.1 ≠ u) : ∀ l, mergeTrigsFor u l trigs = l := by
  induction trigs with
  | nil => intro l; rfl
  | cons t ts ih =>
    intro l
    have ht : t.1 ≠ u := hu t (List.mem_cons_self t ts)
    have hts : ∀ p ∈ ts, p.1 ≠ u := fun p hp => hu p (List.mem_cons_of_mem t hp)
    show mergeTrigsFor u (if u = t.1 then appendNewTriggers l t.2 else l) ts = l
    rw [if_neg (fun he => ht he.symm)]
    exact ih hts _

theorem resolve_base_value :
    ∀ (fd : FinalData) (acc : List (String × String)) (u v : String),
      getA (fd.foldl (fun a p => setA a p.2.id p.1) acc) u = some v →
      getA acc u = some v ∨ ∃ e', (v, e') ∈ fd ∧ e'.id = u := by
  intro fd
  induction fd with
  | nil => intro acc u v h; exact Or.inl h
  | cons p r ih =>
    intro acc u v h
    rw [List.foldl_cons] at h
    rcases ih _ u v h with h' | ⟨e', hm, hid⟩
    · by_cases hk : p.2.id = u
      · rw [hk, getA_setA_self] at h'
        obtain rfl : p.1 = v := Option.some.inj h'
        exact Or.inr ⟨p.2, List.mem_cons_self _ _, hk⟩
      · rw [getA_setA_ne _ _ _ _ hk] at h'
        exact Or.inl h'
    · exact Or.inr ⟨e', List.mem_cons_of_mem _ hm, hid⟩

theorem resolve_overwrite_value :
    ∀ (ps : List (String × String)) (acc : List (String × String)) (u v : String),
      getA (ps.foldl (fun a p => setA a p.2 p.1) acc) u = some v →
      getA acc u = some v ∨ (v, u) ∈ ps := by
  intro ps
  induction ps with
  | nil => intro acc u v h; exact Or.inl h
  | cons p r ih =>
    intro acc u v h
    rw [List.foldl_cons] at h
    rcases ih _ u v h with h' | hm
    · by_cases hk : p.2 = u
      · rw [hk, getA_setA_self] at h'
        obtain rfl : p.1 = v := Option.some.inj h'
        refine Or.inr ?_
        rw [← hk]
        exact List.mem_cons_self p r
      · rw [getA_setA_ne _ _ _ _ hk] at h'
        exact Or.inl h'
    · exact Or.inr (List.mem_cons_of_mem _ hm)

theorem resolve_value_source {existing : FinalData} {g2u : List (String × String)}
    {u v : String} (h : getA (resolve_uid_to_gk existing g2u) u = some v) :
    (∃ e', (v, e') ∈ existing ∧ e'.id = u) ∨ (v, u) ∈ g2u := by
  unfold resolve_uid_to_gk at h
  rcases resolve_overwrite_value g2u _ u v h with h' | hm
  · rcases resolve_base_value existing [] u v h' with h'' | he
    · cases h''
    · exact Or.inl he
  · exact Or.inr hm

theorem getA_setA_cases {κ α : Type} [DecidableEq κ] (m : List (κ × α)) (k q : κ) (v : α) :
    getA (setA m k v) q = if k = q then some v else getA m q := by
  by_cases h : k = q
  · subst h
    rw [if_pos rfl, getA_setA_self]
  · rw [if_neg h, getA_setA_ne _ _ _ _ h]

theorem build_final_unique_frame (u2g : List (String × String)) (gk u : String)
    (e : FinalEntry) :
    ∀ (stats : DirStats) (st : FinalData × List String),
      (∀ p ∈ stats, p.1 ≠ u) →
      (∀ p ∈ stats, ∀ g', getA u2g p.1 = some g' → g' ≠ gk) →
      getA st.1 gk = some e →
      (∀ gk' e', getA st.1 gk' = some e' → e'.id = u → gk' = gk) →
      getA (stats.foldl (foldStep u2g) st).1 gk = some e ∧
      (∀ gk' e', getA (stats.foldl (foldStep u2g) st).1 gk' = some e' → e'.id = u → gk' = gk) := by
  intro stats
  induction stats with
  | nil => intro st _ _ hval hinv; exact ⟨hval, hinv⟩
  | cons p r ih =>
    intro st hkeys hroute hval hinv
    rw [List.foldl_cons]
    have hkeys' : ∀ q ∈ r, q.1 ≠ u := fun q hq => hkeys q (List.mem_cons_of_mem p hq)
    have hroute' : ∀ q ∈ r, ∀ g', getA u2g q.1 = some g' → g' ≠ gk :=
      fun q hq => hroute q (List.mem_cons_of_mem p hq)
    have hstep : getA (foldStep u2g st p).1 gk = some e ∧
        (∀ gk' e', getA (foldStep u2g st p).1 gk' = some e' → e'.id = u → gk' = gk) := by
      rcases hg : getA u2g p.1 with _ | g0
      · simp only [foldStep, hg]
        exact ⟨hval, hinv⟩
      · by_cases hg0 : g0 = ""
        · simp only [foldStep, hg, if_pos hg0]
          exact ⟨hval, hinv⟩
        · have hne : g0 ≠ gk := hroute p (List.mem_cons_self p r) g0 hg
          simp only [foldStep, hg, if_neg hg0]
          constructor
          · rw [getA_setA_cases, if_neg hne]
            exact hval
          · intro gk' e' hget hid'
            rw [getA_setA_cases] at hget
            by_cases hk : g0 = gk'
            · exfalso
              rw [if_pos hk] at hget
              have hid2 : e'.id = (match getA st.1 g0 with
                  | some e0 => e0.id
                  | none => p.1) := by
                rw [← Option.some.inj hget]
                rcases hst : getA st.1 g0 with _ | e0 <;>
                  by_cases hupd : g0 ∈ st.2 <;> simp [hst, hupd]
              rcases hst : getA st.1 g0 with _ | e0
              · rw [hst] at hid2
                exact hkeys p (List.mem_cons_self p r) (hid2.symm.trans hid')
              · rw [hst] at hid2
                exact hne (hinv g0 e0 hst (hid2.symm.trans hid'))
            · rw [if_neg hk] at hget
              exact hinv gk' e' hget hid'
    obtain ⟨h1, h2⟩ := hstep
    exact ih (foldStep u2g st p) hkeys' hroute' h1 h2

theorem nodup_keysA_prune_old (cutoff : String) (fd : FinalData)
    (h : (keysA fd).Nodup) : (keysA (prune_old cutoff fd)).Nodup := by
  have h1 : List.Sublist (prune_old cutoff fd)
      (fd.map (fun p => (p.1, { p.2 with counts := pruneCounts cutoff p.2.counts }))) :=
    List.filter_sublist _
  have h2 := h1.map Prod.fst
  rw [show (fd.map (fun p => (p.1, { p.2 with counts := pruneCounts cutoff p.2.counts }))).map
      Prod.fst = keysA fd from keysA_map_fst_eq fd _ (fun q => rfl)] at h2
  exact List.Nodup.sublist h2 h

theorem getA_dedup_none {fd : FinalData} {gk : String} (h : getA fd gk = none) :
    getA (dedup fd) gk = none := by
  rw [getA_none_iff_not_mem] at h ⊢
  intro hm
  rcases List.mem_map.1 hm with ⟨p, hp, he⟩
  exact h (he ▸ List.mem_map_of_mem Prod.fst (mem_dedup_sub hp))

theorem nodup_all_eq_le_one {l : List String} {gk : String} (hnd : l.Nodup)
    (h : ∀ x ∈ l, x = gk) : l.length ≤ 1 := by
  rcases l with _ | ⟨a, _ | ⟨b, t⟩⟩
  · simp
  · simp
  · exfalso
    have ha := h a (List.mem_cons_self _ _)
    have hb := h b (List.mem_cons_of_mem _ (List.mem_cons_self _ _))
    have := (List.nodup_cons.1 hnd).1
    exact this (by rw [ha, ← hb]; exact List.mem_cons_self _ _)

/-! ### Claim C10: a user untouched by the scan keeps its entry up to pruning

The claim omits one interference channel: the current scan may re-bind the
entry's own game key to a different user (the overwrite of lines 377-378),
and that user's stats are then folded into this entry, clearing its counts.
With the additional hypothesis that the scan observed no binding for the
entry's key, the frame property holds. -/

/-- Counterexample to C10: user "u" receives no new stats and no trigger
events and owns the only entry with its id, yet the run replaces the entry's
counts (still id "u") with user "v"'s freshly scanned stats, because the scan
re-bound the key to "v"; pruning alone would have kept the original counts. -/
theorem c10_counterexample :
    getA (run_reconcile
      [("aaaaaaaa", ⟨"u", [("2024/05/10", [("1", 7)])], ["h0"]⟩)]
      ⟨[("aaaaaaaa", "v")], [("v", [("2024/05/10", [("2", 1)])])], []⟩
      "2024/05/01") "aaaaaaaa" =
      some ⟨"u", [("2024/05/10", [("2", 1)])], ["h0"]⟩ ∧
    pruneCounts "2024/05/01" [("2024/05/10", [("1", 7)])] = [("2024/05/10", [("1", 7)])] := by
  constructor
  · decide
  · decide

/-- C10 as amended: for a key present in the persisted state whose user
receives no new stats and no new trigger events, for which no other persisted
entry has the same user, and for which the scan observed no binding of that
key, the run leaves id and secretTriggers unchanged and modifies counts only
by pruning, removing the entry exactly when its pruned counts are empty. -/
theorem c10_amended_untouched_entry (existing : FinalData) (scan : ScanResult)
    (cutoff : String) (gk : String) (e : FinalEntry)
    (hn : (keysA existing).Nodup)
    (hfd : getA existing gk = some e)
    (huniq : ∀ gk' e', getA existing gk' = some e' → e'.id = e.id → gk' = gk)
    (hstats : getA scan.user_stats e.id = none)
    (htrigs : getA scan.secret_triggers e.id = none)
    (hg2u : ∀ p ∈ scan.game_to_user, p.1 ≠ gk) :
    getA (run_reconcile existing scan cutoff) gk =
      if (pruneCounts cutoff e.counts).isEmpty then none
      else some ⟨e.id, pruneCounts cutoff e.counts, e.secretTriggers⟩ := by
  have hroute : ∀ uid', getA (resolve_uid_to_gk existing scan.game_to_user) uid' = some gk →
      uid' = e.id := by
    intro uid' h
    rcases resolve_value_source h with ⟨e'', hm, hid⟩ | hm
    · have hg : getA existing gk = some e'' := getA_of_mem_nodup hn hm
      rw [hfd] at hg
      have he : e = e'' := Option.some.inj hg
      rw [he]
      exact hid.symm
    · exact absurd rfl (hg2u (gk, uid') hm)
  have hkeys : ∀ p ∈ scan.user_stats, p.1 ≠ e.id := by
    intro p hp he
    rw [getA_none_iff_not_mem] at hstats
    exact hstats (he ▸ List.mem_map_of_mem Prod.fst hp)
  have hroute2 : ∀ p ∈ scan.user_stats, ∀ g',
      getA (resolve_uid_to_gk existing scan.game_to_user) p.1 = some g' → g' ≠ gk := by
    intro p hp g' hg' he
    subst he
    exact hkeys p hp (hroute p.1 hg')
  obtain ⟨hf1, hinv1⟩ := build_final_unique_frame
    (resolve_uid_to_gk existing scan.game_to_user) gk e.id e scan.user_stats
    (existing, []) hkeys hroute2 hfd huniq
  have htrigsne : ∀ p ∈ scan.secret_triggers, p.1 ≠ e.id := by
    intro p hp he
    rw [getA_none_iff_not_mem] at htrigs
    exact htrigs (he ▸ List.mem_map_of_mem Prod.fst hp)
  have hf2 : getA (merge_triggers
      (build_final existing (resolve_uid_to_gk existing scan.game_to_user) scan.user_stats)
      scan.secret_triggers) gk = some e := by
    rw [getA_merge_triggers]
    rw [show getA (build_final existing (resolve_uid_to_gk existing scan.game_to_user)
      scan.user_stats) gk = some e from hf1]
    simp only [Option.map_some']
    rw [mergeTrigsFor_frame e.id scan.secret_triggers htrigsne]
  have hinv2 : ∀ gk' e', getA (merge_triggers
      (build_final existing (resolve_uid_to_gk existing scan.game_to_user) scan.user_stats)
      scan.secret_triggers) gk' = some e' → e'.id = e.id → gk' = gk := by
    intro gk' e' h2 hid2
    rw [getA_merge_triggers] at h2
    rcases h1 : getA (build_final existing (resolve_uid_to_gk existing scan.game_to_user)
        scan.user_stats) gk' with _ | e0
    · rw [h1] at h2; cases h2
    · rw [h1] at h2
      simp only [Option.map_some'] at h2
      have hid0 : e0.id = e.id := by
        rw [← hid2, ← Option.some.inj h2]
      exact hinv1 gk' e0 h1 hid0
  have hn1 : (keysA (build_final existing (resolve_uid_to_gk existing scan.game_to_user)
      scan.user_stats)).Nodup := nodup_keysA_build_final _ _ _ hn
  have hn2 : (keysA (merge_triggers
      (build_final existing (resolve_uid_to_gk existing scan.game_to_user) scan.user_stats)
      scan.secret_triggers)).Nodup := nodup_keysA_merge_triggers _ _ hn1
  have hn3 : (keysA (prune_old cutoff (merge_triggers
      (build_final existing (resolve_uid_to_gk existing scan.game_to_user) scan.user_stats)
      scan.secret_triggers))).Nodup := nodup_keysA_prune_old _ _ hn2
  have hf3 := @getA_prune_old cutoff _ _ _ hn2 hf2
  by_cases hemp : (pruneCounts cutoff e.counts).isEmpty
  · rw [if_pos hemp] at hf3
    rw [if_pos hemp]
    exact getA_dedup_none hf3
  · rw [if_neg hemp] at hf3
    rw [if_neg hemp]
    have hinv3 : ∀ gk' e', getA (prune_old cutoff (merge_triggers
        (build_final existing (resolve_uid_to_gk existing scan.game_to_user) scan.user_stats)
        scan.secret_triggers)) gk' = some e' → e'.id = e.id → gk' = gk := by
      intro gk' e' h3 hid3
      have hm := getA_some_mem h3
      rcases mem_prune_old hm with ⟨e0, hm0, hee, _⟩
      have h0 := getA_of_mem_nodup hn2 hm0
      have hide : e0.id = e.id := by
        have he' : e' = ⟨e0.id, pruneCounts cutoff e0.counts, e0.secretTriggers⟩ := hee
        rw [← hid3, he']
      exact hinv2 gk' e0 h0 hide
    have hgrp : (groupKeys (prune_old cutoff (merge_triggers
        (build_final existing (resolve_uid_to_gk existing scan.game_to_user) scan.user_stats)
        scan.secret_triggers)) e.id).length ≤ 1 := by
      apply nodup_all_eq_le_one (groupKeys_nodup hn3 _)
      intro x hx
      rcases groupKeys_id hn3 hx with ⟨ex, hex, hexid⟩
      exact hinv3 x ex hex hexid
    exact getA_dedup_keep hn3 hf3 (Or.inr (Or.inl hgrp))

/-- Witness for C10 as amended: a single persisted entry for user "u" with
fresh counts, against an empty scan, survives with only its counts pruned. -/
theorem c10_amended_untouched_entry_witness :
    getA (run_reconcile [("aaaaaaaa", ⟨"u", [("2024/05/10", [("1", 7)])], ["h0"]⟩)]
      ⟨[], [], []⟩ "2024/05/01") "aaaaaaaa" =
      if (pruneCounts "2024/05/01" [("2024/05/10", [("1", 7)])]).isEmpty then none
      else some ⟨"u", pruneCounts "2024/05/01" [("2024/05/10", [("1", 7)])], ["h0"]⟩ := by
  have huniq : ∀ gk' e',
      getA [("aaaaaaaa", (⟨"u", [("2024/05/10", [("1", 7)])], ["h0"]⟩ : FinalEntry))] gk' =
        some e' →
      e'.id = (⟨"u", [("2024/05/10", [("1", 7)])], ["h0"]⟩ : FinalEntry).id → gk' = "aaaaaaaa" := by
    intro gk' e' hg _
    have hm := getA_some_mem hg
    exact congrArg Prod.fst (List.mem_singleton.1 hm)
  exact c10_amended_untouched_entry
    [("aaaaaaaa", ⟨"u", [("2024/05/10", [("1", 7)])], ["h0"]⟩)] ⟨[], [], []⟩ "2024/05/01"
    "aaaaaaaa" ⟨"u", [("2024/05/10", [("1", 7)])], ["h0"]⟩
    (by decide) (by decide) huniq (by decide) (by decide) (by intro p hp; cases hp)

/-! ### Claim C9: support development (idempotence of the reconciler) -/

theorem setA_ne_nil {κ α : Type} [DecidableEq κ] (m : List (κ × α)) (k : κ) (v : α) :
    setA m k v ≠ [] := by
  cases m with
  | nil => simp [setA]
  | cons p r =>
    by_cases h : p.1 = k <;> simp [setA, h]

theorem keysA_setA_mem {κ α : Type} [DecidableEq κ] {m : List (κ × α)} {k : κ} {v : α}
    {q : κ} (h : q ∈ keysA (setA m k v)) : q ∈ keysA m ∨ q = k := by
  rcases List.mem_map.1 h with ⟨p, hp, he⟩
  rcases mem_setA hp with h' | h'
  · exact Or.inl (he ▸ List.mem_map_of_mem Prod.fst h')
  · right
    rw [← he, h']

theorem addDatesC_ne_nil_left {c : Counts} (h : c ≠ []) :
    ∀ ds, addDatesC c ds ≠ [] := by
  intro ds
  induction ds generalizing c with
  | nil => exact h
  | cons dp rest ih =>
    exact ih (setA_ne_nil _ _ _)

theorem addDatesC_ne_nil_right {c : Counts} {ds : List (String × List (String × Nat))}
    (h : ds ≠ []) : addDatesC c ds ≠ [] := by
  cases ds with
  | nil => exact absurd rfl h
  | cons dp rest =>
    exact addDatesC_ne_nil_left (setA_ne_nil _ _ _) rest

theorem keysA_addDatesC {c : Counts} {ds : List (String × List (String × Nat))} :
    ∀ d ∈ keysA (addDatesC c ds), d ∈ keysA c ∨ d ∈ keysA ds := by
  induction ds generalizing c with
  | nil => exact fun d hd => Or.inl hd
  | cons dp rest ih =>
    intro d hd
    rcases ih d hd with h' | h'
    · rcases keysA_setA_mem h' with h'' | h''
      · exact Or.inl h''
      · exact Or.inr (h'' ▸ List.mem_map_of_mem Prod.fst (List.mem_cons_self dp rest))
    · exact Or.inr (List.mem_cons_of_mem _ h')

theorem foldC_ne_nil (R : DirStats) : ∀ c : Counts, c ≠ [] →
    R.foldl (fun c p => addDatesC c p.2) c ≠ [] := by
  induction R with
  | nil => exact fun c h => h
  | cons p rest ih =>
    intro c h
    exact ih _ (addDatesC_ne_nil_left h p.2)

theorem foldC_keys (cutoff : String) : ∀ (R : DirStats) (c : Counts),
    (∀ p ∈ R, ∀ d ∈ keysA p.2, strLtB d cutoff = false) →
    (∀ d ∈ keysA c, strLtB d cutoff = false) →
    ∀ d ∈ keysA (R.foldl (fun c p => addDatesC c p.2) c), strLtB d cutoff = false := by
  intro R
  induction R with
  | nil => exact fun c _ hc => hc
  | cons p rest ih =>
    intro c hR hc
    refine ih _ (fun q hq => hR q (List.mem_cons_of_mem p hq)) ?_
    intro d hd
    rcases keysA_addDatesC d hd with h' | h'
    · exact hc d h'
    · exact hR p (List.mem_cons_self p rest) d h'

theorem foldC_props (cutoff : String) (R : DirStats)
    (hR : ∀ p ∈ R, p.2 ≠ [] ∧ ∀ d ∈ keysA p.2, strLtB d cutoff = false)
    (hne : R ≠ []) :
    R.foldl (fun c p => addDatesC c p.2) [] ≠ [] ∧
    ∀ d ∈ keysA (R.foldl (fun c p => addDatesC c p.2) []), strLtB d cutoff = false := by
  constructor
  · cases R with
    | nil => exact absurd rfl hne
    | cons p rest =>
      rw [List.foldl_cons]
      exact foldC_ne_nil rest _
        (addDatesC_ne_nil_right (hR p (List.mem_cons_self p rest)).1)
  · exact foldC_keys cutoff R [] (fun p hp => (hR p hp).2) (by intro d hd; cases hd)

theorem isEmpty_false_of_ne_nil {α : Type} {l : List α} (h : l ≠ []) :
    l.isEmpty = false := by
  cases l with
  | nil => exact absurd rfl h
  | cons a t => rfl

theorem pruneCounts_eq_self {cutoff : String} {c : Counts}
    (h : ∀ d ∈ keysA c, strLtB d cutoff = false) : pruneCounts cutoff c = c := by
  unfold pruneCounts
  rw [List.filter_eq_self]
  intro dp hdp
  have := h dp.1 (List.mem_map_of_mem Prod.fst hdp)
  simp [this]

theorem pruneCounts_idem (cutoff : String) (c : Counts) :
    pruneCounts cutoff (pruneCounts cutoff c) = pruneCounts cutoff c :=
  pruneCounts_eq_self (fun d hd => by
    rcases List.mem_map.1 hd with ⟨dp, hdp, he⟩
    exact he ▸ mem_pruneCounts hdp)

theorem mem_appendNewTriggers_left {l ts : List String} :
    ∀ x ∈ l, x ∈ appendNewTriggers l ts := by
  induction ts generalizing l with
  | nil => exact fun x hx => hx
  | cons t rest ih =>
    intro x hx
    show x ∈ appendNewTriggers (if t ∈ l then l else l ++ [t]) rest
    by_cases ht : t ∈ l
    · rw [if_pos ht]
      exact ih x hx
    · rw [if_neg ht]
      exact ih x (List.mem_append_left _ hx)

theorem mem_appendNewTriggers_right {l ts : List String} :
    ∀ t ∈ ts, t ∈ appendNewTriggers l ts := by
  induction ts generalizing l with
  | nil => intro t ht; cases ht
  | cons t0 rest ih =>
    intro t ht
    show t ∈ appendNewTriggers (if t0 ∈ l then l else l ++ [t0]) rest
    rcases List.mem_cons.1 ht with he | hm
    · subst he
      by_cases ht0 : t ∈ l
      · rw [if_pos ht0]
        exact mem_appendNewTriggers_left t ht0
      · rw [if_neg ht0]
        exact mem_appendNewTriggers_left t (List.mem_append_right _ (List.mem_singleton.2 rfl))
    · by_cases ht0 : t0 ∈ l <;> [rw [if_pos ht0]; rw [if_neg ht0]] <;> exact ih t hm

theorem appendNewTriggers_eq_self {l ts : List String} (h : ∀ t ∈ ts, t ∈ l) :
    appendNewTriggers l ts = l := by
  induction ts with
  | nil => rfl
  | cons t rest ih =>
    show appendNewTriggers (if t ∈ l then l else l ++ [t]) rest = l
    rw [if_pos (h t (List.mem_cons_self t rest))]
    exact ih (fun t' ht' => h t' (List.mem_cons_of_mem t ht'))

theorem mem_mergeTrigsFor_left {u : String} {trigs : List (String × List String)} :
    ∀ {l : List String}, ∀ x ∈ l, x ∈ mergeTrigsFor u l trigs := by
  induction trigs with
  | nil => exact fun x hx => hx
  | cons p rest ih =>
    intro l x hx
    show x ∈ mergeTrigsFor u (if u = p.1 then appendNewTriggers l p.2 else l) rest
    by_cases hp : u = p.1
    · rw [if_pos hp]
      exact ih _ (mem_appendNewTriggers_left x hx)
    · rw [if_neg hp]
      exact ih _ hx

theorem mergeTrigsFor_contains {u : String} {trigs : List (String × List String)} :
    ∀ {l : List String}, ∀ p ∈ trigs, p.1 = u → ∀ t ∈ p.2, t ∈ mergeTrigsFor u l trigs := by
  induction trigs with
  | nil => intro l p hp; cases hp
  | cons p0 rest ih =>
    intro l p hp hid t ht
    show t ∈ mergeTrigsFor u (if u = p0.1 then appendNewTriggers l p0.2 else l) rest
    rcases List.mem_cons.1 hp with he | hm
    · subst he
      rw [if_pos hid.symm]
      exact mem_mergeTrigsFor_left _ (mem_appendNewTriggers_right t ht)
    · by_cases hp0 : u = p0.1 <;> [rw [if_pos hp0]; rw [if_neg hp0]] <;> exact ih p hm hid t ht

theorem mergeTrigsFor_eq_self {u : String} {trigs : List (String × List String)} :
    ∀ {l : List String}, (∀ p ∈ trigs, p.1 = u → ∀ t ∈ p.2, t ∈ l) →
      mergeTrigsFor u l trigs = l := by
  induction trigs with
  | nil => intro l _; rfl
  | cons p0 rest ih =>
    intro l h
    show mergeTrigsFor u (if u = p0.1 then appendNewTriggers l p0.2 else l) rest = l
    by_cases hp0 : u = p0.1
    · rw [if_pos hp0, appendNewTriggers_eq_self (h p0 (List.mem_cons_self p0 rest) hp0.symm)]
      exact ih (fun p hp => h p (List.mem_cons_of_mem p0 hp))
    · rw [if_neg hp0]
      exact ih (fun p hp => h p (List.mem_cons_of_mem p0 hp))

theorem mergeTrigsFor_idem (u : String) (l : List String)
    (trigs : List (String × List String)) :
    mergeTrigsFor u (mergeTrigsFor u l trigs) trigs = mergeTrigsFor u l trigs :=
  mergeTrigsFor_eq_self (fun p hp hid t ht => mergeTrigsFor_contains p hp hid t ht)

theorem keyStatLeB_antisymm {a b : KeyStat} (h1 : keyStatLeB a b = true)
    (h2 : keyStatLeB b a = true) : a = b := by
  rw [keyStatLeB_iff] at h1 h2
  obtain ⟨a1, a2, a3⟩ := a
  obtain ⟨b1, b2, b3⟩ := b
  simp only at h1 h2
  have he1 : a1 = b1 := by
    rcases h1 with hlt | ⟨he, _⟩
    · rcases h2 with hlt' | ⟨he', _⟩
      · exact absurd hlt' (by rw [strLtB_asymm hlt]; simp)
      · rw [he'] at hlt
        rw [strLtB_irrefl] at hlt
        cases hlt
    · exact he
  subst he1
  have h1' := h1.resolve_left (by rw [strLtB_irrefl]; simp)
  have h2' := h2.resolve_left (by rw [strLtB_irrefl]; simp)
  have he2 : a2 = b2 := by
    rcases h1'.2 with hlt | ⟨he, _⟩
    · rcases h2'.2 with hlt' | ⟨he', _⟩
      · omega
      · omega
    · exact he
  subst he2
  have h1'' := (h1'.2).resolve_left (by omega)
  have h2'' := (h2'.2).resolve_left (by omega)
  have he3 : a3 = b3 := by
    rcases h1''.2 with hlt | he
    · rcases h2''.2 with hlt' | he'
      · exact absurd hlt' (by rw [strLtB_asymm hlt]; simp)
      · exact he'.symm
    · exact he
  rw [he3]

theorem keyStat_thd (fd : FinalData) (k : String) : (keyStat fd k).2.2 = k := rfl

theorem keyStat_eq_of_counts {fd1 fd2 : FinalData} {k : String} {e1 e2 : FinalEntry}
    (h1 : getA fd1 k = some e1) (h2 : getA fd2 k = some e2)
    (hc : e1.counts = e2.counts) : keyStat fd1 k = keyStat fd2 k := by
  simp only [keyStat, h1, h2, hc]

theorem two_mem_le_length {α : Type} {l : List α} {a b : α} (ha : a ∈ l) (hb : b ∈ l)
    (hne : a ≠ b) : 2 ≤ l.length := by
  rcases l with _ | ⟨x, _ | ⟨y, t⟩⟩
  · cases ha
  · rw [List.mem_singleton.1 ha, List.mem_singleton.1 hb] at hne
    exact absurd rfl hne
  · simp [List.length_cons]

theorem getA_prune_old_none {cutoff : String} {fd : FinalData} {k : String}
    (h : getA fd k = none) : getA (prune_old cutoff fd) k = none := by
  rw [getA_none_iff_not_mem] at h ⊢
  intro hm
  exact h (keysA_prune_sub cutoff fd hm)

theorem nodup_keysA_delA_foldl (ls : List KeyStat) : ∀ acc : FinalData,
    (keysA acc).Nodup → (keysA (ls.foldl (fun f l => delA f l.2.2) acc)).Nodup := by
  induction ls with
  | nil => exact fun acc h => h
  | cons l rest ih =>
    intro acc h
    exact ih _ (nodup_keysA_delA acc l.2.2 h)

theorem nodup_keysA_dedupStep (acc : FinalData) (g : String × List String)
    (h : (keysA acc).Nodup) : (keysA (dedupStep acc g)).Nodup := by
  unfold dedupStep
  by_cases hl : g.2.length ≤ 1
  · rw [if_pos hl]
    exact h
  · rw [if_neg hl]
    rcases List.insertionSort dedupOrd (g.2.map (fun gk => keyStat acc gk)) with _ | ⟨w, losers⟩
    · exact h
    · exact nodup_keysA_delA_foldl losers acc h

theorem nodup_keysA_dedup {fd : FinalData} (h : (keysA fd).Nodup) :
    (keysA (dedup fd)).Nodup := by
  unfold dedup
  have haux : ∀ (gs : List (String × List String)) (acc : FinalData),
      (keysA acc).Nodup → (keysA (gs.foldl dedupStep acc)).Nodup := by
    intro gs
    induction gs with
    | nil => exact fun acc h' => h'
    | cons g rest ih =>
      intro acc h'
      exact ih _ (nodup_keysA_dedupStep acc g h')
  exact haux (dedupGroups fd) fd h

theorem routedTo_cons (u2g : List (String × String)) (gk : String) (p : String × List (String × List (String × Nat))) (r : DirStats) :
    routedTo u2g gk (p :: r) =
      if getA u2g p.1 = some gk then p :: routedTo u2g gk r else routedTo u2g gk r := by
  by_cases h : getA u2g p.1 = some gk <;> simp [routedTo, List.filter_cons, h]

theorem build_fold_char (u2g : List (String × String)) (gk : String) (hgk : gk ≠ "") :
    ∀ (stats : DirStats) (st : FinalData × List String),
      (getA ((stats.foldl (foldStep u2g) st).1) gk,
        decide (gk ∈ (stats.foldl (foldStep u2g) st).2)) =
      (routedTo u2g gk stats).foldl (fun s p => buildStep1 p.1 p.2 s)
        (getA st.1 gk, decide (gk ∈ st.2)) := by
  intro stats
  induction stats with
  | nil => intro st; rfl
  | cons p r ih =>
    intro st
    rw [List.foldl_cons, routedTo_cons]
    rcases hg : getA u2g p.1 with _ | g0
    · rw [if_neg (fun h => Option.noConfusion h)]
      have hfs : foldStep u2g st p = st := by simp [foldStep, hg]
      rw [hfs]
      exact ih st
    · by_cases hg0 : g0 = ""
      · rw [if_neg (fun h => hgk ((Option.some.inj h).symm.trans hg0))]
        have hfs : foldStep u2g st p = st := by simp [foldStep, hg, hg0]
        rw [hfs]
        exact ih st
      · by_cases hgke : g0 = gk
        · subst hgke
          rw [if_pos rfl]
          rw [ih (foldStep u2g st p)]
          have hcomp : (getA (foldStep u2g st p).1 g0,
              decide (g0 ∈ (foldStep u2g st p).2)) =
              buildStep1 p.1 p.2 (getA st.1 g0, decide (g0 ∈ st.2)) := by
            rcases hx : getA st.1 g0 with _ | e <;>
              by_cases hmem : g0 ∈ st.2 <;>
                simp [foldStep, hg, hg0, buildStep1, hx, hmem, getA_setA_self]
          rw [hcomp, List.foldl_cons]
        · rw [if_neg (fun h => hgke (Option.some.inj h))]
          rw [ih (foldStep u2g st p)]
          have hcomp : (getA (foldStep u2g st p).1 gk,
              decide (gk ∈ (foldStep u2g st p).2)) =
              (getA st.1 gk, decide (gk ∈ st.2)) := by
            have hne' : g0 ≠ gk := hgke
            have hne2 : gk ≠ g0 := fun h => hgke h.symm
            rcases hx : getA st.1 g0 with _ | e <;>
              by_cases hmem : g0 ∈ st.2 <;>
                simp [foldStep, hg, hg0, hx, hmem, getA_setA_ne _ _ gk _ hne', hne2]
          rw [hcomp]

theorem getA_build_final_char (X : FinalData) (u2g : List (String × String))
    (stats : DirStats) (gk : String) (hgk : gk ≠ "") :
    getA (build_final X u2g stats) gk = buildOutcome (getA X gk) (routedTo u2g gk stats) := by
  have h := build_fold_char u2g gk hgk stats (X, [])
  have h2 := congrArg Prod.fst h
  simp only at h2
  rw [show (decide (gk ∈ ([] : List String))) = false from rfl] at h2
  exact h2

theorem getA_build_final_emptykey (X : FinalData) (u2g : List (String × String)) :
    ∀ (stats : DirStats) (st : FinalData × List String),
      getA ((stats.foldl (foldStep u2g) st).1) "" = getA st.1 "" := by
  intro stats
  induction stats with
  | nil => intro st; rfl
  | cons p r ih =>
    intro st
    rw [List.foldl_cons, ih (foldStep u2g st p)]
    rcases hg : getA u2g p.1 with _ | g0
    · simp [foldStep, hg]
    · by_cases hg0 : g0 = ""
      · simp [foldStep, hg, hg0]
      · simp only [foldStep, hg, if_neg hg0]
        exact getA_setA_ne _ _ _ _ hg0

theorem buildOutcome_fold_true : ∀ (R : DirStats) (e : FinalEntry),
    R.foldl (fun s p => buildStep1 p.1 p.2 s) (some e, true) =
      (some { e with counts := R.foldl (fun c p => addDatesC c p.2) e.counts }, true) := by
  intro R
  induction R with
  | nil => intro e; rfl
  | cons p r ih =>
    intro e
    rw [List.foldl_cons, List.foldl_cons]
    exact ih ⟨e.id, addDatesC e.counts p.2, e.secretTriggers⟩

theorem buildOutcome_cons (x : Option FinalEntry) (r : String × List (String × List (String × Nat))) (R' : DirStats) :
    buildOutcome x (r :: R') =
      some ⟨(match x with | some e => e.id | none => r.1),
        R'.foldl (fun c p => addDatesC c p.2) (addDatesC [] r.2),
        (match x with | some e => e.secretTriggers | none => [])⟩ := by
  unfold buildOutcome
  rw [List.foldl_cons]
  rcases x with _ | e
  · rw [show buildStep1 r.1 r.2 (none, false) =
      ((some ⟨r.1, addDatesC [] r.2, []⟩ : Option FinalEntry), true) from rfl]
    rw [buildOutcome_fold_true]
  · rw [show buildStep1 r.1 r.2 (some e, false) =
      ((some ⟨e.id, addDatesC [] r.2, e.secretTriggers⟩ : Option FinalEntry), true) from rfl]
    rw [buildOutcome_fold_true]

theorem pipeAt_of_fresh {cutoff : String} {trigs : List (String × List String)}
    {e : FinalEntry} (hne : e.counts ≠ [])
    (hfresh : ∀ d ∈ keysA e.counts, strLtB d cutoff = false) :
    pipeAt cutoff trigs (some e) =
      some ⟨e.id, e.counts, mergeTrigsFor e.id e.secretTriggers trigs⟩ := by
  have hp : pruneCounts cutoff e.counts = e.counts := pruneCounts_eq_self hfresh
  simp only [pipeAt, hp, isEmpty_false_of_ne_nil hne]
  simp

theorem pipeAt_idem (cutoff : String) (trigs : List (String × List String))
    (x : Option FinalEntry) :
    pipeAt cutoff trigs (pipeAt cutoff trigs x) = pipeAt cutoff trigs x := by
  rcases x with _ | e
  · rfl
  · by_cases hemp : (pruneCounts cutoff e.counts).isEmpty
    · simp only [pipeAt, if_pos hemp]
    · simp only [pipeAt, if_neg hemp]
      rw [if_neg (by rw [pruneCounts_idem]; exact hemp)]
      simp only [pruneCounts_idem, mergeTrigsFor_idem]

theorem pipeAt_fix {cutoff : String} {trigs : List (String × List String)}
    {x : Option FinalEntry} {e : FinalEntry} (h : pipeAt cutoff trigs x = some e) :
    pipeAt cutoff trigs (some e) = some e := by
  rw [← h, pipeAt_idem]

theorem pipeAt_some_id {cutoff : String} {trigs : List (String × List String)}
    {e e' : FinalEntry} (h : pipeAt cutoff trigs (some e) = some e') : e'.id = e.id := by
  simp only [pipeAt] at h
  by_cases hemp : (pruneCounts cutoff e.counts).isEmpty
  · rw [if_pos hemp] at h
    cases h
  · rw [if_neg hemp] at h
    rw [← Option.some.inj h]

theorem run_reconcile_eq_dedup (X : FinalData) (scan : ScanResult) (cutoff : String) :
    run_reconcile X scan cutoff = dedup (preDedup scan cutoff X) := rfl

theorem getA_pipeline_char (u2g : List (String × String)) (stats : DirStats)
    (trigs : List (String × List String)) (cutoff : String) (X : FinalData)
    (hnX : (keysA X).Nodup) (k : String) :
    getA (prune_old cutoff (merge_triggers (build_final X u2g stats) trigs)) k =
      pipeAt cutoff trigs (buildOutcome (getA X k)
        (if k = "" then [] else routedTo u2g k stats)) := by
  have hn1 : (keysA (build_final X u2g stats)).Nodup := nodup_keysA_build_final _ _ _ hnX
  have hn2 : (keysA (merge_triggers (build_final X u2g stats) trigs)).Nodup :=
    nodup_keysA_merge_triggers _ _ hn1
  have hb : getA (build_final X u2g stats) k =
      buildOutcome (getA X k) (if k = "" then [] else routedTo u2g k stats) := by
    by_cases hk : k = ""
    · rw [if_pos hk]
      subst hk
      exact getA_build_final_emptykey X u2g stats (X, [])
    · rw [if_neg hk]
      exact getA_build_final_char X u2g stats k hk
  have hm : getA (merge_triggers (build_final X u2g stats) trigs) k =
      (buildOutcome (getA X k) (if k = "" then [] else routedTo u2g k stats)).map
        (fun e => ⟨e.id, e.counts, mergeTrigsFor e.id e.secretTriggers trigs⟩) := by
    rw [getA_merge_triggers, hb]
  rcases hx : buildOutcome (getA X k) (if k = "" then [] else routedTo u2g k stats) with _ | e
  · rw [hx] at hm
    simp only [Option.map_none'] at hm
    rw [getA_prune_old_none hm]
    rfl
  · rw [hx] at hm
    simp only [Option.map_some'] at hm
    rw [getA_prune_old hn2 hm]
    rfl

theorem routed_cons_pred {u2g : List (String × String)} {k : String} {stats : DirStats}
    {p : String × List (String × List (String × Nat))} {R' : DirStats}
    (h : routedTo u2g k stats = p :: R') : getA u2g p.1 = some k ∧ p ∈ stats := by
  have hm : p ∈ routedTo u2g k stats := by rw [h]; exact List.mem_cons_self p R'
  have h1 := List.of_mem_filter hm
  have h2 := List.mem_of_mem_filter hm
  exact ⟨by simpa using h1, h2⟩

theorem pipeline_id_source {u2g : List (String × String)} {stats : DirStats}
    {trigs : List (String × List String)} {cutoff : String} {X : FinalData}
    (hnX : (keysA X).Nodup) {k : String} {ex : FinalEntry}
    (h : getA (prune_old cutoff (merge_triggers (build_final X u2g stats) trigs)) k = some ex) :
    (∃ eX, getA X k = some eX ∧ eX.id = ex.id) ∨
    (getA X k = none ∧ ∃ ds R', routedTo u2g k stats = (ex.id, ds) :: R') := by
  rw [getA_pipeline_char u2g stats trigs cutoff X hnX k] at h
  have hnilcase : ∀ (hnil : (if k = "" then [] else routedTo u2g k stats) = ([] : DirStats)),
      (∃ eX, getA X k = some eX ∧ eX.id = ex.id) ∨
      (getA X k = none ∧ ∃ ds R', routedTo u2g k stats = (ex.id, ds) :: R') := by
    intro hnil
    rw [hnil] at h
    rcases hX : getA X k with _ | eX
    · rw [hX] at h
      cases h
    · rw [hX] at h
      exact Or.inl ⟨eX, rfl, (pipeAt_some_id h).symm⟩
  rcases hR : (if k = "" then [] else routedTo u2g k stats) with _ | ⟨r, R'⟩
  · exact hnilcase hR
  · have hk : k ≠ "" := by
      intro hk0
      rw [if_pos hk0] at hR
      cases hR
    rw [if_neg hk] at hR
    rw [if_neg hk, hR] at h
    rcases hX : getA X k with _ | eX
    · rw [hX, buildOutcome_cons] at h
      right
      have hid : ex.id = r.1 := pipeAt_some_id h
      refine ⟨rfl, r.2, R', ?_⟩
      rw [hid]
      exact hR
    · rw [hX, buildOutcome_cons] at h
      exact Or.inl ⟨eX, rfl, (pipeAt_some_id h).symm⟩

theorem resolved_key_id {E : FinalData} {g2u : List (String × String)}
    (hnE : (keysA E).Nodup)
    (hg2u : ∀ p ∈ g2u, ∀ e, getA E p.1 = some e → e.id = p.2)
    {u x : String} (h : getA (resolve_uid_to_gk E g2u) u = some x) :
    ∀ eE, getA E x = some eE → eE.id = u := by
  intro eE hE
  rcases resolve_value_source h with ⟨e', hm, hid⟩ | hgm
  · have := getA_of_mem_nodup hnE hm
    rw [hE] at this
    rw [← Option.some.inj this] at hid
    exact hid
  · exact hg2u (x, u) hgm eE hE

theorem resolve_not_bound (u : String) : ∀ (g2u : List (String × String))
    (base : List (String × String)), (∀ p ∈ g2u, p.2 ≠ u) →
    getA (g2u.foldl (fun a p => setA a p.2 p.1) base) u = getA base u := by
  intro g2u
  induction g2u with
  | nil => intro base _; rfl
  | cons p r ih =>
    intro base h
    rw [List.foldl_cons, ih _ (fun q hq => h q (List.mem_cons_of_mem p hq))]
    exact getA_setA_ne _ _ _ _ (h p (List.mem_cons_self p r))

theorem resolve_bound_indep (u : String) : ∀ (g2u : List (String × String))
    (b1 b2 : List (String × String)), (∃ p ∈ g2u, p.2 = u) →
    getA (g2u.foldl (fun a p => setA a p.2 p.1) b1) u =
      getA (g2u.foldl (fun a p => setA a p.2 p.1) b2) u := by
  intro g2u
  induction g2u with
  | nil =>
    rintro b1 b2 ⟨p, hp, _⟩
    cases hp
  | cons p r ih =>
    intro b1 b2 hex
    rw [List.foldl_cons, List.foldl_cons]
    by_cases hr : ∃ q ∈ r, q.2 = u
    · exact ih _ _ hr
    · have hnr : ∀ q ∈ r, q.2 ≠ u := fun q hq he => hr ⟨q, hq, he⟩
      rw [resolve_not_bound u r _ hnr, resolve_not_bound u r _ hnr]
      have hp2 : p.2 = u := by
        rcases hex with ⟨q, hq, he⟩
        rcases List.mem_cons.1 hq with he' | hq'
        · rw [← he']; exact he
        · exact absurd he (hnr q hq')
      rw [hp2, getA_setA_self, getA_setA_self]

theorem base_frame (u : String) : ∀ (E : FinalData) (acc : List (String × String)),
    (∀ p ∈ E, p.2.id ≠ u) →
    getA (E.foldl (fun a p => setA a p.2.id p.1) acc) u = getA acc u := by
  intro E
  induction E with
  | nil => intro acc _; rfl
  | cons p r ih =>
    intro acc h
    rw [List.foldl_cons, ih _ (fun q hq => h q (List.mem_cons_of_mem p hq))]
    exact getA_setA_ne _ _ _ _ (h p (List.mem_cons_self p r))

theorem base_unique (u k : String) : ∀ (E : FinalData) (acc : List (String × String)),
    (∃ p ∈ E, p.2.id = u ∧ p.1 = k) → (∀ p ∈ E, p.2.id = u → p.1 = k) →
    getA (E.foldl (fun a p => setA a p.2.id p.1) acc) u = some k := by
  intro E
  induction E with
  | nil =>
    rintro acc ⟨p, hp, _⟩ _
    cases hp
  | cons p r ih =>
    intro acc hex hall
    rw [List.foldl_cons]
    by_cases hr : ∃ q ∈ r, q.2.id = u ∧ q.1 = k
    · exact ih _ hr (fun q hq => hall q (List.mem_cons_of_mem p hq))
    · have hnr : ∀ q ∈ r, q.2.id ≠ u := by
        intro q hq he
        exact hr ⟨q, hq, he, hall q (List.mem_cons_of_mem p hq) he⟩
      rw [base_frame u r _ hnr]
      have hp2 : p.2.id = u ∧ p.1 = k := by
        rcases hex with ⟨q, hq, h1, h2⟩
        rcases List.mem_cons.1 hq with he' | hq'
        · rw [← he']; exact ⟨h1, h2⟩
        · exact absurd h1 (hnr q hq')
      rw [hp2.1, getA_setA_self, hp2.2]

theorem resolve_unbound_eq_base (X : FinalData) (g2u : List (String × String))
    (u : String) (h : ∀ p ∈ g2u, p.2 ≠ u) :
    getA (resolve_uid_to_gk X g2u) u =
      getA (X.foldl (fun a p => setA a p.2.id p.1) []) u :=
  resolve_not_bound u g2u _ h

theorem resolve_bound_eq (X Y : FinalData) (g2u : List (String × String))
    (u : String) (h : ∃ p ∈ g2u, p.2 = u) :
    getA (resolve_uid_to_gk X g2u) u = getA (resolve_uid_to_gk Y g2u) u :=
  resolve_bound_indep u g2u _ _ h

theorem preDedup_def (scan : ScanResult) (cutoff : String) (X : FinalData) :
    preDedup scan cutoff X = prune_old cutoff (merge_triggers
      (build_final X (resolve_uid_to_gk X scan.game_to_user) scan.user_stats)
      scan.secret_triggers) := rfl

theorem nodup_keysA_preDedup (scan : ScanResult) (cutoff : String) (X : FinalData)
    (h : (keysA X).Nodup) : (keysA (preDedup scan cutoff X)).Nodup := by
  rw [preDedup_def]
  exact nodup_keysA_prune_old _ _
    (nodup_keysA_merge_triggers _ _ (nodup_keysA_build_final _ _ _ h))

theorem preDedup_unique_id (E : FinalData) (scan : ScanResult) (cutoff : String)
    (hnE : (keysA E).Nodup)
    (hg2u : ∀ p ∈ scan.game_to_user, ∀ e, getA E p.1 = some e → e.id = p.2)
    {u kA : String}
    (hallE : ∀ q ∈ E, q.2.id = u → q.1 = kA)
    (hnb : ∀ q ∈ scan.game_to_user, q.2 ≠ u) :
    ∀ x ex, getA (preDedup scan cutoff E) x = some ex → ex.id = u → x = kA := by
  intro x ex hx hid
  rw [preDedup_def] at hx
  rcases pipeline_id_source hnE hx with ⟨eX, hXx, hide⟩ | ⟨hXnone, ds, R', hhead⟩
  · exact hallE (x, eX) (getA_some_mem hXx) (by rw [hide, hid])
  · rw [hid] at hhead
    obtain ⟨hpred, _⟩ := routed_cons_pred hhead
    have hpred' : getA (resolve_uid_to_gk E scan.game_to_user) u = some x := hpred
    rcases resolve_value_source hpred' with ⟨e', hm, _⟩ | hgm
    · have hgx := getA_of_mem_nodup hnE hm
      rw [hXnone] at hgx
      cases hgx
    · exact absurd rfl (hnb (x, u) hgm)

theorem preDedup_keeps_unique (E : FinalData) (scan : ScanResult) (cutoff : String)
    (hnE : (keysA E).Nodup)
    (hg2u : ∀ p ∈ scan.game_to_user, ∀ e, getA E p.1 = some e → e.id = p.2)
    (hstats : ∀ p ∈ scan.user_stats, p.2 ≠ [] ∧ ∀ d ∈ keysA p.2, strLtB d cutoff = false)
    {u kA : String} {eA : FinalEntry}
    (hEA : getA E kA = some eA) (hidA : eA.id = u)
    (hallE : ∀ q ∈ E, q.2.id = u → q.1 = kA)
    (hnb : ∀ q ∈ scan.game_to_user, q.2 ≠ u)
    (hkAne : kA ≠ "")
    (hu2g : getA (resolve_uid_to_gk E scan.game_to_user) u = some kA)
    (hup : ∃ p ∈ scan.user_stats, p.1 = u) :
    ∃ eK, getA (dedup (preDedup scan cutoff E)) kA = some eK ∧ eK.id = u := by
  obtain ⟨p, hps, hpu⟩ := hup
  have hmemR : p ∈ routedTo (resolve_uid_to_gk E scan.game_to_user) kA scan.user_stats := by
    refine List.mem_filter.2 ⟨hps, ?_⟩
    rw [hpu, hu2g]
    simp
  have hnG1 : (keysA (preDedup scan cutoff E)).Nodup := nodup_keysA_preDedup scan cutoff E hnE
  have hchar := getA_pipeline_char (resolve_uid_to_gk E scan.game_to_user) scan.user_stats
    scan.secret_triggers cutoff E hnE kA
  rw [if_neg hkAne, hEA] at hchar
  rcases hRk : routedTo (resolve_uid_to_gk E scan.game_to_user) kA scan.user_stats
    with _ | ⟨r, R'⟩
  · rw [hRk] at hmemR
    cases hmemR
  · rw [hRk, buildOutcome_cons] at hchar
    have hmemsub : ∀ q ∈ r :: R', q.2 ≠ [] ∧ ∀ d ∈ keysA q.2, strLtB d cutoff = false := by
      intro q hq
      have hq2 : q ∈ routedTo (resolve_uid_to_gk E scan.game_to_user) kA scan.user_stats := by
        rw [hRk]
        exact hq
      exact hstats q (List.mem_of_mem_filter hq2)
    have hC := foldC_props cutoff (r :: R') hmemsub (by intro h; cases h)
    have hne1 : R'.foldl (fun c p => addDatesC c p.2) (addDatesC [] r.2) ≠ [] := hC.1
    have hfr1 : ∀ d ∈ keysA (R'.foldl (fun c p => addDatesC c p.2) (addDatesC [] r.2)),
        strLtB d cutoff = false := hC.2
    rw [@pipeAt_of_fresh cutoff scan.secret_triggers
      ⟨eA.id, R'.foldl (fun c p => addDatesC c p.2) (addDatesC [] r.2), eA.secretTriggers⟩
      hne1 hfr1] at hchar
    rw [hidA] at hchar
    have hgrp : ∀ y ∈ groupKeys (preDedup scan cutoff E) u, y = kA := by
      intro y hy
      rcases groupKeys_id hnG1 hy with ⟨ey, hey, heyid⟩
      exact preDedup_unique_id E scan cutoff hnE hg2u hallE hnb y ey hey heyid
    have hle := nodup_all_eq_le_one (groupKeys_nodup hnG1 u) hgrp
    have hkeep := getA_dedup_keep hnG1 hchar (Or.inr (Or.inl hle))
    exact ⟨_, hkeep, rfl⟩

theorem c9_resolve_agree (E : FinalData) (scan : ScanResult) (cutoff : String)
    (hnE : (keysA E).Nodup)
    (hidE : ∀ p ∈ E, ∀ q ∈ E, p.2.id = q.2.id → p.1 = q.1)
    (hg2u : ∀ p ∈ scan.game_to_user, ∀ e, getA E p.1 = some e → e.id = p.2)
    (hstats : ∀ p ∈ scan.user_stats, p.2 ≠ [] ∧ ∀ d ∈ keysA p.2, strLtB d cutoff = false) :
    ∀ p ∈ scan.user_stats, ∀ x, x ≠ "" →
      (getA (resolve_uid_to_gk (dedup (preDedup scan cutoff E)) scan.game_to_user) p.1 =
          some x ↔
        getA (resolve_uid_to_gk E scan.game_to_user) p.1 = some x) := by
  intro p hps x hx
  have hnG1 : (keysA (preDedup scan cutoff E)).Nodup := nodup_keysA_preDedup scan cutoff E hnE
  have hnF1 : (keysA (dedup (preDedup scan cutoff E))).Nodup := nodup_keysA_dedup hnG1
  by_cases hb : ∃ q ∈ scan.game_to_user, q.2 = p.1
  · rw [resolve_bound_eq (dedup (preDedup scan cutoff E)) E scan.game_to_user p.1 hb]
  · have hnb : ∀ q ∈ scan.game_to_user, q.2 ≠ p.1 := fun q hq he => hb ⟨q, hq, he⟩
    rw [resolve_unbound_eq_base _ _ _ hnb, resolve_unbound_eq_base _ _ _ hnb]
    by_cases hEu : ∃ q ∈ E, q.2.id = p.1
    · obtain ⟨qA, hqA, hqid⟩ := hEu
      have hallE : ∀ q ∈ E, q.2.id = p.1 → q.1 = qA.1 :=
        fun q hq hqi => hidE q hq qA hqA (by rw [hqi, hqid])
      have hbaseE : getA (E.foldl (fun a p => setA a p.2.id p.1) []) p.1 = some qA.1 :=
        base_unique p.1 qA.1 E [] ⟨qA, hqA, hqid, rfl⟩ hallE
      by_cases hkA : qA.1 = ""
      · constructor
        · intro hF
          exfalso
          rcases resolve_base_value (dedup (preDedup scan cutoff E)) [] p.1 x hF
            with h0 | ⟨e', hm, hid'⟩
          · cases h0
          · have hgx : getA (dedup (preDedup scan cutoff E)) x = some e' :=
              getA_of_mem_nodup hnF1 hm
            have hgx1 := (getA_dedup_some hnG1 hgx).1
            have hxa := preDedup_unique_id E scan cutoff hnE hg2u hallE hnb x e' hgx1 hid'
            rw [hxa] at hx
            exact hx hkA
        · intro hE'
          exfalso
          rw [hbaseE] at hE'
          have : x = qA.1 := (Option.some.inj hE').symm
          rw [this] at hx
          exact hx hkA
      · have hu2g : getA (resolve_uid_to_gk E scan.game_to_user) p.1 = some qA.1 := by
          rw [resolve_unbound_eq_base _ _ _ hnb]
          exact hbaseE
        have heA : getA E qA.1 = some qA.2 := getA_of_mem_nodup hnE hqA
        obtain ⟨eK, hkeep, hkid⟩ := preDedup_keeps_unique E scan cutoff hnE hg2u hstats
          heA hqid hallE hnb hkA hu2g ⟨p, hps, rfl⟩
        have hallF1 : ∀ q ∈ dedup (preDedup scan cutoff E), q.2.id = p.1 → q.1 = qA.1 := by
          intro q hq hqi
          have hgq := (getA_dedup_some hnG1 (getA_of_mem_nodup hnF1 hq)).1
          exact preDedup_unique_id E scan cutoff hnE hg2u hallE hnb q.1 q.2 hgq hqi
        have hbaseF : getA ((dedup (preDedup scan cutoff E)).foldl
            (fun a p => setA a p.2.id p.1) []) p.1 = some qA.1 :=
          base_unique p.1 qA.1 _ [] ⟨(qA.1, eK), getA_some_mem hkeep, hkid, rfl⟩ hallF1
        rw [hbaseE, hbaseF]
    · have hnEu : ∀ q ∈ E, q.2.id ≠ p.1 := fun q hq he => hEu ⟨q, hq, he⟩
      have hnF1u : ∀ q ∈ dedup (preDedup scan cutoff E), q.2.id ≠ p.1 := by
        intro q hq he
        have hgq := (getA_dedup_some hnG1 (getA_of_mem_nodup hnF1 hq)).1
        rw [preDedup_def] at hgq
        rcases pipeline_id_source hnE hgq with ⟨eX, hXx, hide⟩ | ⟨hXnone, ds, R', hhead⟩
        · exact hnEu (q.1, eX) (getA_some_mem hXx) (hide.trans he)
        · rw [he] at hhead
          obtain ⟨hpred, _⟩ := routed_cons_pred hhead
          have hpred' : getA (resolve_uid_to_gk E scan.game_to_user) p.1 = some q.1 := hpred
          rw [resolve_unbound_eq_base _ _ _ hnb, base_frame p.1 E [] hnEu] at hpred'
          cases hpred'
      rw [base_frame p.1 E [] hnEu, base_frame p.1 (dedup (preDedup scan cutoff E)) [] hnF1u]

theorem dedup_transfer (G1 G2 : FinalData)
    (hnG1 : (keysA G1).Nodup) (hnG2 : (keysA G2).Nodup)
    (hsurv : ∀ k e, getA (dedup G1) k = some e → getA G2 k = some e)
    (hghost : ∀ k e2, getA (dedup G1) k = none → getA G2 k = some e2 →
      ∃ e1, getA G1 k = some e1 ∧ e1.id = e2.id ∧ e1.counts = e2.counts) :
    ∀ k, getA (dedup G2) k = getA (dedup G1) k := by
  have hgsub : ∀ u, ∀ x ∈ groupKeys G2 u, x ∈ groupKeys G1 u := by
    intro u x hx
    rcases groupKeys_id hnG2 hx with ⟨ex, hex, hexid⟩
    rcases hF1x : getA (dedup G1) x with _ | eF
    · rcases hghost x ex hF1x hex with ⟨e1, he1, hid1, _⟩
      have hg := groupKeys_of_getA he1
      rw [hid1, hexid] at hg
      exact hg
    · have h2 := hsurv x eF hF1x
      rw [hex] at h2
      have hidf : eF.id = ex.id := by rw [Option.some.inj h2]
      have hG1x := (getA_dedup_some hnG1 hF1x).1
      have hg := groupKeys_of_getA hG1x
      rw [hidf, hexid] at hg
      exact hg
  have hks : ∀ x ex, getA G2 x = some ex → keyStat G2 x = keyStat G1 x := by
    intro x ex hex
    rcases hF1x : getA (dedup G1) x with _ | eF
    · rcases hghost x ex hF1x hex with ⟨e1, he1, _, hc1⟩
      exact keyStat_eq_of_counts hex he1 hc1.symm
    · have h2 := hsurv x eF hF1x
      have hG1x := (getA_dedup_some hnG1 hF1x).1
      exact keyStat_eq_of_counts h2 hG1x rfl
  intro k
  rcases hF1k : getA (dedup G1) k with _ | e
  · rcases hG2k : getA G2 k with _ | e2
    · exact getA_dedup_none hG2k
    · rcases hghost k e2 hF1k hG2k with ⟨e1, he1, hid1, _⟩
      have hc := getA_dedup_char G1 hnG1 k
      rw [hF1k, he1] at hc
      have hred : (match some e1 with
          | none => none
          | some e =>
            if e.id ≠ "" ∧ 2 ≤ (groupKeys G1 e.id).length ∧
                k ≠ dedupWinner G1 (groupKeys G1 e.id) then none
            else some e) =
          (if e1.id ≠ "" ∧ 2 ≤ (groupKeys G1 e1.id).length ∧
              k ≠ dedupWinner G1 (groupKeys G1 e1.id) then none else some e1) := rfl
      rw [hred] at hc
      by_cases hcond : e1.id ≠ "" ∧ 2 ≤ (groupKeys G1 e1.id).length ∧
          k ≠ dedupWinner G1 (groupKeys G1 e1.id)
      · obtain ⟨hu, hlen, hkw⟩ := hcond
        have hkgrp1 : k ∈ groupKeys G1 e1.id := groupKeys_of_getA he1
        have hne1 : groupKeys G1 e1.id ≠ [] := List.ne_nil_of_mem hkgrp1
        obtain ⟨hwmem, hwmax⟩ := dedupWinner_facts G1 (groupKeys G1 e1.id) hne1
        rcases groupKeys_id hnG1 hwmem with ⟨eW, heW, hWid⟩
        have hWkeep : getA (dedup G1) (dedupWinner G1 (groupKeys G1 e1.id)) = some eW :=
          getA_dedup_keep hnG1 heW (Or.inr (Or.inr (by rw [hWid])))
        have hWG2 := hsurv _ eW hWkeep
        have hWgrp2 : dedupWinner G1 (groupKeys G1 e1.id) ∈ groupKeys G2 e1.id := by
          have hg := groupKeys_of_getA hWG2
          rw [hWid] at hg
          exact hg
        have hkgrp2 : k ∈ groupKeys G2 e1.id := by
          have hg := groupKeys_of_getA hG2k
          rw [← hid1] at hg
          exact hg
        have hlen2 : 2 ≤ (groupKeys G2 e1.id).length := two_mem_le_length hkgrp2 hWgrp2 hkw
        have hkw2 : k ≠ dedupWinner G2 (groupKeys G2 e1.id) := by
          intro hkeq
          have hne2 : groupKeys G2 e1.id ≠ [] := List.ne_nil_of_mem hkgrp2
          obtain ⟨hw2mem, hw2max⟩ := dedupWinner_facts G2 (groupKeys G2 e1.id) hne2
          have hle1 := hw2max _ hWgrp2
          rw [← hkeq] at hle1
          rcases groupKeys_id hnG2 hWgrp2 with ⟨eW2, heW2, _⟩
          rw [hks _ eW2 heW2, hks _ e2 hG2k] at hle1
          have hle2 := hwmax _ hkgrp1
          have heq := keyStatLeB_antisymm hle2 hle1
          refine hkw ?_
          rw [← keyStat_thd G1 k, heq, keyStat_thd]
        have hc2 := getA_dedup_char G2 hnG2 k
        rw [hG2k] at hc2
        have hred2 : (match some e2 with
            | none => none
            | some e =>
              if e.id ≠ "" ∧ 2 ≤ (groupKeys G2 e.id).length ∧
                  k ≠ dedupWinner G2 (groupKeys G2 e.id) then none
              else some e) =
            (if e2.id ≠ "" ∧ 2 ≤ (groupKeys G2 e2.id).length ∧
                k ≠ dedupWinner G2 (groupKeys G2 e2.id) then none else some e2) := rfl
        rw [hred2] at hc2
        rw [hc2, if_pos ⟨by rw [← hid1]; exact hu,
          by rw [← hid1]; exact hlen2, by rw [← hid1]; exact hkw2⟩]
      · rw [if_neg hcond] at hc
        cases hc
  · have hG2k := hsurv k e hF1k
    obtain ⟨hG1k, hkeep1⟩ := getA_dedup_some hnG1 hF1k
    by_cases hid0 : e.id = ""
    · exact getA_dedup_keep hnG2 hG2k (Or.inl hid0)
    · rcases hkeep1 with h0 | hlen1 | hwin1
      · exact absurd h0 hid0
      · have hsub2 : groupKeys G2 e.id ⊆ groupKeys G1 e.id := fun x hx => hgsub e.id x hx
        have hsp := List.subperm_of_subset (groupKeys_nodup hnG2 e.id) hsub2
        have hlen2 : (groupKeys G2 e.id).length ≤ 1 := le_trans hsp.length_le hlen1
        exact getA_dedup_keep hnG2 hG2k (Or.inr (Or.inl hlen2))
      · have hkgrp2 : k ∈ groupKeys G2 e.id := groupKeys_of_getA hG2k
        have hne2 : groupKeys G2 e.id ≠ [] := List.ne_nil_of_mem hkgrp2
        obtain ⟨hw2mem, hw2max⟩ := dedupWinner_facts G2 (groupKeys G2 e.id) hne2
        have hw2grp1 : dedupWinner G2 (groupKeys G2 e.id) ∈ groupKeys G1 e.id :=
          hgsub e.id _ hw2mem
        have hkgrp1 : k ∈ groupKeys G1 e.id := groupKeys_of_getA hG1k
        have hne1' : groupKeys G1 e.id ≠ [] := List.ne_nil_of_mem hkgrp1
        obtain ⟨hwmem, hwmax⟩ := dedupWinner_facts G1 (groupKeys G1 e.id) hne1'
        have hle1 := hw2max _ hkgrp2
        rcases groupKeys_id hnG2 hw2mem with ⟨ew2, hew2, _⟩
        rw [hks _ e hG2k, hks _ ew2 hew2] at hle1
        have hle2 := hwmax _ hw2grp1
        rw [← hwin1] at hle2
        have heq := keyStatLeB_antisymm hle1 hle2
        have hthd : k = dedupWinner G2 (groupKeys G2 e.id) := by
          rw [← keyStat_thd G1 k, heq, keyStat_thd]
        exact getA_dedup_keep hnG2 hG2k (Or.inr (Or.inr hthd))

theorem c9_routed_agree (E : FinalData) (scan : ScanResult) (cutoff : String)
    (hnE : (keysA E).Nodup)
    (hidE : ∀ p ∈ E, ∀ q ∈ E, p.2.id = q.2.id → p.1 = q.1)
    (hg2u : ∀ p ∈ scan.game_to_user, ∀ e, getA E p.1 = some e → e.id = p.2)
    (hstats : ∀ p ∈ scan.user_stats, p.2 ≠ [] ∧ ∀ d ∈ keysA p.2, strLtB d cutoff = false) :
    ∀ x, x ≠ "" →
      routedTo (resolve_uid_to_gk (dedup (preDedup scan cutoff E)) scan.game_to_user)
          x scan.user_stats =
        routedTo (resolve_uid_to_gk E scan.game_to_user) x scan.user_stats := by
  intro x hx
  unfold routedTo
  apply List.filter_congr
  intro p hp
  exact decide_eq_decide.2 (c9_resolve_agree E scan cutoff hnE hidE hg2u hstats p hp x hx)

theorem c9_char2 (E : FinalData) (scan : ScanResult) (cutoff : String)
    (hnE : (keysA E).Nodup)
    (hidE : ∀ p ∈ E, ∀ q ∈ E, p.2.id = q.2.id → p.1 = q.1)
    (hg2u : ∀ p ∈ scan.game_to_user, ∀ e, getA E p.1 = some e → e.id = p.2)
    (hstats : ∀ p ∈ scan.user_stats, p.2 ≠ [] ∧ ∀ d ∈ keysA p.2, strLtB d cutoff = false)
    (k : String) :
    getA (preDedup scan cutoff (dedup (preDedup scan cutoff E))) k =
      pipeAt cutoff scan.secret_triggers
        (buildOutcome (getA (dedup (preDedup scan cutoff E)) k)
          (if k = "" then []
           else routedTo (resolve_uid_to_gk E scan.game_to_user) k scan.user_stats)) := by
  have hnF1 : (keysA (dedup (preDedup scan cutoff E))).Nodup :=
    nodup_keysA_dedup (nodup_keysA_preDedup scan cutoff E hnE)
  rw [preDedup_def, getA_pipeline_char _ scan.user_stats scan.secret_triggers cutoff _ hnF1 k]
  by_cases hk : k = ""
  · rw [if_pos hk, if_pos hk]
  · rw [if_neg hk, if_neg hk, c9_routed_agree E scan cutoff hnE hidE hg2u hstats k hk]

theorem buildOutcome_cons_some (e : FinalEntry)
    (r : String × List (String × List (String × Nat))) (R' : DirStats) :
    buildOutcome (some e) (r :: R') =
      some ⟨e.id, R'.foldl (fun c p => addDatesC c p.2) (addDatesC [] r.2),
        e.secretTriggers⟩ :=
  buildOutcome_cons (some e) r R'

theorem buildOutcome_cons_none
    (r : String × List (String × List (String × Nat))) (R' : DirStats) :
    buildOutcome none (r :: R') =
      some ⟨r.1, R'.foldl (fun c p => addDatesC c p.2) (addDatesC [] r.2), []⟩ :=
  buildOutcome_cons none r R'

theorem c9_surv (E : FinalData) (scan : ScanResult) (cutoff : String)
    (hnE : (keysA E).Nodup)
    (hidE : ∀ p ∈ E, ∀ q ∈ E, p.2.id = q.2.id → p.1 = q.1)
    (hg2u : ∀ p ∈ scan.game_to_user, ∀ e, getA E p.1 = some e → e.id = p.2)
    (hstats : ∀ p ∈ scan.user_stats, p.2 ≠ [] ∧ ∀ d ∈ keysA p.2, strLtB d cutoff = false) :
    ∀ k e, getA (dedup (preDedup scan cutoff E)) k = some e →
      getA (preDedup scan cutoff (dedup (preDedup scan cutoff E))) k = some e := by
  intro k e h
  have hnG1 := nodup_keysA_preDedup scan cutoff E hnE
  have hG1k := (getA_dedup_some hnG1 h).1
  have hchar1 : getA (preDedup scan cutoff E) k =
      pipeAt cutoff scan.secret_triggers (buildOutcome (getA E k)
        (if k = "" then []
         else routedTo (resolve_uid_to_gk E scan.game_to_user) k scan.user_stats)) := by
    rw [preDedup_def]
    exact getA_pipeline_char _ _ _ _ _ hnE k
  rw [c9_char2 E scan cutoff hnE hidE hg2u hstats k, h]
  rcases hRk : (if k = "" then []
      else routedTo (resolve_uid_to_gk E scan.game_to_user) k scan.user_stats)
    with _ | ⟨r, R'⟩
  · rw [hRk] at hchar1
    exact pipeAt_fix (hchar1.symm.trans hG1k)
  · have hk : k ≠ "" := by
      intro h0
      rw [if_pos h0] at hRk
      cases hRk
    rw [if_neg hk] at hRk
    rw [if_neg hk, hRk] at hchar1
    have hmemsub : ∀ q ∈ r :: R', q.2 ≠ [] ∧ ∀ d ∈ keysA q.2, strLtB d cutoff = false := by
      intro q hq
      have hq2 : q ∈ routedTo (resolve_uid_to_gk E scan.game_to_user) k scan.user_stats := by
        rw [hRk]
        exact hq
      exact hstats q (List.mem_of_mem_filter hq2)
    have hC := foldC_props cutoff (r :: R') hmemsub (by intro h0; cases h0)
    have hne1 : R'.foldl (fun c p => addDatesC c p.2) (addDatesC [] r.2) ≠ [] := hC.1
    have hfr1 : ∀ d ∈ keysA (R'.foldl (fun c p => addDatesC c p.2) (addDatesC [] r.2)),
        strLtB d cutoff = false := hC.2
    have himg := hchar1.symm.trans hG1k
    rw [buildOutcome_cons_some]
    rw [@pipeAt_of_fresh cutoff scan.secret_triggers
      ⟨e.id, R'.foldl (fun c p => addDatesC c p.2) (addDatesC [] r.2), e.secretTriggers⟩
      hne1 hfr1]
    rcases hEk : getA E k with _ | eE
    · rw [hEk, buildOutcome_cons_none] at himg
      rw [@pipeAt_of_fresh cutoff scan.secret_triggers
        ⟨r.1, R'.foldl (fun c p => addDatesC c p.2) (addDatesC [] r.2), []⟩
        hne1 hfr1] at himg
      obtain rfl := Option.some.inj himg
      show some (⟨r.1, R'.foldl (fun c p => addDatesC c p.2) (addDatesC [] r.2),
        mergeTrigsFor r.1 (mergeTrigsFor r.1 [] scan.secret_triggers)
          scan.secret_triggers⟩ : FinalEntry) =
        some (⟨r.1, R'.foldl (fun c p => addDatesC c p.2) (addDatesC [] r.2),
          mergeTrigsFor r.1 [] scan.secret_triggers⟩ : FinalEntry)
      rw [mergeTrigsFor_idem]
    · rw [hEk, buildOutcome_cons_some] at himg
      rw [@pipeAt_of_fresh cutoff scan.secret_triggers
        ⟨eE.id, R'.foldl (fun c p => addDatesC c p.2) (addDatesC [] r.2), eE.secretTriggers⟩
        hne1 hfr1] at himg
      obtain rfl := Option.some.inj himg
      show some (⟨eE.id, R'.foldl (fun c p => addDatesC c p.2) (addDatesC [] r.2),
        mergeTrigsFor eE.id (mergeTrigsFor eE.id eE.secretTriggers scan.secret_triggers)
          scan.secret_triggers⟩ : FinalEntry) =
        some (⟨eE.id, R'.foldl (fun c p => addDatesC c p.2) (addDatesC [] r.2),
          mergeTrigsFor eE.id eE.secretTriggers scan.secret_triggers⟩ : FinalEntry)
      rw [mergeTrigsFor_idem]

theorem c9_ghost (E : FinalData) (scan : ScanResult) (cutoff : String)
    (hnE : (keysA E).Nodup)
    (hidE : ∀ p ∈ E, ∀ q ∈ E, p.2.id = q.2.id → p.1 = q.1)
    (hg2u : ∀ p ∈ scan.game_to_user, ∀ e, getA E p.1 = some e → e.id = p.2)
    (hstats : ∀ p ∈ scan.user_stats, p.2 ≠ [] ∧ ∀ d ∈ keysA p.2, strLtB d cutoff = false) :
    ∀ k e2, getA (dedup (preDedup scan cutoff E)) k = none →
      getA (preDedup scan cutoff (dedup (preDedup scan cutoff E))) k = some e2 →
      ∃ e1, getA (preDedup scan cutoff E) k = some e1 ∧ e1.id = e2.id ∧
        e1.counts = e2.counts := by
  intro k e2 hF1k hG2k
  have hchar1 : getA (preDedup scan cutoff E) k =
      pipeAt cutoff scan.secret_triggers (buildOutcome (getA E k)
        (if k = "" then []
         else routedTo (resolve_uid_to_gk E scan.game_to_user) k scan.user_stats)) := by
    rw [preDedup_def]
    exact getA_pipeline_char _ _ _ _ _ hnE k
  rw [c9_char2 E scan cutoff hnE hidE hg2u hstats k, hF1k] at hG2k
  rcases hRk : (if k = "" then []
      else routedTo (resolve_uid_to_gk E scan.game_to_user) k scan.user_stats)
    with _ | ⟨r, R'⟩
  · rw [hRk] at hG2k
    have h0 : (none : Option FinalEntry) = some e2 := hG2k
    cases h0
  · have hk : k ≠ "" := by
      intro h0
      rw [if_pos h0] at hRk
      cases hRk
    rw [if_neg hk] at hRk
    rw [if_neg hk, hRk] at hG2k
    have hmemsub : ∀ q ∈ r :: R', q.2 ≠ [] ∧ ∀ d ∈ keysA q.2, strLtB d cutoff = false := by
      intro q hq
      have hq2 : q ∈ routedTo (resolve_uid_to_gk E scan.game_to_user) k scan.user_stats := by
        rw [hRk]
        exact hq
      exact hstats q (List.mem_of_mem_filter hq2)
    have hC := foldC_props cutoff (r :: R') hmemsub (by intro h0; cases h0)
    have hne1 : R'.foldl (fun c p => addDatesC c p.2) (addDatesC [] r.2) ≠ [] := hC.1
    have hfr1 : ∀ d ∈ keysA (R'.foldl (fun c p => addDatesC c p.2) (addDatesC [] r.2)),
        strLtB d cutoff = false := hC.2
    rw [buildOutcome_cons_none] at hG2k
    rw [@pipeAt_of_fresh cutoff scan.secret_triggers
      ⟨r.1, R'.foldl (fun c p => addDatesC c p.2) (addDatesC [] r.2), []⟩
      hne1 hfr1] at hG2k
    have he2 := Option.some.inj hG2k
    rw [if_neg hk, hRk] at hchar1
    rcases hEk : getA E k with _ | eE
    · rw [hEk, buildOutcome_cons_none] at hchar1
      rw [@pipeAt_of_fresh cutoff scan.secret_triggers
        ⟨r.1, R'.foldl (fun c p => addDatesC c p.2) (addDatesC [] r.2), []⟩
        hne1 hfr1] at hchar1
      exact ⟨_, hchar1, by rw [← he2], by rw [← he2]⟩
    · rw [hEk, buildOutcome_cons_some] at hchar1
      rw [@pipeAt_of_fresh cutoff scan.secret_triggers
        ⟨eE.id, R'.foldl (fun c p => addDatesC c p.2) (addDatesC [] r.2), eE.secretTriggers⟩
        hne1 hfr1] at hchar1
      have hpred := routed_cons_pred hRk
      have hpred' : getA (resolve_uid_to_gk E scan.game_to_user) r.1 = some k := hpred.1
      have hide : eE.id = r.1 := resolved_key_id hnE hg2u hpred' eE hEk
      refine ⟨_, hchar1, ?_, ?_⟩
      · rw [← he2]
        exact hide
      · rw [← he2]

/-- Counterexample to C9: starting from a persisted state with two entries
for user "u", the first run leaves key "aaaaaaaa" with its old counts (the
stats went to "bbbbbbbb", which then lost deduplication), while the second
run, over the same scan results, replaces those counts with the scanned
stats; the two runs' outputs differ at that key. -/
theorem c9_counterexample :
    getA (run_reconcile c9ex c9sc "2024/05/10") "aaaaaaaa" =
      some ⟨"u", [("2024/05/10", [("2", 5)])], []⟩ ∧
    getA (run_reconcile (run_reconcile c9ex c9sc "2024/05/10") c9sc "2024/05/10")
        "aaaaaaaa" =
      some ⟨"u", [("2024/05/10", [("1", 1)])], []⟩ := by
  constructor
  · decide
  · decide

/-- C9 as amended: if the persisted state has no duplicate game keys and at
most one entry per userId, every binding the scan observed for a persisted
key agrees with that entry's userId, and every scanned stats entry is
nonempty with all dates inside the retention window, then re-running the
reconciliation over the same scan results and cutoff, starting from the
first run's output, yields the same entry for every game key. -/
theorem c9_amended_idempotent (E : FinalData) (scan : ScanResult) (cutoff : String)
    (hnE : (keysA E).Nodup)
    (hidE : ∀ p ∈ E, ∀ q ∈ E, p.2.id = q.2.id → p.1 = q.1)
    (hg2u : ∀ p ∈ scan.game_to_user, ∀ e, getA E p.1 = some e → e.id = p.2)
    (hstats : ∀ p ∈ scan.user_stats, p.2 ≠ [] ∧ ∀ d ∈ keysA p.2, strLtB d cutoff = false) :
    ∀ gk, getA (run_reconcile (run_reconcile E scan cutoff) scan cutoff) gk =
      getA (run_reconcile E scan cutoff) gk := by
  intro gk
  rw [run_reconcile_eq_dedup (run_reconcile E scan cutoff) scan cutoff,
    run_reconcile_eq_dedup E scan cutoff]
  exact dedup_transfer (preDedup scan cutoff E)
    (preDedup scan cutoff (dedup (preDedup scan cutoff E)))
    (nodup_keysA_preDedup scan cutoff E hnE)
    (nodup_keysA_preDedup scan cutoff _
      (nodup_keysA_dedup (nodup_keysA_preDedup scan cutoff E hnE)))
    (c9_surv E scan cutoff hnE hidE hg2u hstats)
    (c9_ghost E scan cutoff hnE hidE hg2u hstats)
    gk

/-- Witness for C9 as amended: a single persisted entry with a fresh count
against a scan for the same user; both runs agree at the entry's key. -/
theorem c9_amended_idempotent_witness :
    getA (run_reconcile (run_reconcile c9wE c9wScan "2024/05/01") c9wScan "2024/05/01")
        "aaaaaaaa" =
      getA (run_reconcile c9wE c9wScan "2024/05/01") "aaaaaaaa" :=
  c9_amended_idempotent c9wE c9wScan "2024/05/01" (by decide) (by decide) (by decide)
    (by decide) "aaaaaaaa"

end GardenSync
